import Mathlib

/-!
# A verification development for `alloc.c`

Shallow embedding of the allocator of `src/alloc.c` (`malloc`, `calloc`, `free`,
`realloc` and their helpers) over a byte-addressed memory, followed by theorems
about it.

Modelling conventions (LP64 ABI, little endian):

* memory is a total map from addresses to bytes; an `int` is 4 bytes, a pointer 8;
* `metadata_entry_t` is laid out as `size` at offset 0, `free_flag` at offset 4,
  `next` at offset 8, `prev` at offset 16, so `METADATA_SIZE = 24`;
* `size_t` arithmetic is taken modulo `2^64`, a store to an `int` truncates to 32
  bits, and the conversion `(size_t)ptr->size` sign-extends;
* addresses are natural numbers and `NULL` is `0`; pointer arithmetic is not
  wrapped (leaving the address space is undefined behaviour in C);
* `sbrk` is the operating system: the current break is part of the state and
  whether a growth request is granted is an input of the call;
* the only loop (the first-fit scan of `malloc`) is run with explicit fuel, and
  `none` stands for a scan that did not finish within the fuel.
-/

namespace Alloc

/-! ## Memory -/

/-- Byte-addressed memory. Only the low 8 bits of a cell are ever read. -/
abbrev Mem := Nat → Nat

/-- Little-endian read of `k` bytes at address `a`. -/
def rdLE (m : Mem) : Nat → Nat → Nat
  | _, 0 => 0
  | a, k + 1 => m a % 256 + 256 * rdLE m (a + 1) k

/-- Little-endian write of the low `k` bytes of `v` at address `a`. -/
def wrLE (m : Mem) (a k v : Nat) : Mem :=
  fun x => if a ≤ x ∧ x < a + k then v / 256 ^ (x - a) % 256 else m x

/-- Read of an `int`-sized cell (as its unsigned 32-bit pattern). -/
def rd32 (m : Mem) (a : Nat) : Nat := rdLE m a 4

/-- Store to an `int`-sized cell (truncating to 32 bits). -/
def wr32 (m : Mem) (a v : Nat) : Mem := wrLE m a 4 v

/-- Read of a pointer-sized cell. -/
def rd64 (m : Mem) (a : Nat) : Nat := rdLE m a 8

/-- Store to a pointer-sized cell. -/
def wr64 (m : Mem) (a v : Nat) : Mem := wrLE m a 8 v

/-- The library routine `memset(p, 0, n)`. -/
def memset0 (m : Mem) (p n : Nat) : Mem :=
  fun x => if p ≤ x ∧ x < p + n then 0 else m x

/-- The library routine `memcpy(dst, src, n)` (for non-overlapping regions). -/
def memcpy (m : Mem) (dst src n : Nat) : Mem :=
  fun x => if dst ≤ x ∧ x < dst + n then m (src + (x - dst)) else m x

/-! ## Constants and machine arithmetic -/

/-- The modulus of `size_t` arithmetic. -/
def SZ : Nat := 2 ^ 64

/-- The largest value of a C `int`. -/
def INT_MAX : Nat := 2 ^ 31 - 1

/-- The header width `sizeof(metadata_entry_t)`. -/
def METADATA_SIZE : Nat := 24

/-- The footer width `sizeof(int)`. -/
def INT_SIZE : Nat := 4

/-- The constant `SPLIT_FACTOR`. -/
def SPLIT_FACTOR : Nat := 40

/-- The constant `MERGE_FACTOR`. -/
def MERGE_FACTOR : Nat := 1

/-- The conversion `(size_t)i` of the 32-bit pattern of an `int` (sign extension). -/
def sext (v : Nat) : Nat := if v < 2 ^ 31 then v else v + (2 ^ 64 - 2 ^ 32)

/-! ## Allocator state -/

/-- The process-wide state: memory, the program break, and the two globals. -/
structure Heap where
  mem : Mem
  brk : Nat
  metadata_head : Nat
  heap_start : Nat

/-- The state of a fresh process whose break is `base`: zeroed memory, both globals `NULL`. -/
def init (base : Nat) : Heap :=
  { mem := fun _ => 0, brk := base, metadata_head := 0, heap_start := 0 }

/-- The call `sbrk(inc)` for `inc ≠ 0` (`inc` is the 64-bit pattern of the `intptr_t` argument):
`none` is the failure value `(void *)-1`, otherwise the break has moved. -/
def sbrk (s : Heap) (inc : Nat) (grant : Bool) : Option Heap :=
  if grant = false then none
  else if inc < 2 ^ 63 then some { s with brk := s.brk + inc }
  else if SZ ≤ s.brk + inc then some { s with brk := s.brk + inc - SZ }
  else none

/-! ## Helper functions of `alloc.c` -/

def is_block_free (m : Mem) (ptr : Nat) : Bool :=
  if ptr = 0 then false else rd32 m (ptr + 4) != 0

def mark_block_free (s : Heap) (ptr : Nat) : Heap :=
  if ptr = 0 then s else { s with mem := wr32 s.mem (ptr + 4) 1 }

def mark_block_used (s : Heap) (ptr : Nat) : Heap :=
  if ptr = 0 then s else { s with mem := wr32 s.mem (ptr + 4) 0 }

def get_block_size (m : Mem) (ptr : Nat) : Nat :=
  if ptr = 0 then 0 else sext (rd32 m ptr)

def get_block_address (ptr : Nat) : Nat :=
  if ptr = 0 then 0 else ptr + METADATA_SIZE

def get_block_metadata (ptr : Nat) : Nat :=
  if ptr = 0 then 0 else ptr - METADATA_SIZE

def set_block_footer (s : Heap) (ptr : Nat) : Heap :=
  if ptr = 0 then s
  else
    let footer := ptr + METADATA_SIZE + get_block_size s.mem ptr
    if footer < s.brk then { s with mem := wr32 s.mem footer (rd32 s.mem ptr) } else s

def set_block_size (s : Heap) (ptr size : Nat) : Heap :=
  if ptr = 0 then s
  else set_block_footer { s with mem := wr32 s.mem ptr size } ptr

def get_left_block (s : Heap) (ptr : Nat) : Nat :=
  if ptr = 0 then 0
  else if ptr - METADATA_SIZE < s.heap_start then 0
  else
    let left_block_size := rd32 s.mem (ptr - INT_SIZE)
    let left_block := ptr - (INT_SIZE + sext left_block_size + METADATA_SIZE) % SZ
    if is_block_free s.mem left_block then left_block else 0

def get_right_block (s : Heap) (ptr : Nat) : Nat :=
  if ptr = 0 then 0
  else
    let right_block_address := ptr + METADATA_SIZE + get_block_size s.mem ptr + INT_SIZE
    if right_block_address + METADATA_SIZE ≥ s.brk then 0
    else if is_block_free s.mem right_block_address then right_block_address else 0

def remove_block_node (s : Heap) (ptr : Nat) : Heap :=
  if ptr = 0 then s
  else
    let s1 : Heap :=
      if ptr = s.metadata_head then
        let s0 : Heap :=
          if rd64 s.mem (ptr + 8) ≠ 0 then
            { s with mem := wr64 s.mem (rd64 s.mem (ptr + 8) + 16) 0 }
          else s
        { s0 with metadata_head := rd64 s0.mem (ptr + 8) }
      else if rd64 s.mem (ptr + 16) ≠ 0 ∧ rd64 s.mem (ptr + 8) ≠ 0 then
        let m1 := wr64 s.mem (rd64 s.mem (ptr + 16) + 8) (rd64 s.mem (ptr + 8))
        { s with mem := wr64 m1 (rd64 m1 (ptr + 8) + 16) (rd64 m1 (ptr + 16)) }
      else if rd64 s.mem (ptr + 16) ≠ 0 then
        { s with mem := wr64 s.mem (rd64 s.mem (ptr + 16) + 8) (rd64 s.mem (ptr + 8)) }
      else s
    let s2 : Heap := { s1 with mem := wr64 s1.mem (ptr + 16) 0 }
    { s2 with mem := wr64 s2.mem (ptr + 8) 0 }

def merge_block (s : Heap) (ptr : Nat) : Heap :=
  let left_block := get_left_block s ptr
  let right_block := get_right_block s ptr
  if left_block ≠ 0 ∧
      get_block_size s.mem left_block ≥ get_block_size s.mem ptr * MERGE_FACTOR % SZ then
    let new_block_size :=
      (get_block_size s.mem ptr + get_block_size s.mem left_block + METADATA_SIZE + INT_SIZE) % SZ
    set_block_size s left_block new_block_size
  else
    let s1 : Heap :=
      if right_block ≠ 0 ∧
          get_block_size s.mem right_block ≥ get_block_size s.mem ptr * MERGE_FACTOR % SZ then
        let s0 := remove_block_node s right_block
        let new_block_size :=
          (get_block_size s0.mem ptr + get_block_size s0.mem right_block
            + METADATA_SIZE + INT_SIZE) % SZ
        set_block_size s0 ptr new_block_size
      else s
    let s2 := mark_block_free s1 ptr
    let s3 : Heap := { s2 with mem := wr64 s2.mem (ptr + 8) s2.metadata_head }
    let s4 : Heap :=
      if s3.metadata_head ≠ 0 then { s3 with mem := wr64 s3.mem (s3.metadata_head + 16) ptr }
      else s3
    { s4 with metadata_head := ptr }

def free (s : Heap) (ptr : Nat) : Heap :=
  if ptr = 0 then s else merge_block s (get_block_metadata ptr)

def split_block (s : Heap) (ptr trim_size : Nat) : Heap :=
  if ptr = 0 ∨ trim_size = 0 then s
  else
    let new_block := ptr + METADATA_SIZE + trim_size + INT_SIZE
    let new_block_size :=
      (get_block_size s.mem ptr + SZ - (trim_size + (METADATA_SIZE + INT_SIZE)) % SZ) % SZ
    let s1 := set_block_size s ptr trim_size
    let s2 := set_block_size s1 new_block new_block_size
    free s2 (new_block + METADATA_SIZE)

/-! ## The four public operations -/

/-- The statement `request += (METADATA_SIZE - request) & (METADATA_SIZE - 1)`. -/
def round_request (request : Nat) : Nat :=
  (request + ((METADATA_SIZE + SZ - request % SZ) % SZ &&& (METADATA_SIZE - 1))) % SZ

/-- The first-fit scan of `malloc` from node `p`: `some 0` when the list is exhausted,
`some q` for the first node `q` whose size is at least `request`, `none` without fuel. -/
def first_fit (m : Mem) (request : Nat) : Nat → Nat → Option Nat
  | 0, _ => none
  | fuel + 1, p =>
    if p = 0 then some 0
    else if get_block_size m p ≥ request then some p
    else first_fit m request fuel (rd64 m (p + 8))

/-- The function `malloc`: the new state and the returned address (`0` is `NULL`). -/
def malloc (fuel : Nat) (s : Heap) (request : Nat) (grant : Bool) : Option (Heap × Nat) :=
  if request = 0 then some (s, 0)
  else
    let s : Heap := if s.heap_start = 0 then { s with heap_start := s.brk } else s
    let request := round_request request
    match first_fit s.mem request fuel s.metadata_head with
    | none => none
    | some chosen =>
      if chosen ≠ 0 then
        let s := remove_block_node s chosen
        let s := mark_block_used s chosen
        let s :=
          if get_block_size s.mem chosen ≥ request * SPLIT_FACTOR % SZ then
            split_block s chosen request
          else s
        some (s, get_block_address chosen)
      else
        let chosen := s.brk
        match sbrk s ((METADATA_SIZE + INT_SIZE + request) % SZ) grant with
        | none => some (s, 0)
        | some s =>
          let s := set_block_size s chosen request
          let s := mark_block_used s chosen
          some (s, get_block_address chosen)

/-- The function `calloc`. -/
def calloc (fuel : Nat) (s : Heap) (num size : Nat) (grant : Bool) : Option (Heap × Nat) :=
  let allocation_size := num * size % SZ
  match malloc fuel s allocation_size grant with
  | none => none
  | some (s, ptr) =>
    if ptr = 0 then some (s, 0)
    else some ({ s with mem := memset0 s.mem ptr allocation_size }, ptr)

/-- The function `realloc`. -/
def realloc (fuel : Nat) (s : Heap) (ptr size : Nat) (grant : Bool) : Option (Heap × Nat) :=
  if ptr = 0 then malloc fuel s size grant
  else if size = 0 then some (free s ptr, 0)
  else
    let old_size := get_block_size s.mem (get_block_metadata ptr)
    if old_size ≥ size then some (s, ptr)
    else
      match malloc fuel s size grant with
      | none => none
      | some (s1, newptr) =>
        if newptr ≠ 0 then
          some (free { s1 with mem := memcpy s1.mem newptr ptr old_size } ptr, newptr)
        else some (s1, 0)

/-! ## Calls, contracts and reachable states -/

/-- A call of the public interface, or a store of the caller into a payload byte. -/
inductive Call where
  | malloc (request : Nat)
  | calloc (num size : Nat)
  | free (ptr : Nat)
  | realloc (ptr size : Nat)
  | store (addr val : Nat)

/-- Running one call; the second component is the returned address (`0` where the call
returns nothing). -/
def run (fuel : Nat) (grant : Bool) (s : Heap) : Call → Option (Heap × Nat)
  | .malloc n => malloc fuel s n grant
  | .calloc num size => calloc fuel s num size grant
  | .free p => some (free s p, 0)
  | .realloc p n => realloc fuel s p n grant
  | .store x v => some ({ s with mem := fun y => if y = x then v % 256 else s.mem y }, 0)

/-- A request respects the contract when it and its rounding fit the `int` size field. -/
def FitsInt (n : Nat) : Prop := n ≤ INT_MAX ∧ round_request n ≤ INT_MAX

/-- The contract of a call in a state whose live payload addresses are `L`. -/
def Contract (s : Heap) (L : List Nat) : Call → Prop
  | .malloc n => FitsInt n
  | .calloc num size => FitsInt (num * size)
  | .free p => p = 0 ∨ p ∈ L
  | .realloc p n => (p = 0 ∨ p ∈ L) ∧ FitsInt n
  | .store x _ => ∃ p ∈ L, p ≤ x ∧ x < p + get_block_size s.mem (get_block_metadata p)

/-- The live payload addresses after a call that returned `r`. -/
def liveAfter (L : List Nat) : Call → Nat → List Nat
  | .malloc _, r => if r = 0 then L else r :: L
  | .calloc _ _, r => if r = 0 then L else r :: L
  | .free p, _ => L.filter (fun q => q != p)
  | .realloc p n, r =>
    if p = 0 then (if r = 0 then L else r :: L)
    else if n = 0 then L.filter (fun q => q != p)
    else if r = 0 then L
    else if r = p then L
    else r :: L.filter (fun q => q != p)
  | .store _ _, _ => L

/-- The first address of the managed region (the break, as long as `heap_start` is unset). -/
def start (s : Heap) : Nat := if s.heap_start = 0 then s.brk else s.heap_start

/-- The managed region is small enough for every block size to fit an `int`. -/
def Fits (s : Heap) : Prop := s.brk ≤ start s + INT_MAX

/-- States reachable from a fresh process by contract-respecting calls, together with the
list of live payload addresses (returned by an allocation and not released since). -/
inductive Reach : Heap → List Nat → Prop
  | init (base : Nat) (h0 : 0 < base) (h1 : base + INT_MAX < SZ) : Reach (init base) []
  | step {s : Heap} {L : List Nat} (fuel : Nat) (grant : Bool) (c : Call) (s' : Heap) (r : Nat) :
      Reach s L → Contract s L c → run fuel grant s c = some (s', r) → Fits s' →
      Reach s' (liveAfter L c r)

/-- Status of a block: on the free list, handed to the caller, being allocated (flag and
links already cleared), or in transit (only size and footer are meaningful). -/
inductive St where
  | free | used | taken | raw
deriving DecidableEq

/-- A block: header address, payload size and status. -/
structure Blk where
  addr : Nat
  size : Nat
  st : St
deriving DecidableEq

/-- The blocks `bs` tile the address range from `a` to `e`. -/
def Tiles : Nat → List Blk → Nat → Prop
  | a, [], e => a = e
  | a, b :: bs, e => b.addr = a ∧ Tiles (a + 28 + b.size) bs e

/-- What memory holds for a block. -/
structure BlkOK (m : Mem) (b : Blk) : Prop where
  size_eq : rd32 m b.addr = b.size
  size_dvd : 4 ∣ b.size
  foot : rd32 m (b.addr + 24 + b.size) = b.size
  flag_free : b.st = .free → rd32 m (b.addr + 4) = 1
  flag_used : b.st = .used ∨ b.st = .taken →
    rd32 m (b.addr + 4) = 0 ∧ rd64 m (b.addr + 8) = 0 ∧ rd64 m (b.addr + 16) = 0

/-- The nodes `l` are linked in this order: each `next` is the following node (`nxt` after
the last one), and each `prev` is the preceding node (no condition when `prev = 0`). -/
def Seg (m : Mem) : Nat → List Nat → Nat → Prop
  | _, [], _ => True
  | prev, a :: l, nxt =>
    a ≠ 0 ∧ rd64 m (a + 8) = l.headD nxt ∧ (prev ≠ 0 → rd64 m (a + 16) = prev) ∧ Seg m a l nxt

/-- The allocator invariant, for the block layout `bs` and the free-list order `fl`. -/
structure WF (s : Heap) (bs : List Blk) (fl : List Nat) : Prop where
  start_pos : 0 < start s
  top : start s + INT_MAX < SZ
  fits : Fits s
  hs : bs ≠ [] → s.heap_start ≠ 0
  tiles : Tiles (start s) bs s.brk
  ok : ∀ b ∈ bs, BlkOK s.mem b
  head : s.metadata_head = fl.headD 0
  seg : Seg s.mem 0 fl 0
  nodup : fl.Nodup
  mem_fl : ∀ a, a ∈ fl ↔ ∃ b ∈ bs, b.addr = a ∧ b.st = .free
  zero : ∀ x, s.brk ≤ x → s.mem x = 0

/-- Every block is either free or handed to the caller. -/
def Clean (bs : List Blk) : Prop := ∀ b ∈ bs, b.st = .free ∨ b.st = .used

/-- The address `p` is the payload of a used block. -/
def Live (bs : List Blk) (p : Nat) : Prop := ∃ b ∈ bs, b.st = .used ∧ b.addr + 24 = p

/-- The byte `x` lies in a block that is not handed to the caller. -/
def NU (bs : List Blk) (x : Nat) : Prop :=
  ∃ b ∈ bs, b.st ≠ .used ∧ b.addr ≤ x ∧ x < b.addr + 28 + b.size

/-- Bytes of a block that the invariant does not constrain. -/
def Loose (b : Blk) (x : Nat) : Prop :=
  b.addr + 4 ≤ x ∧ x < b.addr + 24 + b.size ∧ (b.st ≠ .raw → b.addr + 8 ≤ x) ∧
    (b.st = .used ∨ b.st = .taken → b.addr + 24 ≤ x)

/-- The last statements of `merge_block` as a function of their own: mark the block free
and link it in front of the free list. -/
def link_front (s : Heap) (ptr : Nat) : Heap :=
  let s2 := mark_block_free s ptr
  let s3 : Heap := { s2 with mem := wr64 s2.mem (ptr + 8) s2.metadata_head }
  let s4 : Heap :=
    if s3.metadata_head ≠ 0 then { s3 with mem := wr64 s3.mem (s3.metadata_head + 16) ptr }
    else s3
  { s4 with metadata_head := ptr }

/-- The condition of the first `if` of `merge_block`: there is a free left neighbour whose
size is at least the size of the block. -/
def left_absorbs (s : Heap) (ptr : Nat) : Prop :=
  get_left_block s ptr ≠ 0 ∧
    get_block_size s.mem (get_left_block s ptr) ≥ get_block_size s.mem ptr * MERGE_FACTOR % SZ

/-- The condition of the second `if` of `merge_block`: there is a free right neighbour whose
size is at least the size of the block. -/
def right_absorbs (s : Heap) (ptr : Nat) : Prop :=
  get_right_block s ptr ≠ 0 ∧
    get_block_size s.mem (get_right_block s ptr) ≥ get_block_size s.mem ptr * MERGE_FACTOR % SZ

instance (s : Heap) (ptr : Nat) : Decidable (left_absorbs s ptr) := by
  unfold left_absorbs; infer_instance

instance (s : Heap) (ptr : Nat) : Decidable (right_absorbs s ptr) := by
  unfold right_absorbs; infer_instance

/-- Every used block of `bs` is still a block of `bs'`, and none of its bytes (header,
payload, footer) differs between `m` and `m'`. -/
def Keeps (bs : List Blk) (m : Mem) (bs' : List Blk) (m' : Mem) : Prop :=
  ∀ c ∈ bs, c.st = .used →
    c ∈ bs' ∧ ∀ x, c.addr ≤ x → x < c.addr + 28 + c.size → m' x = m x

/-- The statement `if(heap_start == NULL) heap_start = sbrk(0);` of `malloc`. -/
def init_heap_start (s : Heap) : Heap :=
  if s.heap_start = 0 then { s with heap_start := s.brk } else s

/-- The statements of `malloc` that take the chosen free block: unlink it, mark it used,
and split it when it is large enough. -/
def reuse_block (s : Heap) (chosen request : Nat) : Heap :=
  let s := remove_block_node s chosen
  let s := mark_block_used s chosen
  if get_block_size s.mem chosen ≥ request * SPLIT_FACTOR % SZ then
    split_block s chosen request
  else s

/-- The statements of `malloc` after a successful growth of the heap by
`METADATA_SIZE + sizeof(int) + request` bytes: the new block at the old break. -/
def fresh_block (s : Heap) (request : Nat) : Heap :=
  mark_block_used (set_block_size { s with brk := s.brk + 28 + request } s.brk request) s.brk

/-- The outcome of an allocation that returned `p` for a rounded request `r`, in terms of
the layouts before and after: either nothing was allocated, or `p` is the payload of a new
used block of size at least `r` and the other used blocks are the same. -/
def Allocated (bs bs' : List Blk) (r p : Nat) : Prop :=
  (p = 0 ∧ ∀ c, c ∈ bs' ∧ c.st = .used ↔ c ∈ bs ∧ c.st = .used) ∨
    ∃ X, X ∈ bs' ∧ X.st = .used ∧ X.addr + 24 = p ∧ r ≤ X.size ∧
      (∀ c ∈ bs, c.st = .used → c.addr ≠ X.addr) ∧
      ∀ c, c ∈ bs' ∧ c.st = .used ↔ (c ∈ bs ∧ c.st = .used) ∨ c = X

/-- The invariant of reachable states: some layout and free-list order make the heap
well formed, every block is free or used, and the live addresses are exactly the payloads of
the used blocks. -/
def Inv (s : Heap) (L : List Nat) : Prop :=
  ∃ bs fl, WF s bs fl ∧ Clean bs ∧ ∀ p, p ∈ L ↔ Live bs p

/-- The memory that is `m` below the address `B` and `u` from `B` on. -/
def overlay (B : Nat) (m u : Mem) : Mem := fun x => if x < B then m x else u x

/-- The state `s` with its memory from `B` on replaced by `u` and its break moved to `T`. -/
def with_top (B : Nat) (u : Mem) (T : Nat) (s : Heap) : Heap :=
  { s with mem := overlay B s.mem u, brk := T }

/-- The call neither releases the payload at `p` nor stores into it. -/
def Spares (s : Heap) (p : Nat) : Call → Prop
  | .malloc _ => True
  | .calloc _ _ => True
  | .free q => q ≠ p
  | .realloc q _ => q ≠ p
  | .store x _ => x < p ∨ p + get_block_size s.mem (get_block_metadata p) ≤ x

instance (n : Nat) : Decidable (FitsInt n) := by
  unfold FitsInt; infer_instance

instance (s : Heap) (L : List Nat) (c : Call) : Decidable (Contract s L c) := by
  cases c <;> unfold Contract <;> infer_instance

instance (s : Heap) : Decidable (Fits s) := by
  unfold Fits; infer_instance

instance (s : Heap) (p : Nat) (c : Call) : Decidable (Spares s p c) := by
  cases c <;> unfold Spares <;> infer_instance

/-! ## Concrete traces -/

/-- The value returned by a call (`0` when the call does not finish within the fuel). -/
def ret (fuel : Nat) (g : Bool) (s : Heap) (c : Call) : Nat :=
  match run fuel g s c with
  | some (_, r) => r
  | none => 0

/-- A state with its live addresses, after one more call. -/
def exec (fuel : Nat) (g : Bool) (sL : Heap × List Nat) (c : Call) : Heap × List Nat :=
  match run fuel g sL.1 c with
  | some (s', r) => (s', liveAfter sL.2 c r)
  | none => sL

/-- A fresh process whose break is `4096`. -/
def t0 : Heap × List Nat := (init 4096, [])

/-- After `malloc(10)`, which returns `A = 4120`. -/
def t1 : Heap × List Nat := exec 8 true t0 (.malloc 10)

/-- After a second `malloc(10)`, which returns `B = 4164`. -/
def t2 : Heap × List Nat := exec 8 true t1 (.malloc 10)

/-- After `free(A)`. -/
def t3 : Heap × List Nat := exec 8 true t2 (.free 4120)

/-- After `malloc(48)` in a fresh process, which returns `4120`. -/
def u1 : Heap × List Nat := exec 8 true t0 (.malloc 48)

/-- After `malloc(2000)`, which returns `4196`. -/
def u2 : Heap × List Nat := exec 8 true u1 (.malloc 2000)

/-- After `free(4120)`. -/
def u3 : Heap × List Nat := exec 8 true u2 (.free 4120)

/-- After `free(4196)`: two adjacent free blocks, of sizes 48 (at 4096) and 2000 (at 4172). -/
def u4 : Heap × List Nat := exec 8 true u3 (.free 4196)

/-- After `malloc(24)`, which splits the block at 4172 and returns `4196`. -/
def u5 : Heap × List Nat := exec 8 true u4 (.malloc 24)

/-- After `free(4196)`, the release of the kept half. -/
def u6 : Heap × List Nat := exec 8 true u5 (.free 4196)

/-- After `malloc(10)` and a store of the byte 77 at offset 3 of the payload. -/
def v1 : Heap × List Nat := exec 8 true t1 (.store 4123 77)

/-- After `malloc(2000)` in a fresh process, which returns `4120`. -/
def d1 : Heap × List Nat := exec 8 true t0 (.malloc 2000)

/-- After `free(4120)`: one free block of size 2000 at 4096. -/
def d2 : Heap × List Nat := exec 8 true d1 (.free 4120)

/-- After `malloc(24)`, which splits that block and returns `4120`. -/
def d3 : Heap × List Nat := exec 8 true d2 (.malloc 24)

/-- After a further `malloc(24)`, which splits the free remainder of size 1948 at 4148 and
returns `4172`. -/
def e1 : Heap × List Nat := exec 8 true d3 (.malloc 24)

/-- After `free(4172)`, the release of the kept half. -/
def e2 : Heap × List Nat := exec 8 true e1 (.free 4172)

/-- After `malloc(1948)`. -/
def e3 : Heap × List Nat := exec 8 true e2 (.malloc 1948)

/-! ## Further observations and traces -/

/-- The rounding statement of `malloc` for a header of `w` bytes:
`request += (w - request) & (w - 1)`. -/
def round_to (w request : Nat) : Nat :=
  (request + ((w + SZ - request % SZ) % SZ &&& (w - 1))) % SZ

/-- After a third `malloc(10)` in `t3`, which reuses the free block and returns `4120`. -/
def t4 : Heap × List Nat := exec 8 true t3 (.malloc 10)

/-- After a third allocation in `t2`, `malloc(200)`, which returns `4208`. -/
def m3 : Heap × List Nat := exec 8 true t2 (.malloc 200)

/-- After `malloc(10)`, which returns `4452`. -/
def m4 : Heap × List Nat := exec 8 true m3 (.malloc 10)

/-- After `malloc(10)`, which returns `4496`. -/
def m5 : Heap × List Nat := exec 8 true m4 (.malloc 10)

/-- After `free(4120)`. -/
def m6 : Heap × List Nat := exec 8 true m5 (.free 4120)

/-- After `free(4208)`. -/
def m7 : Heap × List Nat := exec 8 true m6 (.free 4208)

/-- After `free(4496)`: three free blocks separated by used ones, linked in the order
`4472` (size 16), `4184` (size 216), `4096` (size 16). -/
def m8 : Heap × List Nat := exec 8 true m7 (.free 4496)

/-- After `malloc(2000)` and `malloc(1948)`, which returns `6148` (a block of size 1968). -/
def w2 : Heap × List Nat := exec 8 true d1 (.malloc 1948)

/-- After `free(6148)`. -/
def w3 : Heap × List Nat := exec 8 true w2 (.free 6148)

/-- After `free(4120)`: two adjacent free blocks, of sizes 2000 (at 4096, the list head) and
1968 (at 6124). -/
def w4 : Heap × List Nat := exec 8 true w3 (.free 4120)

/-- After `malloc(24)`, which splits the block at 4096 and returns `4120`. -/
def w5 : Heap × List Nat := exec 8 true w4 (.malloc 24)

/-- After `malloc(984)` in a fresh process, which returns `4120`. -/
def g1 : Heap × List Nat := exec 8 true t0 (.malloc 984)

/-- After `free(4120)`: one free block of size 984 at 4096. -/
def g2 : Heap × List Nat := exec 8 true g1 (.free 4120)

/-- After `malloc(24)`, which splits that block and returns `4120`. -/
def g3 : Heap × List Nat := exec 8 true g2 (.malloc 24)

/-! ## Read-over-write lemmas -/

theorem rdLE_congr {m m' : Mem} (k : Nat) : ∀ (a : Nat),
    (∀ x, a ≤ x → x < a + k → m' x = m x) → rdLE m' a k = rdLE m a k := by
  induction k with
  | zero => intro a _; rfl
  | succ k ih =>
    intro a h
    simp only [rdLE]
    rw [h a (Nat.le_refl a) (by omega), ih (a + 1) (fun x h1 h2 => h x (by omega) (by omega))]

theorem rdLE_lt (m : Mem) (k : Nat) : ∀ a, rdLE m a k < 256 ^ k := by
  induction k with
  | zero => intro a; simp [rdLE]
  | succ k ih =>
    intro a
    have h1 := ih (a + 1)
    have h2 : m a % 256 < 256 := Nat.mod_lt _ (by decide)
    simp only [rdLE, pow_succ]
    omega

theorem wrLE_out (m : Mem) (a k v x : Nat) (h : x < a ∨ a + k ≤ x) :
    wrLE m a k v x = m x := by
  unfold wrLE
  rw [if_neg (by omega)]

theorem rdLE_wrLE_same (m : Mem) (k : Nat) : ∀ (a v : Nat),
    rdLE (wrLE m a k v) a k = v % 256 ^ k := by
  induction k with
  | zero => intro a v; simp [rdLE, Nat.mod_one]
  | succ k ih =>
    intro a v
    simp only [rdLE]
    have h0 : wrLE m a (k + 1) v a = v % 256 := by
      unfold wrLE
      rw [if_pos (by omega)]
      simp
    have h1 : rdLE (wrLE m a (k + 1) v) (a + 1) k = rdLE (wrLE m (a + 1) k (v / 256)) (a + 1) k := by
      apply rdLE_congr
      intro x hx1 hx2
      unfold wrLE
      rw [if_pos (by omega), if_pos (by omega)]
      have : x - a = (x - (a + 1)) + 1 := by omega
      rw [this, pow_succ, Nat.div_div_eq_div_mul, Nat.mul_comm]
    rw [h0, h1, ih, Nat.mod_mod, pow_succ, Nat.mul_comm (256 ^ k) 256, Nat.mod_mul]

theorem rd32_lt (m : Mem) (a : Nat) : rd32 m a < 4294967296 := rdLE_lt m 4 a

theorem rd64_lt (m : Mem) (a : Nat) : rd64 m a < 18446744073709551616 := rdLE_lt m 8 a

theorem rd32_congr {m m' : Mem} (a : Nat) (h : ∀ x, a ≤ x → x < a + 4 → m' x = m x) :
    rd32 m' a = rd32 m a := rdLE_congr 4 a h

theorem rd64_congr {m m' : Mem} (a : Nat) (h : ∀ x, a ≤ x → x < a + 8 → m' x = m x) :
    rd64 m' a = rd64 m a := rdLE_congr 8 a h

theorem wr32_out (m : Mem) (a v x : Nat) (h : x < a ∨ a + 4 ≤ x) : wr32 m a v x = m x :=
  wrLE_out m a 4 v x h

theorem wr64_out (m : Mem) (a v x : Nat) (h : x < a ∨ a + 8 ≤ x) : wr64 m a v x = m x :=
  wrLE_out m a 8 v x h

theorem rd32_wr32_same (m : Mem) (a v : Nat) : rd32 (wr32 m a v) a = v % 4294967296 :=
  rdLE_wrLE_same m 4 a v

theorem rd64_wr64_same (m : Mem) (a v : Nat) :
    rd64 (wr64 m a v) a = v % 18446744073709551616 :=
  rdLE_wrLE_same m 8 a v

theorem rd32_wr32_disj (m : Mem) (a b v : Nat) (h : b + 4 ≤ a ∨ a + 4 ≤ b) :
    rd32 (wr32 m a v) b = rd32 m b :=
  rd32_congr b (fun x h1 h2 => wr32_out m a v x (by omega))

theorem rd32_wr64_disj (m : Mem) (a b v : Nat) (h : b + 4 ≤ a ∨ a + 8 ≤ b) :
    rd32 (wr64 m a v) b = rd32 m b :=
  rd32_congr b (fun x h1 h2 => wr64_out m a v x (by omega))

theorem rd64_wr32_disj (m : Mem) (a b v : Nat) (h : b + 8 ≤ a ∨ a + 4 ≤ b) :
    rd64 (wr32 m a v) b = rd64 m b :=
  rd64_congr b (fun x h1 h2 => wr32_out m a v x (by omega))

theorem rd64_wr64_disj (m : Mem) (a b v : Nat) (h : b + 8 ≤ a ∨ a + 8 ≤ b) :
    rd64 (wr64 m a v) b = rd64 m b :=
  rd64_congr b (fun x h1 h2 => wr64_out m a v x (by omega))

theorem sext_small (v : Nat) (h : v ≤ INT_MAX) : sext v = v := by
  unfold sext INT_MAX at *
  rw [if_pos (by omega)]

/-! ## Tilings -/

theorem Tiles_nil (a e : Nat) : Tiles a [] e ↔ a = e := Iff.rfl

theorem Tiles_cons (a e : Nat) (b : Blk) (bs : List Blk) :
    Tiles a (b :: bs) e ↔ b.addr = a ∧ Tiles (a + 28 + b.size) bs e := Iff.rfl

theorem Tiles_append (l1 l2 : List Blk) : ∀ (a e : Nat),
    Tiles a (l1 ++ l2) e ↔ ∃ c, Tiles a l1 c ∧ Tiles c l2 e := by
  induction l1 with
  | nil => intro a e; simp [Tiles_nil]
  | cons b l ih =>
    intro a e
    simp only [List.cons_append, Tiles_cons, ih]
    constructor
    · rintro ⟨h1, c, h2, h3⟩
      exact ⟨c, ⟨h1, h2⟩, h3⟩
    · rintro ⟨c, ⟨h1, h2⟩, h3⟩
      exact ⟨h1, c, h2, h3⟩

theorem Tiles_le : ∀ (l : List Blk) (a e : Nat), Tiles a l e → a ≤ e := by
  intro l
  induction l with
  | nil => intro a e h; simp [Tiles] at h; omega
  | cons b l ih =>
    intro a e h
    have := ih _ _ h.2
    omega

theorem Tiles_bounds : ∀ (l : List Blk) (a e : Nat), Tiles a l e → ∀ b ∈ l,
    a ≤ b.addr ∧ b.addr + 28 + b.size ≤ e := by
  intro l
  induction l with
  | nil => intro a e _ b hb; simp at hb
  | cons c l ih =>
    intro a e h b hb
    rcases List.mem_cons.1 hb with rfl | hb
    · have := Tiles_le _ _ _ h.2
      have := h.1
      omega
    · have := ih _ _ h.2 b hb
      omega

theorem Tiles_disj : ∀ (l : List Blk) (a e : Nat), Tiles a l e → ∀ b ∈ l, ∀ c ∈ l,
    b = c ∨ b.addr + 28 + b.size ≤ c.addr ∨ c.addr + 28 + c.size ≤ b.addr := by
  intro l
  induction l with
  | nil => intro a e _ b hb; simp at hb
  | cons d l ih =>
    intro a e h b hb c hc
    rw [List.mem_cons] at hb hc
    rcases hb with rfl | hb <;> rcases hc with rfl | hc
    · exact Or.inl rfl
    · have := Tiles_bounds _ _ _ h.2 c hc
      have := h.1
      right; left; omega
    · have := Tiles_bounds _ _ _ h.2 b hb
      have := h.1
      right; right; omega
    · exact ih _ _ h.2 b hb c hc

theorem Tiles_nil_of_eq : ∀ (l : List Blk) (a : Nat), Tiles a l a → l = [] := by
  intro l a h
  cases l with
  | nil => rfl
  | cons b l =>
    have := Tiles_le _ _ _ h.2
    omega

/-- Splitting a tiling around one block. -/
theorem Tiles_split {pre post : List Blk} {b : Blk} {a e : Nat}
    (h : Tiles a (pre ++ b :: post) e) :
    Tiles a pre b.addr ∧ Tiles (b.addr + 28 + b.size) post e := by
  obtain ⟨c, h1, h2, h3⟩ := (Tiles_append _ _ _ _).1 h
  subst h2
  exact ⟨h1, h3⟩

theorem Tiles_join {pre post : List Blk} {b : Blk} {a e : Nat}
    (h1 : Tiles a pre b.addr) (h2 : Tiles (b.addr + 28 + b.size) post e) :
    Tiles a (pre ++ b :: post) e :=
  (Tiles_append _ _ _ _).2 ⟨b.addr, h1, rfl, h2⟩

/-! ## Blocks and memory changes -/

theorem BlkOK.of_reads {m m' : Mem} {b : Blk} (h : BlkOK m b)
    (h1 : rd32 m' b.addr = rd32 m b.addr)
    (h2 : rd32 m' (b.addr + 24 + b.size) = rd32 m (b.addr + 24 + b.size))
    (h3 : b.st ≠ .raw → rd32 m' (b.addr + 4) = rd32 m (b.addr + 4))
    (h4 : b.st = .used ∨ b.st = .taken →
      rd64 m' (b.addr + 8) = rd64 m (b.addr + 8) ∧ rd64 m' (b.addr + 16) = rd64 m (b.addr + 16)) :
    BlkOK m' b := by
  refine ⟨h1.trans h.size_eq, h.size_dvd, h2.trans h.foot, ?_, ?_⟩
  · intro hf
    rw [h3 (by rw [hf]; decide)]
    exact h.flag_free hf
  · intro hu
    have h5 := h.flag_used hu
    have h6 := h4 hu
    rw [h3 (by rcases hu with hu | hu <;> rw [hu] <;> decide), h6.1, h6.2]
    exact h5

/-- Changes confined to unconstrained bytes of blocks (or to bytes outside the tiled range)
preserve what memory holds for every block. -/
theorem BlkOK.frame {m m' : Mem} {bs : List Blk} {a e : Nat} (ht : Tiles a bs e)
    (hch : ∀ x, m' x ≠ m x → (∃ c ∈ bs, Loose c x) ∨ x < a ∨ e ≤ x)
    {b : Blk} (hb : b ∈ bs) (h : BlkOK m b) : BlkOK m' b := by
  have hbd := Tiles_bounds _ _ _ ht b hb
  have key : ∀ x, b.addr ≤ x → x < b.addr + 28 + b.size → ¬ Loose b x → m' x = m x := by
    intro x hx1 hx2 hl
    by_contra hne
    rcases hch x hne with ⟨c, hc, hlc⟩ | h | h
    · rcases Tiles_disj _ _ _ ht b hb c hc with rfl | h | h
      · exact hl hlc
      · unfold Loose at hlc; omega
      · unfold Loose at hlc; omega
    · omega
    · omega
  apply h.of_reads
  · exact rd32_congr _ (fun x h1 h2 => key x h1 (by omega) (by unfold Loose; omega))
  · exact rd32_congr _ (fun x h1 h2 => key x (by omega) (by omega) (by unfold Loose; omega))
  · intro hr
    exact rd32_congr _ (fun x h1 h2 => key x (by omega) (by omega)
      (by unfold Loose; intro hl; have := hl.2.2.1 hr; omega))
  · intro hu
    constructor
    · exact rd64_congr _ (fun x h1 h2 => key x (by omega) (by omega)
        (by unfold Loose; intro hl; have := hl.2.2.2 hu; omega))
    · exact rd64_congr _ (fun x h1 h2 => key x (by omega) (by omega)
        (by unfold Loose; intro hl; have := hl.2.2.2 hu; omega))

/-- Changes outside a block's own range do not affect it. -/
theorem BlkOK.outside {m m' : Mem} {b : Blk} (h : BlkOK m b)
    (hch : ∀ x, b.addr ≤ x → x < b.addr + 28 + b.size → m' x = m x) : BlkOK m' b := by
  apply h.of_reads
  · exact rd32_congr _ (fun x h1 h2 => hch x h1 (by omega))
  · exact rd32_congr _ (fun x h1 h2 => hch x (by omega) (by omega))
  · intro _
    exact rd32_congr _ (fun x h1 h2 => hch x (by omega) (by omega))
  · intro _
    exact ⟨rd64_congr _ (fun x h1 h2 => hch x (by omega) (by omega)),
      rd64_congr _ (fun x h1 h2 => hch x (by omega) (by omega))⟩

/-! ## List segments -/

theorem Seg_nil (m : Mem) (prev e : Nat) : Seg m prev [] e ↔ True := Iff.rfl

theorem Seg_cons (m : Mem) (prev e a : Nat) (l : List Nat) :
    Seg m prev (a :: l) e ↔
      a ≠ 0 ∧ rd64 m (a + 8) = l.headD e ∧ (prev ≠ 0 → rd64 m (a + 16) = prev) ∧ Seg m a l e :=
  Iff.rfl

theorem Seg_congr {m m' : Mem} : ∀ (l : List Nat) (prev e : Nat),
    (∀ a ∈ l, rd64 m' (a + 8) = rd64 m (a + 8) ∧ rd64 m' (a + 16) = rd64 m (a + 16)) →
    Seg m prev l e → Seg m' prev l e := by
  intro l
  induction l with
  | nil => intro _ _ _ _; trivial
  | cons a l ih =>
    intro prev e h hs
    obtain ⟨h1, h2, h3, h4⟩ := hs
    have ha := h a (List.mem_cons_self _ _)
    refine ⟨h1, ha.1.trans h2, fun hp => ha.2.trans (h3 hp), ?_⟩
    exact ih _ _ (fun b hb => h b (List.mem_cons_of_mem _ hb)) h4

theorem Seg_append {m : Mem} : ∀ (l1 l2 : List Nat) (prev e : Nat),
    Seg m prev (l1 ++ l2) e ↔ Seg m prev l1 (l2.headD e) ∧ Seg m (l1.getLastD prev) l2 e := by
  intro l1
  induction l1 with
  | nil => intro l2 prev e; simp [Seg_nil]
  | cons a l ih =>
    intro l2 prev e
    have hh : (l ++ l2).headD e = l.headD (l2.headD e) := by cases l <;> simp
    simp only [List.cons_append, Seg_cons, ih, List.getLastD_cons, hh]
    constructor
    · rintro ⟨h1, h2, h3, h4, h5⟩
      exact ⟨⟨h1, h2, h3, h4⟩, h5⟩
    · rintro ⟨⟨h1, h2, h3, h4⟩, h5⟩
      exact ⟨h1, h2, h3, h4, h5⟩

theorem Seg_prev0 {m : Mem} {l : List Nat} {prev e : Nat} (h : Seg m prev l e) :
    Seg m 0 l e := by
  cases l with
  | nil => trivial
  | cons a l => exact ⟨h.1, h.2.1, fun h0 => absurd rfl h0, h.2.2.2⟩

theorem start_of_ne {s : Heap} (h : s.heap_start ≠ 0) : start s = s.heap_start := by
  unfold start
  rw [if_neg h]

theorem WF.bnd {s : Heap} {bs : List Blk} {fl : List Nat} (h : WF s bs fl) {b : Blk}
    (hb : b ∈ bs) :
    0 < b.addr ∧ b.addr + 28 + b.size ≤ s.brk ∧ b.size + 28 ≤ 2147483647 ∧
      s.brk < 18446744073709551616 ∧ s.heap_start ≠ 0 ∧ s.heap_start ≤ b.addr ∧
      s.brk ≤ s.heap_start + 2147483647 := by
  have h1 := Tiles_bounds _ _ _ h.tiles b hb
  have h2 := h.fits
  have h3 := h.top
  have h4 := h.start_pos
  have h5 : s.heap_start ≠ 0 := h.hs (List.ne_nil_of_mem hb)
  have h6 := start_of_ne h5
  unfold Fits at h2
  simp only [INT_MAX, SZ] at h2 h3
  omega

theorem WF.brk_lt {s : Heap} {bs : List Blk} {fl : List Nat} (h : WF s bs fl) :
    0 < s.brk ∧ s.brk < 18446744073709551616 := by
  have h1 := Tiles_le _ _ _ h.tiles
  have h2 := h.fits
  have h3 := h.top
  have h4 := h.start_pos
  unfold Fits at h2
  simp only [INT_MAX, SZ] at h2 h3
  omega

theorem get_block_size_eq {m : Mem} {a n : Nat} (ha : a ≠ 0) (hr : rd32 m a = n)
    (hn : n ≤ 2147483647) : get_block_size m a = n := by
  unfold get_block_size
  rw [if_neg ha, hr]
  exact sext_small n (by unfold INT_MAX; omega)

theorem WF.gbs {s : Heap} {bs : List Blk} {fl : List Nat} (h : WF s bs fl) {b : Blk}
    (hb : b ∈ bs) : get_block_size s.mem b.addr = b.size := by
  have h1 := h.bnd hb
  exact get_block_size_eq (by omega) (h.ok b hb).size_eq (by omega)

theorem WF.is_free {s : Heap} {bs : List Blk} {fl : List Nat} (h : WF s bs fl) {b : Blk}
    (hb : b ∈ bs) (hf : b.st = .free) : is_block_free s.mem b.addr = true := by
  have h1 := h.bnd hb
  unfold is_block_free
  rw [if_neg (by omega), (h.ok b hb).flag_free hf]
  rfl

theorem WF.not_free {s : Heap} {bs : List Blk} {fl : List Nat} (h : WF s bs fl) {b : Blk}
    (hb : b ∈ bs) (hf : b.st = .used ∨ b.st = .taken) : is_block_free s.mem b.addr = false := by
  have h1 := h.bnd hb
  unfold is_block_free
  rw [if_neg (by omega), ((h.ok b hb).flag_used hf).1]
  rfl

/-- Two blocks with the same address are the same block. -/
theorem WF.addr_inj {s : Heap} {bs : List Blk} {fl : List Nat} (h : WF s bs fl) {b c : Blk}
    (hb : b ∈ bs) (hc : c ∈ bs) (he : b.addr = c.addr) : b = c := by
  rcases Tiles_disj _ _ _ h.tiles b hb c hc with h1 | h1 | h1
  · exact h1
  · omega
  · omega

theorem WF.fl_bnd {s : Heap} {bs : List Blk} {fl : List Nat} (h : WF s bs fl) {a : Nat}
    (ha : a ∈ fl) : 0 < a ∧ a + 28 ≤ s.brk ∧ s.brk < 18446744073709551616 := by
  obtain ⟨b, hb, rfl, _⟩ := (h.mem_fl a).1 ha
  have := h.bnd hb
  omega

/-- Distinct free-list nodes have disjoint headers. -/
theorem WF.fl_sep {s : Heap} {bs : List Blk} {fl : List Nat} (h : WF s bs fl) {a c : Nat}
    (ha : a ∈ fl) (hc : c ∈ fl) (hne : a ≠ c) : a + 28 ≤ c ∨ c + 28 ≤ a := by
  obtain ⟨b, hb, rfl, _⟩ := (h.mem_fl a).1 ha
  obtain ⟨d, hd, rfl, _⟩ := (h.mem_fl c).1 hc
  rcases Tiles_disj _ _ _ h.tiles b hb d hd with h1 | h1 | h1
  · exact absurd (congrArg Blk.addr h1) hne
  · omega
  · omega

/-! ## The basic writes, in closed form -/

theorem set_block_size_eq {s : Heap} {p n : Nat} (hp : p ≠ 0) (hn : n ≤ 2147483647)
    (hf : p + 24 + n < s.brk) :
    set_block_size s p n =
      { s with mem := wr32 (wr32 s.mem p n) (p + 24 + n) n } := by
  have h1 : rd32 (wr32 s.mem p n) p = n := by
    rw [rd32_wr32_same]; omega
  have h2 : get_block_size (wr32 s.mem p n) p = n := get_block_size_eq hp h1 hn
  unfold set_block_size set_block_footer
  simp only [if_neg hp, METADATA_SIZE, h2, h1, if_pos hf]

theorem mark_block_used_eq {s : Heap} {p : Nat} (hp : p ≠ 0) :
    mark_block_used s p = { s with mem := wr32 s.mem (p + 4) 0 } := by
  unfold mark_block_used
  rw [if_neg hp]

theorem mark_block_free_eq {s : Heap} {p : Nat} (hp : p ≠ 0) :
    mark_block_free s p = { s with mem := wr32 s.mem (p + 4) 1 } := by
  unfold mark_block_free
  rw [if_neg hp]

/-! ## Neighbour lookup -/

theorem get_left_block_first {s : Heap} {b : Blk} {post : List Blk} {fl : List Nat}
    (h : WF s (b :: post) fl) : get_left_block s b.addr = 0 := by
  have h1 := h.bnd (List.mem_cons_self b post)
  have h2 : b.addr = s.heap_start := by
    have := h.tiles.1
    rw [start_of_ne h1.2.2.2.2.1] at this
    exact this
  unfold get_left_block
  rw [if_neg (by omega), if_pos (by simp only [METADATA_SIZE]; omega)]

theorem get_left_block_next {s : Heap} {pre post : List Blk} {l b : Blk} {fl : List Nat}
    (h : WF s (pre ++ l :: b :: post) fl) :
    get_left_block s b.addr = if is_block_free s.mem l.addr then l.addr else 0 := by
  have hl : l ∈ pre ++ l :: b :: post := by simp
  have hb : b ∈ pre ++ l :: b :: post := by simp
  have h1 := h.bnd hl
  have h2 := h.bnd hb
  have h3 : l.addr + 28 + l.size = b.addr := by
    have := (Tiles_split h.tiles).2
    rw [Tiles_cons] at this
    exact this.1.symm
  have h4 : rd32 s.mem (b.addr - 4) = l.size := by
    have := (h.ok l hl).foot
    rw [← this]
    congr 1
    omega
  have h5 : b.addr - (4 + l.size + 24) % SZ = l.addr := by
    rw [Nat.mod_eq_of_lt (by unfold SZ; omega)]
    omega
  unfold get_left_block
  rw [if_neg (by omega), if_neg (by simp only [METADATA_SIZE]; omega)]
  simp only [INT_SIZE, METADATA_SIZE, h4, sext_small l.size (by unfold INT_MAX; omega), h5]

theorem get_right_block_last {s : Heap} {pre : List Blk} {b : Blk} {fl : List Nat}
    (h : WF s (pre ++ [b]) fl) : get_right_block s b.addr = 0 := by
  have hb : b ∈ pre ++ [b] := by simp
  have h1 := h.bnd hb
  have h2 : b.addr + 28 + b.size = s.brk := by
    have := (Tiles_split h.tiles).2
    rw [Tiles_nil] at this
    exact this
  unfold get_right_block
  rw [if_neg (by omega), h.gbs hb, if_pos (by simp only [METADATA_SIZE, INT_SIZE]; omega)]

theorem get_right_block_next {s : Heap} {pre post : List Blk} {b r : Blk} {fl : List Nat}
    (h : WF s (pre ++ b :: r :: post) fl) :
    get_right_block s b.addr = if is_block_free s.mem r.addr then r.addr else 0 := by
  have hb : b ∈ pre ++ b :: r :: post := by simp
  have hr : r ∈ pre ++ b :: r :: post := by simp
  have h1 := h.bnd hb
  have h2 := h.bnd hr
  have h3 : b.addr + 28 + b.size = r.addr := by
    have := (Tiles_split h.tiles).2
    rw [Tiles_cons] at this
    exact this.1.symm
  have h4 : b.addr + METADATA_SIZE + b.size + INT_SIZE = r.addr := by
    simp only [METADATA_SIZE, INT_SIZE]; omega
  unfold get_right_block
  rw [if_neg (by omega), h.gbs hb]
  simp only [h4]
  rw [if_neg (by simp only [METADATA_SIZE]; omega)]

/-! ## Re-establishing the invariant -/

theorem Seg_frame {m m' : Mem} {l : List Nat} {prev e : Nat}
    (hch : ∀ a ∈ l, ∀ x, a + 8 ≤ x → x < a + 24 → m' x = m x) (h : Seg m prev l e) :
    Seg m' prev l e := by
  apply Seg_congr l prev e _ h
  intro a ha
  exact ⟨rd64_congr _ (fun x h1 h2 => hch a ha x (by omega) (by omega)),
    rd64_congr _ (fun x h1 h2 => hch a ha x (by omega) (by omega))⟩

/-- The invariant after a change of memory (and layout) that keeps the break and
`heap_start`. -/
theorem WF.rebuild {s s' : Heap} {bs bs' : List Blk} {fl fl' : List Nat} (h : WF s bs fl)
    (hbrk : s'.brk = s.brk) (hhs : s'.heap_start = s.heap_start)
    (hne : bs' ≠ [] → bs ≠ [])
    (tiles : Tiles (start s) bs' s.brk)
    (ok : ∀ b ∈ bs', BlkOK s'.mem b)
    (head : s'.metadata_head = fl'.headD 0)
    (seg : Seg s'.mem 0 fl' 0)
    (nodup : fl'.Nodup)
    (mem_fl : ∀ a, a ∈ fl' ↔ ∃ b ∈ bs', b.addr = a ∧ b.st = .free)
    (zero : ∀ x, s.brk ≤ x → s'.mem x = s.mem x) : WF s' bs' fl' := by
  have hst : start s' = start s := by unfold start; rw [hbrk, hhs]
  refine ⟨?_, ?_, ?_, ?_, ?_, ok, head, seg, nodup, mem_fl, ?_⟩
  · rw [hst]; exact h.start_pos
  · rw [hst]; exact h.top
  · have := h.fits
    unfold Fits at *
    rw [hst, hbrk]; exact this
  · intro h1
    rw [hhs]
    exact h.hs (hne h1)
  · rw [hst, hbrk]; exact tiles
  · intro x hx
    rw [hbrk] at hx
    rw [zero x hx]
    exact h.zero x hx

/-- Changes of unconstrained bytes of blocks that are not on the free list keep the
invariant. -/
theorem WF.loose_write {s : Heap} {bs : List Blk} {fl : List Nat} (h : WF s bs fl) {m' : Mem}
    (hch : ∀ x, m' x ≠ s.mem x → ∃ c ∈ bs, Loose c x ∧ c.st ≠ .free) :
    WF { s with mem := m' } bs fl := by
  refine h.rebuild rfl rfl (fun h => h) h.tiles ?_ h.head ?_ h.nodup h.mem_fl ?_
  · intro b hb
    refine BlkOK.frame h.tiles ?_ hb (h.ok b hb)
    intro x hx
    obtain ⟨c, hc, hl, _⟩ := hch x hx
    exact Or.inl ⟨c, hc, hl⟩
  · refine Seg_frame ?_ h.seg
    intro a ha x h1 h2
    by_contra hne
    obtain ⟨c, hc, hl, hf⟩ := hch x hne
    obtain ⟨b, hb, rfl, hbf⟩ := (h.mem_fl a).1 ha
    unfold Loose at hl
    rcases Tiles_disj _ _ _ h.tiles b hb c hc with rfl | h3 | h3
    · exact hf hbf
    · omega
    · omega
  · intro x hx
    by_contra hne
    obtain ⟨c, hc, hl, _⟩ := hch x hne
    have := h.bnd hc
    unfold Loose at hl
    omega

/-- Changing the status recorded for a block to one that memory supports as well. -/
theorem WF.restatus {s : Heap} {pre post : List Blk} {b : Blk} {fl : List Nat} {t : St}
    (h : WF s (pre ++ b :: post) fl) (hb : b.st ≠ .free) (hst : t ≠ .free)
    (hok : BlkOK s.mem { b with st := t }) : WF s (pre ++ { b with st := t } :: post) fl := by
  refine h.rebuild rfl rfl (fun _ => by simp) ?_ ?_ h.head h.seg h.nodup ?_ (fun _ _ => rfl)
  · have := Tiles_split h.tiles
    exact Tiles_join (b := { b with st := t }) this.1 this.2
  · intro c hc
    simp only [List.mem_append, List.mem_cons] at hc
    rcases hc with hc | rfl | hc
    · exact h.ok c (by simp [hc])
    · exact hok
    · exact h.ok c (by simp [hc])
  · intro a
    rw [h.mem_fl a]
    simp only [List.mem_append, List.mem_cons, or_and_right, exists_or, exists_eq_left]
    constructor
    · rintro (h1 | h1 | h1)
      · exact Or.inl h1
      · exact absurd h1.2 hb
      · exact Or.inr (Or.inr h1)
    · rintro (h1 | h1 | h1)
      · exact Or.inl h1
      · exact absurd h1.2 hst
      · exact Or.inr (Or.inr h1)

/-! ## Size changes: coalescing, splitting and growth -/

/-- Writing the combined size into the first of two adjacent blocks, the second of which
is in transit, merges them. -/
theorem absorb_spec {s : Heap} {pre post : List Blk} {b1 b2 : Blk} {fl : List Nat}
    (h : WF s (pre ++ b1 :: b2 :: post) fl) (h2 : b2.st = .raw) {n : Nat}
    (hn : n = b1.size + b2.size + 28) :
    set_block_size s b1.addr n =
        { s with mem := wr32 (wr32 s.mem b1.addr n) (b1.addr + 24 + n) n } ∧
      WF (set_block_size s b1.addr n) (pre ++ { b1 with size := n } :: post) fl := by
  have hb1 : b1 ∈ pre ++ b1 :: b2 :: post := by simp
  have hb2 : b2 ∈ pre ++ b1 :: b2 :: post := by simp
  have k1 := h.bnd hb1
  have k2 := h.bnd hb2
  have ht := Tiles_split h.tiles
  have ht2 := ht.2
  rw [Tiles_cons] at ht2
  have e12 : b1.addr + 28 + b1.size = b2.addr := ht2.1.symm
  have hn' : n ≤ 2147483647 := by omega
  have heq := set_block_size_eq (s := s) (p := b1.addr) (n := n) (by omega) hn' (by omega)
  refine ⟨heq, ?_⟩
  rw [heq]
  have hch : ∀ x, (x < b1.addr ∨ b1.addr + 4 ≤ x) → (x < b1.addr + 24 + n ∨ b2.addr + 28 + b2.size ≤ x) →
      wr32 (wr32 s.mem b1.addr n) (b1.addr + 24 + n) n x = s.mem x := by
    intro x h1 h2
    rw [wr32_out _ _ _ _ (by omega), wr32_out _ _ _ _ (by omega)]
  refine h.rebuild rfl rfl (fun _ => by simp) ?_ ?_ h.head ?_ h.nodup ?_ ?_
  · refine Tiles_join (b := { b1 with size := n }) ht.1 ?_
    have := ht2.2
    have e : b1.addr + 28 + n = b1.addr + 28 + b1.size + 28 + b2.size := by omega
    show Tiles (b1.addr + 28 + n) post s.brk
    rw [e]; exact this
  · intro c hc
    simp only [List.mem_append, List.mem_cons] at hc
    rcases hc with hc | rfl | hc
    · have hc' : c ∈ pre ++ b1 :: b2 :: post := by simp [hc]
      have := Tiles_bounds _ _ _ ht.1 c hc
      exact (h.ok c hc').outside (fun x h1 h2 => hch x (by omega) (by omega))
    · have ok1 := h.ok b1 hb1
      have ok2 := h.ok b2 hb2
      have d1 := ok1.size_dvd
      have d2 := ok2.size_dvd
      refine ⟨?_, ?_, ?_, ?_, ?_⟩
      · show rd32 _ b1.addr = n
        rw [rd32_wr32_disj _ _ _ _ (by omega), rd32_wr32_same]; omega
      · show 4 ∣ n
        omega
      · show rd32 _ (b1.addr + 24 + n) = n
        rw [rd32_wr32_same]; omega
      · intro hf
        show rd32 _ (b1.addr + 4) = 1
        rw [rd32_wr32_disj _ _ _ _ (by omega), rd32_wr32_disj _ _ _ _ (by omega)]
        exact ok1.flag_free hf
      · intro hu
        show rd32 _ (b1.addr + 4) = 0 ∧ rd64 _ (b1.addr + 8) = 0 ∧ rd64 _ (b1.addr + 16) = 0
        rw [rd32_wr32_disj _ _ _ _ (by omega), rd32_wr32_disj _ _ _ _ (by omega),
          rd64_wr32_disj _ _ _ _ (by omega), rd64_wr32_disj _ _ _ _ (by omega),
          rd64_wr32_disj _ _ _ _ (by omega), rd64_wr32_disj _ _ _ _ (by omega)]
        exact ok1.flag_used hu
    · have hc' : c ∈ pre ++ b1 :: b2 :: post := by simp [hc]
      have := Tiles_bounds _ _ _ ht2.2 c hc
      exact (h.ok c hc').outside (fun x h1 h2 => hch x (by omega) (by omega))
  · refine Seg_frame ?_ h.seg
    intro a ha x h1 h2
    obtain ⟨c, hc, rfl, hcf⟩ := (h.mem_fl a).1 ha
    have kc := h.bnd hc
    rcases Tiles_disj _ _ _ h.tiles c hc b1 hb1 with rfl | h3 | h3
    · exact hch x (by omega) (by omega)
    · exact hch x (by omega) (by omega)
    · rcases Tiles_disj _ _ _ h.tiles c hc b2 hb2 with rfl | h4 | h4
      · rw [h2] at hcf; exact absurd hcf (by decide)
      · omega
      · exact hch x (by omega) (by omega)
  · intro a
    rw [h.mem_fl a]
    simp only [List.mem_append, List.mem_cons, or_and_right, exists_or, exists_eq_left, h2]
    constructor
    · rintro (h1 | h1 | h1 | h1)
      · exact Or.inl h1
      · exact Or.inr (Or.inl h1)
      · exact absurd h1.2 (by decide)
      · exact Or.inr (Or.inr h1)
    · rintro (h1 | h1 | h1)
      · exact Or.inl h1
      · exact Or.inr (Or.inl h1)
      · exact Or.inr (Or.inr (Or.inr h1))
  · intro x hx
    exact hch x (by omega) (by omega)

/-- The two size writes of `split_block`: the block keeps `r` bytes and a new block in
transit covers the rest. -/
theorem split_sizes_spec {s : Heap} {pre post : List Blk} {b : Blk} {fl : List Nat}
    (h : WF s (pre ++ b :: post) fl) {r : Nat} (hr : r + 28 ≤ b.size) (hd : 4 ∣ r) :
    set_block_size (set_block_size s b.addr r) (b.addr + 28 + r) (b.size - r - 28) =
        { s with mem := wr32 (wr32 (wr32 (wr32 s.mem b.addr r) (b.addr + 24 + r) r)
            (b.addr + 28 + r) (b.size - r - 28)) (b.addr + 24 + b.size) (b.size - r - 28) } ∧
      WF (set_block_size (set_block_size s b.addr r) (b.addr + 28 + r) (b.size - r - 28))
        (pre ++ { b with size := r } :: ⟨b.addr + 28 + r, b.size - r - 28, .raw⟩ :: post) fl := by
  have hb : b ∈ pre ++ b :: post := by simp
  have k1 := h.bnd hb
  have ht := Tiles_split h.tiles
  have heq1 := set_block_size_eq (s := s) (p := b.addr) (n := r) (by omega) (by omega)
    (by omega)
  have heq2 := set_block_size_eq
    (s := { s with mem := wr32 (wr32 s.mem b.addr r) (b.addr + 24 + r) r })
    (p := b.addr + 28 + r) (n := b.size - r - 28) (by omega) (by omega)
    (by show b.addr + 28 + r + 24 + (b.size - r - 28) < s.brk; omega)
  have e1 : b.addr + 28 + r + 24 + (b.size - r - 28) = b.addr + 24 + b.size := by omega
  rw [heq1, heq2, e1]
  refine ⟨rfl, ?_⟩
  have hch : ∀ x, (x < b.addr ∨ b.addr + 4 ≤ x) → (x < b.addr + 24 + r ∨ b.addr + 28 + r + 4 ≤ x) →
      (x < b.addr + 24 + b.size ∨ b.addr + 28 + b.size ≤ x) →
      wr32 (wr32 (wr32 (wr32 s.mem b.addr r) (b.addr + 24 + r) r)
            (b.addr + 28 + r) (b.size - r - 28)) (b.addr + 24 + b.size) (b.size - r - 28) x
        = s.mem x := by
    intro x h1 h2 h3
    rw [wr32_out _ _ _ _ (by omega), wr32_out _ _ _ _ (by omega), wr32_out _ _ _ _ (by omega),
      wr32_out _ _ _ _ (by omega)]
  refine h.rebuild rfl rfl (fun _ => by simp) ?_ ?_ h.head ?_ h.nodup ?_ ?_
  · refine Tiles_join (b := { b with size := r }) ht.1 ?_
    rw [Tiles_cons]
    refine ⟨rfl, ?_⟩
    have e : b.addr + 28 + r + 28 + (b.size - r - 28) = b.addr + 28 + b.size := by omega
    show Tiles (b.addr + 28 + r + 28 + (b.size - r - 28)) post s.brk
    rw [e]; exact ht.2
  · intro c hc
    simp only [List.mem_append, List.mem_cons] at hc
    rcases hc with hc | rfl | rfl | hc
    · have hc' : c ∈ pre ++ b :: post := by simp [hc]
      have := Tiles_bounds _ _ _ ht.1 c hc
      exact (h.ok c hc').outside (fun x h1 h2 => hch x (by omega) (by omega) (by omega))
    · have ok1 := h.ok b hb
      refine ⟨?_, hd, ?_, ?_, ?_⟩
      · show rd32 _ b.addr = r
        rw [rd32_wr32_disj _ _ _ _ (by omega), rd32_wr32_disj _ _ _ _ (by omega),
          rd32_wr32_disj _ _ _ _ (by omega), rd32_wr32_same]; omega
      · show rd32 _ (b.addr + 24 + r) = r
        rw [rd32_wr32_disj _ _ _ _ (by omega), rd32_wr32_disj _ _ _ _ (by omega),
          rd32_wr32_same]; omega
      · intro hf
        show rd32 _ (b.addr + 4) = 1
        rw [rd32_wr32_disj _ _ _ _ (by omega), rd32_wr32_disj _ _ _ _ (by omega),
          rd32_wr32_disj _ _ _ _ (by omega), rd32_wr32_disj _ _ _ _ (by omega)]
        exact ok1.flag_free hf
      · intro hu
        show rd32 _ (b.addr + 4) = 0 ∧ rd64 _ (b.addr + 8) = 0 ∧ rd64 _ (b.addr + 16) = 0
        rw [rd32_wr32_disj _ _ _ _ (by omega), rd32_wr32_disj _ _ _ _ (by omega),
          rd32_wr32_disj _ _ _ _ (by omega), rd32_wr32_disj _ _ _ _ (by omega),
          rd64_wr32_disj _ _ _ _ (by omega), rd64_wr32_disj _ _ _ _ (by omega),
          rd64_wr32_disj _ _ _ _ (by omega), rd64_wr32_disj _ _ _ _ (by omega),
          rd64_wr32_disj _ _ _ _ (by omega), rd64_wr32_disj _ _ _ _ (by omega),
          rd64_wr32_disj _ _ _ _ (by omega), rd64_wr32_disj _ _ _ _ (by omega)]
        exact ok1.flag_used hu
    · have d1 := (h.ok b hb).size_dvd
      refine ⟨?_, ?_, ?_, ?_, ?_⟩
      · show rd32 _ (b.addr + 28 + r) = b.size - r - 28
        rw [rd32_wr32_disj _ _ _ _ (by omega), rd32_wr32_same]; omega
      · show 4 ∣ b.size - r - 28
        omega
      · show rd32 _ (b.addr + 28 + r + 24 + (b.size - r - 28)) = b.size - r - 28
        rw [e1, rd32_wr32_same]; omega
      · intro hf; exact absurd hf (by simp)
      · intro hu; rcases hu with hu | hu <;> exact absurd hu (by simp)
    · have hc' : c ∈ pre ++ b :: post := by simp [hc]
      have := Tiles_bounds _ _ _ ht.2 c hc
      exact (h.ok c hc').outside (fun x h1 h2 => hch x (by omega) (by omega) (by omega))
  · refine Seg_frame ?_ h.seg
    intro a ha x h1 h2
    obtain ⟨c, hc, rfl, hcf⟩ := (h.mem_fl a).1 ha
    have kc := h.bnd hc
    rcases Tiles_disj _ _ _ h.tiles c hc b hb with rfl | h3 | h3
    · exact hch x (by omega) (by omega) (by omega)
    · exact hch x (by omega) (by omega) (by omega)
    · exact hch x (by omega) (by omega) (by omega)
  · intro a
    rw [h.mem_fl a]
    simp only [List.mem_append, List.mem_cons, or_and_right, exists_or, exists_eq_left]
    constructor
    · rintro (h1 | h1 | h1)
      · exact Or.inl h1
      · exact Or.inr (Or.inl h1)
      · exact Or.inr (Or.inr (Or.inr h1))
    · rintro (h1 | h1 | h1 | h1)
      · exact Or.inl h1
      · exact Or.inr (Or.inl h1)
      · exact absurd h1.2 (by decide)
      · exact Or.inr (Or.inr h1)
  · intro x hx
    exact hch x (by omega) (by omega) (by omega)

theorem rdLE_zero {m : Mem} (k : Nat) : ∀ (a : Nat), (∀ x, a ≤ x → x < a + k → m x = 0) →
    rdLE m a k = 0 := by
  induction k with
  | zero => intro a _; rfl
  | succ k ih =>
    intro a h
    simp only [rdLE]
    rw [h a (Nat.le_refl a) (by omega), ih (a + 1) (fun x h1 h2 => h x (by omega) (by omega))]

/-- Growth of the heap by one block: the size writes and the flag write of the miss path of
`malloc`, after the break has moved. -/
theorem grow_spec {s : Heap} {bs : List Blk} {fl : List Nat} (h : WF s bs fl)
    (hs : s.heap_start ≠ 0) {r : Nat} (hd : 4 ∣ r)
    (hfit : s.brk + 28 + r ≤ s.heap_start + 2147483647) :
    mark_block_used (set_block_size { s with brk := s.brk + 28 + r } s.brk r) s.brk =
        { s with brk := s.brk + 28 + r,
                 mem := wr32 (wr32 (wr32 s.mem s.brk r) (s.brk + 24 + r) r) (s.brk + 4) 0 } ∧
      WF (mark_block_used (set_block_size { s with brk := s.brk + 28 + r } s.brk r) s.brk)
        (bs ++ [⟨s.brk, r, .taken⟩]) fl := by
  have kb := h.brk_lt
  have hle := Tiles_le _ _ _ h.tiles
  have hst := start_of_ne hs
  rw [hst] at hle
  have heq1 := set_block_size_eq (s := { s with brk := s.brk + 28 + r }) (p := s.brk)
    (n := r) (by omega) (by omega) (by show s.brk + 24 + r < s.brk + 28 + r; omega)
  rw [heq1, mark_block_used_eq (by omega)]
  refine ⟨rfl, ?_⟩
  have hch : ∀ x, x < s.brk →
      wr32 (wr32 (wr32 s.mem s.brk r) (s.brk + 24 + r) r) (s.brk + 4) 0 x = s.mem x := by
    intro x h1
    rw [wr32_out _ _ _ _ (by omega), wr32_out _ _ _ _ (by omega), wr32_out _ _ _ _ (by omega)]
  have hz : ∀ x, s.brk + 8 ≤ x → (x < s.brk + 24 + r ∨ s.brk + 28 + r ≤ x) →
      wr32 (wr32 (wr32 s.mem s.brk r) (s.brk + 24 + r) r) (s.brk + 4) 0 x = 0 := by
    intro x h1 h2
    rw [wr32_out _ _ _ _ (by omega), wr32_out _ _ _ _ (by omega), wr32_out _ _ _ _ (by omega)]
    exact h.zero x (by omega)
  have hst' : start ({ s with brk := s.brk + 28 + r,
                                mem := wr32 (wr32 (wr32 s.mem s.brk r) (s.brk + 24 + r) r)
                                  (s.brk + 4) 0 } : Heap) = start s := by
    unfold start
    simp only [if_neg hs]
  refine ⟨?_, ?_, ?_, fun _ => hs, ?_, ?_, h.head, ?_, h.nodup, ?_, ?_⟩
  · rw [hst']; exact h.start_pos
  · rw [hst']; exact h.top
  · unfold Fits
    rw [hst', hst]
    simp only [INT_MAX]
    exact hfit
  · rw [hst']
    refine (Tiles_append _ _ _ _).2 ⟨s.brk, h.tiles, ?_⟩
    rw [Tiles_cons, Tiles_nil]
    exact ⟨rfl, rfl⟩
  · intro c hc
    simp only [List.mem_append, List.mem_singleton] at hc
    rcases hc with hc | rfl
    · have := h.bnd hc
      exact (h.ok c hc).outside (fun x h1 h2 => hch x (by omega))
    · refine ⟨?_, hd, ?_, ?_, ?_⟩
      · show rd32 _ s.brk = r
        rw [rd32_wr32_disj _ _ _ _ (by omega), rd32_wr32_disj _ _ _ _ (by omega),
          rd32_wr32_same]; omega
      · show rd32 _ (s.brk + 24 + r) = r
        rw [rd32_wr32_disj _ _ _ _ (by omega), rd32_wr32_same]; omega
      · intro hf; exact absurd hf (by simp)
      · intro _
        refine ⟨?_, ?_, ?_⟩
        · show rd32 _ (s.brk + 4) = 0
          rw [rd32_wr32_same]
        · show rdLE _ (s.brk + 8) 8 = 0
          exact rdLE_zero 8 _ (fun x h1 h2 => hz x (by omega) (by omega))
        · show rdLE _ (s.brk + 16) 8 = 0
          exact rdLE_zero 8 _ (fun x h1 h2 => hz x (by omega) (by omega))
  · refine Seg_frame ?_ h.seg
    intro a ha x h1 h2
    have := h.fl_bnd ha
    exact hch x (by omega)
  · intro a
    rw [h.mem_fl a]
    simp only [List.mem_append, List.mem_singleton, or_and_right, exists_or, exists_eq_left]
    constructor
    · intro h1; exact Or.inl h1
    · rintro (h1 | h1)
      · exact h1
      · exact absurd h1.2 (by simp)
  · intro x hx
    exact hz x (by show s.brk + 8 ≤ x; have : s.brk + 28 + r ≤ x := hx; omega)
      (Or.inr hx)

/-! ## `remove_block_node`, branch by branch -/

theorem remove_head_last {s : Heap} {p : Nat} (hp : p ≠ 0) (hh : s.metadata_head = p)
    (hn : rd64 s.mem (p + 8) = 0) :
    remove_block_node s p =
      { s with metadata_head := 0, mem := wr64 (wr64 s.mem (p + 16) 0) (p + 8) 0 } := by
  unfold remove_block_node
  simp only [if_neg hp, hh, if_true, hn, ne_eq, not_true_eq_false, if_false]

theorem remove_head_next {s : Heap} {p n : Nat} (hp : p ≠ 0) (hh : s.metadata_head = p)
    (hn : rd64 s.mem (p + 8) = n) (hn0 : n ≠ 0) (hn' : rd64 (wr64 s.mem (n + 16) 0) (p + 8) = n) :
    remove_block_node s p =
      { s with metadata_head := n,
               mem := wr64 (wr64 (wr64 s.mem (n + 16) 0) (p + 16) 0) (p + 8) 0 } := by
  unfold remove_block_node
  simp only [if_neg hp, hh, if_true, hn, ne_eq, hn0, not_false_eq_true, hn']

theorem remove_middle {s : Heap} {p q n : Nat} (hp : p ≠ 0) (hh : p ≠ s.metadata_head)
    (hq : rd64 s.mem (p + 16) = q) (hq0 : q ≠ 0) (hn : rd64 s.mem (p + 8) = n) (hn0 : n ≠ 0)
    (hn' : rd64 (wr64 s.mem (q + 8) n) (p + 8) = n)
    (hq' : rd64 (wr64 s.mem (q + 8) n) (p + 16) = q) :
    remove_block_node s p =
      { s with mem := wr64 (wr64 (wr64 (wr64 s.mem (q + 8) n) (n + 16) q) (p + 16) 0) (p + 8) 0 } := by
  unfold remove_block_node
  simp only [if_neg hp, if_neg hh, hq, hn, ne_eq, hq0, hn0, not_false_eq_true, and_self, if_true,
    hn', hq']

theorem remove_last {s : Heap} {p q : Nat} (hp : p ≠ 0) (hh : p ≠ s.metadata_head)
    (hq : rd64 s.mem (p + 16) = q) (hq0 : q ≠ 0) (hn : rd64 s.mem (p + 8) = 0) :
    remove_block_node s p =
      { s with mem := wr64 (wr64 (wr64 s.mem (q + 8) 0) (p + 16) 0) (p + 8) 0 } := by
  unfold remove_block_node
  simp only [if_neg hp, if_neg hh, hq, hn, ne_eq, hq0, not_false_eq_true, not_true_eq_false,
    and_false, if_false, if_true]

/-- What `remove_block_node` does to a well-formed list: the node is unlinked, its links
are cleared, and only link fields of list nodes change. -/
theorem remove_block_node_seg {s : Heap} {l1 l2 : List Nat} {p : Nat}
    (hseg : Seg s.mem 0 (l1 ++ p :: l2) 0)
    (hhead : s.metadata_head = (l1 ++ p :: l2).headD 0)
    (hnd : (l1 ++ p :: l2).Nodup)
    (hsep : ∀ a ∈ l1 ++ p :: l2, ∀ c ∈ l1 ++ p :: l2, a ≠ c → a + 24 ≤ c ∨ c + 24 ≤ a)
    (hlt : ∀ a ∈ l1 ++ p :: l2, a < 18446744073709551616) :
    Seg (remove_block_node s p).mem 0 (l1 ++ l2) 0 ∧
      (remove_block_node s p).metadata_head = (l1 ++ l2).headD 0 ∧
      rd64 (remove_block_node s p).mem (p + 8) = 0 ∧
      rd64 (remove_block_node s p).mem (p + 16) = 0 ∧
      (remove_block_node s p).brk = s.brk ∧
      (remove_block_node s p).heap_start = s.heap_start ∧
      ∀ x, (∀ a ∈ l1 ++ p :: l2, x < a + 8 ∨ a + 24 ≤ x) →
        (remove_block_node s p).mem x = s.mem x := by
  have hpm : p ∈ l1 ++ p :: l2 := by simp
  rcases List.eq_nil_or_concat l1 with rfl | ⟨l1', q, rfl⟩
  · -- the node is the head
    simp only [List.nil_append] at *
    rw [Seg_cons] at hseg
    obtain ⟨hp0, hnext, -, hrest⟩ := hseg
    have hh : s.metadata_head = p := hhead
    cases l2 with
    | nil =>
      rw [remove_head_last hp0 hh hnext]
      refine ⟨trivial, rfl, ?_, ?_, rfl, rfl, ?_⟩
      · show rd64 (wr64 _ (p + 8) 0) (p + 8) = 0
        rw [rd64_wr64_same]
      · show rd64 (wr64 (wr64 _ (p + 16) 0) (p + 8) 0) (p + 16) = 0
        rw [rd64_wr64_disj _ _ _ _ (by omega), rd64_wr64_same]
      · intro x hx
        have := hx p (by simp)
        show wr64 (wr64 _ (p + 16) 0) (p + 8) 0 x = _
        rw [wr64_out _ _ _ _ (by omega), wr64_out _ _ _ _ (by omega)]
    | cons n l2' =>
      have hnm : n ∈ p :: n :: l2' := by simp
      have hpn : p ≠ n := by
        intro h; subst h; simp at hnd
      have sp := hsep p hpm n hnm hpn
      rw [Seg_cons] at hrest
      obtain ⟨hn0, hnn, -, hrest'⟩ := hrest
      have hnext' : rd64 s.mem (p + 8) = n := hnext
      have hn' : rd64 (wr64 s.mem (n + 16) 0) (p + 8) = n := by
        rw [rd64_wr64_disj _ _ _ _ (by omega)]; exact hnext'
      rw [remove_head_next hp0 hh hnext' hn0 hn']
      refine ⟨?_, rfl, ?_, ?_, rfl, rfl, ?_⟩
      · show Seg (wr64 (wr64 (wr64 s.mem (n + 16) 0) (p + 16) 0) (p + 8) 0) 0 (n :: l2') 0
        rw [Seg_cons]
        refine ⟨hn0, ?_, fun h => absurd rfl h, ?_⟩
        · rw [rd64_wr64_disj _ _ _ _ (by omega), rd64_wr64_disj _ _ _ _ (by omega),
            rd64_wr64_disj _ _ _ _ (by omega)]
          exact hnn
        · refine Seg_frame ?_ hrest'
          intro a ha x h1 h2
          have ham : a ∈ p :: n :: l2' := by simp [ha]
          have hap : a ≠ p := by
            intro h; subst h; simp [ha] at hnd
          have han : a ≠ n := by
            intro h; subst h; simp [ha] at hnd
          have s1 := hsep a ham p hpm hap
          have s2 := hsep a ham n hnm han
          rw [wr64_out _ _ _ _ (by omega), wr64_out _ _ _ _ (by omega),
            wr64_out _ _ _ _ (by omega)]
      · show rd64 (wr64 _ (p + 8) 0) (p + 8) = 0
        rw [rd64_wr64_same]
      · show rd64 (wr64 (wr64 _ (p + 16) 0) (p + 8) 0) (p + 16) = 0
        rw [rd64_wr64_disj _ _ _ _ (by omega), rd64_wr64_same]
      · intro x hx
        have h1 := hx p (by simp)
        have h2 := hx n (by simp)
        show wr64 (wr64 (wr64 _ (n + 16) 0) (p + 16) 0) (p + 8) 0 x = _
        rw [wr64_out _ _ _ _ (by omega), wr64_out _ _ _ _ (by omega),
          wr64_out _ _ _ _ (by omega)]
  · -- the node has a predecessor `q`
    rw [List.concat_eq_append] at *
    have hqm : q ∈ l1' ++ [q] ++ p :: l2 := by simp
    have hqp : q ≠ p := by
      intro h; subst h
      simp [List.nodup_append] at hnd
    have hne : p ≠ s.metadata_head := by
      rw [hhead]
      intro h
      cases l1' with
      | nil => exact hqp (by simpa using h.symm)
      | cons a l =>
        simp only [List.cons_append, List.headD_cons] at h
        subst h
        simp [List.nodup_append] at hnd
    rw [Seg_append] at hseg
    obtain ⟨hs1, hs2⟩ := hseg
    rw [List.getLastD_concat, Seg_cons] at hs2
    obtain ⟨hp0, hnext, hprev, hrest⟩ := hs2
    rw [Seg_append, Seg_cons] at hs1
    obtain ⟨hs1a, hq0, hqn, hqprev, -⟩ := hs1
    have hprev' : rd64 s.mem (p + 16) = q := hprev hq0
    have sqp := hsep q hqm p hpm hqp
    have hfix : (l1' ++ [q] ++ l2).headD 0 = (l1' ++ [q] ++ p :: l2).headD 0 := by
      cases l1' <;> simp
    cases l2 with
    | nil =>
      have hnext' : rd64 s.mem (p + 8) = 0 := hnext
      rw [remove_last hp0 hne hprev' hq0 hnext']
      refine ⟨?_, ?_, ?_, ?_, rfl, rfl, ?_⟩
      · show Seg (wr64 (wr64 (wr64 s.mem (q + 8) 0) (p + 16) 0) (p + 8) 0) 0 (l1' ++ [q] ++ []) 0
        rw [List.append_nil, Seg_append, Seg_cons]
        refine ⟨?_, hq0, ?_, ?_, trivial⟩
        · refine Seg_frame ?_ hs1a
          intro a ha x h1 h2
          have ham : a ∈ l1' ++ [q] ++ [p] := by simp [ha]
          have hap : a ≠ p := by
            intro h; subst h; simp [List.nodup_append, ha] at hnd
          have haq : a ≠ q := by
            intro h; subst h; simp [List.nodup_append, ha] at hnd
          have s1 := hsep a ham p hpm hap
          have s2 := hsep a ham q hqm haq
          rw [wr64_out _ _ _ _ (by omega), wr64_out _ _ _ _ (by omega),
            wr64_out _ _ _ _ (by omega)]
        · rw [rd64_wr64_disj _ _ _ _ (by omega), rd64_wr64_disj _ _ _ _ (by omega),
            rd64_wr64_same]
          rfl
        · intro h
          rw [rd64_wr64_disj _ _ _ _ (by omega), rd64_wr64_disj _ _ _ _ (by omega),
            rd64_wr64_disj _ _ _ _ (by omega)]
          exact hqprev h
      · show s.metadata_head = _
        rw [hhead, hfix]
      · show rd64 (wr64 _ (p + 8) 0) (p + 8) = 0
        rw [rd64_wr64_same]
      · show rd64 (wr64 (wr64 _ (p + 16) 0) (p + 8) 0) (p + 16) = 0
        rw [rd64_wr64_disj _ _ _ _ (by omega), rd64_wr64_same]
      · intro x hx
        have h1 := hx p (by simp)
        have h2 := hx q (by simp)
        show wr64 (wr64 (wr64 _ (q + 8) 0) (p + 16) 0) (p + 8) 0 x = _
        rw [wr64_out _ _ _ _ (by omega), wr64_out _ _ _ _ (by omega),
          wr64_out _ _ _ _ (by omega)]
    | cons n l2' =>
      have hnm : n ∈ l1' ++ [q] ++ p :: n :: l2' := by simp
      have hpn : p ≠ n := by
        intro h; subst h; simp [List.nodup_append] at hnd
      have hqn' : q ≠ n := by
        intro h; subst h; simp [List.nodup_append] at hnd
      have spn := hsep p hpm n hnm hpn
      have sqn := hsep q hqm n hnm hqn'
      rw [Seg_cons] at hrest
      obtain ⟨hn0, hnn, -, hrest'⟩ := hrest
      have hnext' : rd64 s.mem (p + 8) = n := hnext
      have hn' : rd64 (wr64 s.mem (q + 8) n) (p + 8) = n := by
        rw [rd64_wr64_disj _ _ _ _ (by omega)]; exact hnext'
      have hq' : rd64 (wr64 s.mem (q + 8) n) (p + 16) = q := by
        rw [rd64_wr64_disj _ _ _ _ (by omega)]; exact hprev'
      have hnlt := hlt n hnm
      have hqlt := hlt q hqm
      rw [remove_middle hp0 hne hprev' hq0 hnext' hn0 hn' hq']
      refine ⟨?_, ?_, ?_, ?_, rfl, rfl, ?_⟩
      · show Seg (wr64 (wr64 (wr64 (wr64 s.mem (q + 8) n) (n + 16) q) (p + 16) 0) (p + 8) 0) 0
          (l1' ++ [q] ++ n :: l2') 0
        rw [Seg_append, List.getLastD_concat, Seg_append, Seg_cons, Seg_cons]
        refine ⟨⟨?_, hq0, ?_, ?_, trivial⟩, hn0, ?_, ?_, ?_⟩
        · refine Seg_frame ?_ hs1a
          intro a ha x h1 h2
          have ham : a ∈ l1' ++ [q] ++ p :: n :: l2' := by simp [ha]
          have hap : a ≠ p := by
            intro h; subst h; simp [List.nodup_append, ha] at hnd
          have haq : a ≠ q := by
            intro h; subst h; simp [List.nodup_append, ha] at hnd
          have han : a ≠ n := by
            intro h; subst h; simp [List.nodup_append, ha] at hnd
          have s1 := hsep a ham p hpm hap
          have s2 := hsep a ham q hqm haq
          have s3 := hsep a ham n hnm han
          rw [wr64_out _ _ _ _ (by omega), wr64_out _ _ _ _ (by omega),
            wr64_out _ _ _ _ (by omega), wr64_out _ _ _ _ (by omega)]
        · rw [rd64_wr64_disj _ _ _ _ (by omega), rd64_wr64_disj _ _ _ _ (by omega),
            rd64_wr64_disj _ _ _ _ (by omega), rd64_wr64_same]
          show n % 18446744073709551616 = n
          omega
        · intro h
          rw [rd64_wr64_disj _ _ _ _ (by omega), rd64_wr64_disj _ _ _ _ (by omega),
            rd64_wr64_disj _ _ _ _ (by omega), rd64_wr64_disj _ _ _ _ (by omega)]
          exact hqprev h
        · rw [rd64_wr64_disj _ _ _ _ (by omega), rd64_wr64_disj _ _ _ _ (by omega),
            rd64_wr64_disj _ _ _ _ (by omega), rd64_wr64_disj _ _ _ _ (by omega)]
          exact hnn
        · intro _
          rw [rd64_wr64_disj _ _ _ _ (by omega), rd64_wr64_disj _ _ _ _ (by omega),
            rd64_wr64_same]
          omega
        · refine Seg_frame ?_ hrest'
          intro a ha x h1 h2
          have ham : a ∈ l1' ++ [q] ++ p :: n :: l2' := by simp [ha]
          have hap : a ≠ p := by
            intro h; subst h; simp [List.nodup_append, ha] at hnd
          have haq : a ≠ q := by
            intro h; subst h; simp [List.nodup_append, ha] at hnd
          have han : a ≠ n := by
            intro h; subst h; simp [List.nodup_append, ha] at hnd
          have s1 := hsep a ham p hpm hap
          have s2 := hsep a ham q hqm haq
          have s3 := hsep a ham n hnm han
          rw [wr64_out _ _ _ _ (by omega), wr64_out _ _ _ _ (by omega),
            wr64_out _ _ _ _ (by omega), wr64_out _ _ _ _ (by omega)]
      · show s.metadata_head = _
        rw [hhead]
        cases l1' <;> simp
      · show rd64 (wr64 _ (p + 8) 0) (p + 8) = 0
        rw [rd64_wr64_same]
      · show rd64 (wr64 (wr64 _ (p + 16) 0) (p + 8) 0) (p + 16) = 0
        rw [rd64_wr64_disj _ _ _ _ (by omega), rd64_wr64_same]
      · intro x hx
        have h1 := hx p (by simp)
        have h2 := hx q (by simp)
        have h3 := hx n (by simp)
        show wr64 (wr64 (wr64 (wr64 _ (q + 8) n) (n + 16) q) (p + 16) 0) (p + 8) 0 x = _
        rw [wr64_out _ _ _ _ (by omega), wr64_out _ _ _ _ (by omega),
          wr64_out _ _ _ _ (by omega), wr64_out _ _ _ _ (by omega)]

/-! ## Linking a block in front of the free list -/

theorem link_front_eq {s : Heap} {a : Nat} (ha : a ≠ 0) :
    link_front s a =
      { s with metadata_head := a,
               mem := if s.metadata_head ≠ 0 then
                        wr64 (wr64 (wr32 s.mem (a + 4) 1) (a + 8) s.metadata_head)
                          (s.metadata_head + 16) a
                      else wr64 (wr32 s.mem (a + 4) 1) (a + 8) s.metadata_head } := by
  unfold link_front
  rw [mark_block_free_eq ha]
  by_cases h : s.metadata_head = 0
  · simp [h]
  · simp [h]

theorem link_front_mem {s : Heap} {a : Nat} (ha : a ≠ 0) (x : Nat)
    (h1 : x < a + 4 ∨ a + 16 ≤ x)
    (h2 : s.metadata_head ≠ 0 → x < s.metadata_head + 16 ∨ s.metadata_head + 24 ≤ x) :
    (link_front s a).mem x = s.mem x := by
  rw [link_front_eq ha]
  by_cases h : s.metadata_head = 0
  · simp only [h, ne_eq, not_true_eq_false, if_false]
    rw [wr64_out _ _ _ _ (by omega), wr32_out _ _ _ _ (by omega)]
  · simp only [ne_eq, h, not_false_eq_true, if_true]
    have := h2 h
    rw [wr64_out _ _ _ _ (by omega), wr64_out _ _ _ _ (by omega), wr32_out _ _ _ _ (by omega)]

theorem link_front_seg {s : Heap} {fl : List Nat} {a : Nat}
    (hseg : Seg s.mem 0 fl 0) (hhead : s.metadata_head = fl.headD 0) (ha : a ≠ 0)
    (halt : a < 18446744073709551616)
    (hsep : ∀ c ∈ fl, c + 24 ≤ a ∨ a + 24 ≤ c)
    (hnd : fl.Nodup)
    (hsep2 : ∀ c ∈ fl, ∀ d ∈ fl, c ≠ d → c + 24 ≤ d ∨ d + 24 ≤ c)
    (hlt : ∀ c ∈ fl, c < 18446744073709551616) :
    Seg (link_front s a).mem 0 (a :: fl) 0 ∧ rd32 (link_front s a).mem (a + 4) = 1 := by
  rw [link_front_eq ha]
  cases fl with
  | nil =>
    have hh : s.metadata_head = 0 := hhead
    simp only [hh, ne_eq, not_true_eq_false, if_false]
    refine ⟨?_, ?_⟩
    · rw [Seg_cons]
      refine ⟨ha, ?_, fun h => absurd rfl h, trivial⟩
      rw [rd64_wr64_same]
      rfl
    · rw [rd32_wr64_disj _ _ _ _ (by omega), rd32_wr32_same]
  | cons n l =>
    have hh : s.metadata_head = n := hhead
    rw [Seg_cons] at hseg
    obtain ⟨hn0, hnn, -, hrest⟩ := hseg
    have sn := hsep n (by simp)
    have hnlt := hlt n (by simp)
    simp only [hh, ne_eq, hn0, not_false_eq_true, if_true]
    refine ⟨?_, ?_⟩
    · rw [Seg_cons, Seg_cons]
      refine ⟨ha, ?_, fun h => absurd rfl h, hn0, ?_, ?_, ?_⟩
      · rw [rd64_wr64_disj _ _ _ _ (by omega), rd64_wr64_same]
        show n % 18446744073709551616 = n
        omega
      · rw [rd64_wr64_disj _ _ _ _ (by omega), rd64_wr64_disj _ _ _ _ (by omega),
          rd64_wr32_disj _ _ _ _ (by omega)]
        exact hnn
      · intro _
        rw [rd64_wr64_same]
        omega
      · refine Seg_frame ?_ hrest
        intro c hc x h1 h2
        have sc := hsep c (by simp [hc])
        have hcn : c ≠ n := by
          intro h; subst h; simp [hc] at hnd
        have s2 := hsep2 c (by simp [hc]) n (by simp) hcn
        rw [wr64_out _ _ _ _ (by omega), wr64_out _ _ _ _ (by omega),
          wr32_out _ _ _ _ (by omega)]
    · rw [rd32_wr64_disj _ _ _ _ (by omega), rd32_wr64_disj _ _ _ _ (by omega), rd32_wr32_same]

/-! ## Unlinking and linking blocks, at the level of the invariant -/

theorem BlkOK.to_raw {m : Mem} {b : Blk} (h : BlkOK m b) : BlkOK m { b with st := .raw } :=
  ⟨h.size_eq, h.size_dvd, h.foot, fun hf => absurd hf (by simp),
    fun hu => by rcases hu with hu | hu <;> exact absurd hu (by simp)⟩

theorem NU_of_mem {bs : List Blk} {c : Blk} {x : Nat} (hc : c ∈ bs) (hst : c.st ≠ .used)
    (h1 : c.addr ≤ x) (h2 : x < c.addr + 28 + c.size) : NU bs x :=
  ⟨c, hc, hst, h1, h2⟩

/-- `remove_block_node` on a free block: the block leaves the list and is in transit. -/
theorem unlink_spec {s : Heap} {pre post : List Blk} {b : Blk} {fl l1 l2 : List Nat}
    (h : WF s (pre ++ b :: post) fl) (hf : b.st = .free) (hfl : fl = l1 ++ b.addr :: l2) :
    WF (remove_block_node s b.addr) (pre ++ { b with st := .raw } :: post) (l1 ++ l2) ∧
      rd64 (remove_block_node s b.addr).mem (b.addr + 8) = 0 ∧
      rd64 (remove_block_node s b.addr).mem (b.addr + 16) = 0 ∧
      (remove_block_node s b.addr).brk = s.brk ∧
      (remove_block_node s b.addr).heap_start = s.heap_start ∧
      ∀ x, (remove_block_node s b.addr).mem x ≠ s.mem x →
        ∃ c ∈ pre ++ b :: post, c.st = .free ∧ c.addr + 8 ≤ x ∧ x < c.addr + 24 := by
  subst hfl
  have hb : b ∈ pre ++ b :: post := by simp
  have ht := Tiles_split h.tiles
  obtain ⟨k1, k2, k3, k4, k5, k6, k7⟩ := remove_block_node_seg h.seg h.head h.nodup
    (fun a ha c hc hne => by
      have := h.fl_sep ha hc hne
      omega)
    (fun a ha => by
      have := h.fl_bnd ha
      omega)
  have hch : ∀ x, (remove_block_node s b.addr).mem x ≠ s.mem x →
      ∃ c ∈ pre ++ b :: post, c.st = .free ∧ c.addr + 8 ≤ x ∧ x < c.addr + 24 := by
    intro x hx
    by_contra hno
    apply hx
    apply k7
    intro a ha
    obtain ⟨c, hc, rfl, hcf⟩ := (h.mem_fl a).1 ha
    by_contra hin
    exact hno ⟨c, hc, hcf, by omega, by omega⟩
  refine ⟨?_, k3, k4, k5, k6, hch⟩
  have hok : ∀ c ∈ pre ++ b :: post, BlkOK (remove_block_node s b.addr).mem c := by
    intro c hc
    refine BlkOK.frame h.tiles ?_ hc (h.ok c hc)
    intro x hx
    obtain ⟨d, hd, hdf, h1, h2⟩ := hch x hx
    refine Or.inl ⟨d, hd, ?_⟩
    unfold Loose
    refine ⟨by omega, by omega, fun _ => h1, ?_⟩
    intro hu
    rcases hu with hu | hu <;> rw [hdf] at hu <;> exact absurd hu (by decide)
  refine h.rebuild k5 k6 (fun _ => by simp) ?_ ?_ k2 k1 ?_ ?_ ?_
  · exact Tiles_join (b := { b with st := .raw }) ht.1 ht.2
  · intro c hc
    simp only [List.mem_append, List.mem_cons] at hc
    rcases hc with hc | rfl | hc
    · exact hok c (by simp [hc])
    · exact (hok b hb).to_raw
    · exact hok c (by simp [hc])
  · have := h.nodup
    rw [List.nodup_append] at this ⊢
    obtain ⟨n1, n2, n3⟩ := this
    rw [List.nodup_cons] at n2
    refine ⟨n1, n2.2, ?_⟩
    intro a ha1 ha2
    exact n3 ha1 (List.mem_cons_of_mem _ ha2)
  · intro a
    have hnd := h.nodup
    have hin := h.mem_fl a
    constructor
    · intro ha
      have hafl : a ∈ l1 ++ b.addr :: l2 := by
        simp only [List.mem_append, List.mem_cons] at ha ⊢
        rcases ha with ha | ha
        · exact Or.inl ha
        · exact Or.inr (Or.inr ha)
      have hne : a ≠ b.addr := by
        intro he
        subst he
        rw [List.nodup_append] at hnd
        obtain ⟨n1, n2, n3⟩ := hnd
        rw [List.nodup_cons] at n2
        simp only [List.mem_append] at ha
        rcases ha with ha | ha
        · exact n3 ha (List.mem_cons_self _ _)
        · exact n2.1 ha
      obtain ⟨c, hc, hca, hcf⟩ := hin.1 hafl
      simp only [List.mem_append, List.mem_cons] at hc
      rcases hc with hc | rfl | hc
      · exact ⟨c, by simp [hc], hca, hcf⟩
      · exact absurd hca.symm hne
      · exact ⟨c, by simp [hc], hca, hcf⟩
    · rintro ⟨c, hc, hca, hcf⟩
      simp only [List.mem_append, List.mem_cons] at hc
      have hcb : c ∈ pre ++ b :: post ∧ c.addr ≠ b.addr := by
        rcases hc with hc | rfl | hc
        · have := Tiles_bounds _ _ _ ht.1 c hc
          exact ⟨by simp [hc], by omega⟩
        · exact absurd hcf (by simp)
        · have := Tiles_bounds _ _ _ ht.2 c hc
          exact ⟨by simp [hc], by omega⟩
      have hafl := hin.2 ⟨c, hcb.1, hca, hcf⟩
      simp only [List.mem_append, List.mem_cons] at hafl ⊢
      rcases hafl with ha | ha | ha
      · exact Or.inl ha
      · exact absurd (hca.trans ha) hcb.2
      · exact Or.inr ha
  · intro x hx
    by_contra hne
    obtain ⟨c, hc, _, h1, h2⟩ := hch x hne
    have := h.bnd hc
    omega

/-- The tail of `merge_block` on a block in transit: it becomes the head of the free list. -/
theorem link_front_spec {s : Heap} {pre post : List Blk} {b : Blk} {fl : List Nat}
    (h : WF s (pre ++ b :: post) fl) (hr : b.st = .raw) :
    WF (link_front s b.addr) (pre ++ { b with st := .free } :: post) (b.addr :: fl) ∧
      (link_front s b.addr).brk = s.brk ∧
      (link_front s b.addr).heap_start = s.heap_start ∧
      ∀ x, (link_front s b.addr).mem x ≠ s.mem x →
        (b.addr + 4 ≤ x ∧ x < b.addr + 16) ∨
          ∃ c ∈ pre ++ b :: post, c.st = .free ∧ c.addr + 16 ≤ x ∧ x < c.addr + 24 := by
  have hb : b ∈ pre ++ b :: post := by simp
  have kb := h.bnd hb
  have ht := Tiles_split h.tiles
  have ha0 : b.addr ≠ 0 := by omega
  have hnotin : b.addr ∉ fl := by
    intro hin
    obtain ⟨c, hc, hca, hcf⟩ := (h.mem_fl _).1 hin
    have := h.addr_inj hc hb hca
    subst this
    rw [hr] at hcf
    exact absurd hcf (by decide)
  have hsepb : ∀ c ∈ fl, c + 28 ≤ b.addr ∨ b.addr + 28 ≤ c := by
    intro c hc
    obtain ⟨d, hd, rfl, hdf⟩ := (h.mem_fl _).1 hc
    rcases Tiles_disj _ _ _ h.tiles d hd b hb with h1 | h1 | h1
    · subst h1; rw [hr] at hdf; exact absurd hdf (by decide)
    · omega
    · omega
  obtain ⟨k1, k2⟩ := link_front_seg h.seg h.head ha0 (by omega)
    (fun c hc => by have := hsepb c hc; omega) h.nodup
    (fun a ha c hc hne => by
      have := h.fl_sep ha hc hne
      omega)
    (fun a ha => by
      have := h.fl_bnd ha
      omega)
  have hch : ∀ x, (link_front s b.addr).mem x ≠ s.mem x →
      (b.addr + 4 ≤ x ∧ x < b.addr + 16) ∨
        ∃ c ∈ pre ++ b :: post, c.st = .free ∧ c.addr + 16 ≤ x ∧ x < c.addr + 24 := by
    intro x hx
    by_contra hno
    apply hx
    apply link_front_mem ha0
    · by_contra hin
      exact hno (Or.inl (by omega))
    · intro hh
      by_contra hin
      have hmem : s.metadata_head ∈ fl := by
        rw [h.head] at hh ⊢
        cases fl with
        | nil => exact absurd rfl hh
        | cons n l => simp
      obtain ⟨c, hc, hca, hcf⟩ := (h.mem_fl _).1 hmem
      exact hno (Or.inr ⟨c, hc, hcf, by omega, by omega⟩)
  refine ⟨?_, by rw [link_front_eq ha0], by rw [link_front_eq ha0], hch⟩
  have hok : ∀ c ∈ pre ++ b :: post, BlkOK (link_front s b.addr).mem c := by
    intro c hc
    refine BlkOK.frame h.tiles ?_ hc (h.ok c hc)
    intro x hx
    rcases hch x hx with ⟨h1, h2⟩ | ⟨d, hd, hdf, h1, h2⟩
    · refine Or.inl ⟨b, hb, ?_⟩
      unfold Loose
      refine ⟨h1, by omega, fun hn => absurd hr hn, ?_⟩
      intro hu
      rcases hu with hu | hu <;> rw [hr] at hu <;> exact absurd hu (by decide)
    · refine Or.inl ⟨d, hd, ?_⟩
      unfold Loose
      refine ⟨by omega, by omega, fun _ => by omega, ?_⟩
      intro hu
      rcases hu with hu | hu <;> rw [hdf] at hu <;> exact absurd hu (by decide)
  refine h.rebuild (by rw [link_front_eq ha0]) (by rw [link_front_eq ha0]) (fun _ => by simp)
    ?_ ?_ (by rw [link_front_eq ha0]; rfl) k1 ?_ ?_ ?_
  · exact Tiles_join (b := { b with st := .free }) ht.1 ht.2
  · intro c hc
    simp only [List.mem_append, List.mem_cons] at hc
    rcases hc with hc | rfl | hc
    · exact hok c (by simp [hc])
    · have := hok b hb
      exact ⟨this.size_eq, this.size_dvd, this.foot, fun _ => k2,
        fun hu => by rcases hu with hu | hu <;> exact absurd hu (by simp)⟩
    · exact hok c (by simp [hc])
  · exact List.nodup_cons.2 ⟨hnotin, h.nodup⟩
  · intro a
    rw [List.mem_cons, h.mem_fl a]
    simp only [List.mem_append, List.mem_cons, or_and_right, exists_or, exists_eq_left, hr]
    constructor
    · rintro (h1 | h1 | h1 | h1)
      · exact Or.inr (Or.inl ⟨h1.symm, trivial⟩)
      · exact Or.inl h1
      · exact absurd h1.2 (by decide)
      · exact Or.inr (Or.inr h1)
    · rintro (h1 | h1 | h1)
      · exact Or.inr (Or.inl h1)
      · exact Or.inl h1.1.symm
      · exact Or.inr (Or.inr (Or.inr h1))
  · intro x hx
    by_contra hne
    rcases hch x hne with ⟨h1, h2⟩ | ⟨c, hc, _, h1, h2⟩
    · omega
    · have := h.bnd hc
      omega

/-! ## Frames -/

theorem Keeps.refl (bs : List Blk) (m : Mem) : Keeps bs m bs m :=
  fun _ hc _ => ⟨hc, fun _ _ _ => rfl⟩

theorem Keeps.trans {bs1 bs2 bs3 : List Blk} {m1 m2 m3 : Mem} (h1 : Keeps bs1 m1 bs2 m2)
    (h2 : Keeps bs2 m2 bs3 m3) : Keeps bs1 m1 bs3 m3 := by
  intro c hc hu
  obtain ⟨k1, k2⟩ := h1 c hc hu
  obtain ⟨k3, k4⟩ := h2 c k1 hu
  exact ⟨k3, fun x hx1 hx2 => (k4 x hx1 hx2).trans (k2 x hx1 hx2)⟩

/-- Changes confined to blocks that are not handed to the caller (or to addresses outside
the tiled range) keep the used blocks. -/
theorem Keeps.of_changes {bs bs' : List Blk} {m m' : Mem} {a e : Nat} (ht : Tiles a bs e)
    (hsub : ∀ c ∈ bs, c.st = .used → c ∈ bs')
    (hch : ∀ x, m' x ≠ m x → NU bs x ∨ x < a ∨ e ≤ x) : Keeps bs m bs' m' := by
  intro c hc hu
  refine ⟨hsub c hc hu, ?_⟩
  intro x h1 h2
  by_contra hne
  have kc := Tiles_bounds _ _ _ ht c hc
  rcases hch x hne with ⟨d, hd, hdu, h3, h4⟩ | h | h
  · rcases Tiles_disj _ _ _ ht c hc d hd with rfl | h5 | h5
    · exact hdu hu
    · omega
    · omega
  · omega
  · omega

/-- Membership of used blocks is not affected by replacing blocks that are not used. -/
theorem used_mem_replace {pre post mid mid' : List Blk} (hm : ∀ c ∈ mid, c.st ≠ .used)
    {c : Blk} (hc : c ∈ pre ++ mid ++ post) (hu : c.st = .used) : c ∈ pre ++ mid' ++ post := by
  simp only [List.mem_append] at hc ⊢
  rcases hc with (hc | hc) | hc
  · exact Or.inl (Or.inl hc)
  · exact absurd hu (hm c hc)
  · exact Or.inr hc

/-! ## `merge_block` -/

theorem merge_block_eq (s : Heap) (ptr : Nat) :
    merge_block s ptr =
      if left_absorbs s ptr then
        set_block_size s (get_left_block s ptr)
          ((get_block_size s.mem ptr + get_block_size s.mem (get_left_block s ptr)
            + METADATA_SIZE + INT_SIZE) % SZ)
      else
        link_front
          (if right_absorbs s ptr then
            set_block_size (remove_block_node s (get_right_block s ptr)) ptr
              ((get_block_size (remove_block_node s (get_right_block s ptr)).mem ptr
                + get_block_size (remove_block_node s (get_right_block s ptr)).mem
                    (get_right_block s ptr)
                + METADATA_SIZE + INT_SIZE) % SZ)
          else s) ptr := by
  rfl

theorem merge_factor_mod {n : Nat} (h : n ≤ 2147483647) : n * MERGE_FACTOR % SZ = n := by
  simp only [MERGE_FACTOR, Nat.mul_one]
  exact Nat.mod_eq_of_lt (by unfold SZ; omega)

theorem left_absorbs_first {s : Heap} {b : Blk} {post : List Blk} {fl : List Nat}
    (h : WF s (b :: post) fl) : ¬ left_absorbs s b.addr := by
  unfold left_absorbs
  rw [get_left_block_first h]
  intro hc
  exact hc.1 rfl

theorem left_absorbs_free {s : Heap} {pre post : List Blk} {l b : Blk} {fl : List Nat}
    (h : WF s (pre ++ l :: b :: post) fl) (hl : l.st = .free) :
    get_left_block s b.addr = l.addr ∧ (left_absorbs s b.addr ↔ b.size ≤ l.size) := by
  have hlm : l ∈ pre ++ l :: b :: post := by simp
  have hbm : b ∈ pre ++ l :: b :: post := by simp
  have kl := h.bnd hlm
  have kb := h.bnd hbm
  have e : get_left_block s b.addr = l.addr := by
    rw [get_left_block_next h, h.is_free hlm hl]
    rfl
  refine ⟨e, ?_⟩
  unfold left_absorbs
  rw [e, h.gbs hlm, h.gbs hbm, merge_factor_mod (by omega)]
  constructor
  · intro hc; exact hc.2
  · intro hc; exact ⟨by omega, hc⟩

theorem left_absorbs_not_free {s : Heap} {pre post : List Blk} {l b : Blk} {fl : List Nat}
    (h : WF s (pre ++ l :: b :: post) fl) (hl : l.st = .used ∨ l.st = .taken) :
    ¬ left_absorbs s b.addr := by
  have hlm : l ∈ pre ++ l :: b :: post := by simp
  unfold left_absorbs
  rw [get_left_block_next h, h.not_free hlm hl]
  intro hc
  exact hc.1 rfl

theorem right_absorbs_last {s : Heap} {pre : List Blk} {b : Blk} {fl : List Nat}
    (h : WF s (pre ++ [b]) fl) : ¬ right_absorbs s b.addr := by
  unfold right_absorbs
  rw [get_right_block_last h]
  intro hc
  exact hc.1 rfl

theorem right_absorbs_free {s : Heap} {pre post : List Blk} {b r : Blk} {fl : List Nat}
    (h : WF s (pre ++ b :: r :: post) fl) (hr : r.st = .free) :
    get_right_block s b.addr = r.addr ∧ (right_absorbs s b.addr ↔ b.size ≤ r.size) := by
  have hrm : r ∈ pre ++ b :: r :: post := by simp
  have hbm : b ∈ pre ++ b :: r :: post := by simp
  have kr := h.bnd hrm
  have kb := h.bnd hbm
  have e : get_right_block s b.addr = r.addr := by
    rw [get_right_block_next h, h.is_free hrm hr]
    rfl
  refine ⟨e, ?_⟩
  unfold right_absorbs
  rw [e, h.gbs hrm, h.gbs hbm, merge_factor_mod (by omega)]
  constructor
  · intro hc; exact hc.2
  · intro hc; exact ⟨by omega, hc⟩

theorem right_absorbs_not_free {s : Heap} {pre post : List Blk} {b r : Blk} {fl : List Nat}
    (h : WF s (pre ++ b :: r :: post) fl) (hr : r.st = .used ∨ r.st = .taken) :
    ¬ right_absorbs s b.addr := by
  have hrm : r ∈ pre ++ b :: r :: post := by simp
  unfold right_absorbs
  rw [get_right_block_next h, h.not_free hrm hr]
  intro hc
  exact hc.1 rfl

theorem wr32_pair_changes {m : Mem} {a f n v x : Nat}
    (h : wr32 (wr32 m a n) f v x ≠ m x) : (a ≤ x ∧ x < a + 4) ∨ (f ≤ x ∧ x < f + 4) := by
  by_contra hno
  apply h
  rw [wr32_out _ _ _ _ (by omega), wr32_out _ _ _ _ (by omega)]

/-- The first branch of `merge_block`: the block is absorbed by its free left neighbour. -/
theorem merge_left_spec {s : Heap} {pre post : List Blk} {l b : Blk} {fl : List Nat}
    (h : WF s (pre ++ l :: b :: post) fl) (hr : b.st = .raw) (hl : l.st = .free)
    (hsz : b.size ≤ l.size) :
    merge_block s b.addr =
        { s with mem := wr32 (wr32 s.mem l.addr (l.size + b.size + 28))
                          (l.addr + 24 + (l.size + b.size + 28)) (l.size + b.size + 28) } ∧
      WF (merge_block s b.addr) (pre ++ { l with size := l.size + b.size + 28 } :: post) fl ∧
      ∀ x, (merge_block s b.addr).mem x ≠ s.mem x → NU (pre ++ l :: b :: post) x := by
  have hlm : l ∈ pre ++ l :: b :: post := by simp
  have hbm : b ∈ pre ++ l :: b :: post := by simp
  have kl := h.bnd hlm
  have kb := h.bnd hbm
  have ht := Tiles_split h.tiles
  have e12 : l.addr + 28 + l.size = b.addr := by
    have := ht.2; rw [Tiles_cons] at this; exact this.1.symm
  obtain ⟨e, hla⟩ := left_absorbs_free h hl
  have hN : (get_block_size s.mem b.addr + get_block_size s.mem l.addr
      + METADATA_SIZE + INT_SIZE) % SZ = l.size + b.size + 28 := by
    rw [h.gbs hlm, h.gbs hbm]
    simp only [METADATA_SIZE, INT_SIZE]
    rw [Nat.mod_eq_of_lt (by unfold SZ; omega)]
    omega
  have hm : merge_block s b.addr = set_block_size s l.addr (l.size + b.size + 28) := by
    rw [merge_block_eq, if_pos (hla.2 hsz), e, hN]
  obtain ⟨a1, a2⟩ := absorb_spec h hr (n := l.size + b.size + 28) rfl
  rw [hm]
  refine ⟨a1, a2, ?_⟩
  rw [a1]
  intro x hx
  rcases wr32_pair_changes hx with h1 | h1
  · exact NU_of_mem hlm (by rw [hl]; decide) (by omega) (by omega)
  · exact NU_of_mem hbm (by rw [hr]; decide) (by omega) (by omega)

/-- The last branch of `merge_block`: no neighbour absorbs or is absorbed. -/
theorem merge_plain_spec {s : Heap} {pre post : List Blk} {b : Blk} {fl : List Nat}
    (h : WF s (pre ++ b :: post) fl) (hr : b.st = .raw)
    (hnl : ¬ left_absorbs s b.addr) (hnr : ¬ right_absorbs s b.addr) :
    merge_block s b.addr = link_front s b.addr ∧
      WF (merge_block s b.addr) (pre ++ { b with st := .free } :: post) (b.addr :: fl) ∧
      ∀ x, (merge_block s b.addr).mem x ≠ s.mem x → NU (pre ++ b :: post) x := by
  have hbm : b ∈ pre ++ b :: post := by simp
  have hm : merge_block s b.addr = link_front s b.addr := by
    rw [merge_block_eq, if_neg hnl, if_neg hnr]
  obtain ⟨k1, -, -, k4⟩ := link_front_spec h hr
  rw [hm]
  refine ⟨rfl, k1, ?_⟩
  intro x hx
  rcases k4 x hx with ⟨h1, h2⟩ | ⟨c, hc, hcf, h1, h2⟩
  · exact NU_of_mem hbm (by rw [hr]; decide) (by omega) (by omega)
  · exact NU_of_mem hc (by rw [hcf]; decide) (by omega) (by omega)

/-- The second branch of `merge_block`: the block absorbs its free right neighbour, which
leaves the free list, and becomes the head of the list. -/
theorem merge_right_spec {s : Heap} {pre post : List Blk} {b r : Blk} {fl l1 l2 : List Nat}
    (h : WF s (pre ++ b :: r :: post) fl) (hr : b.st = .raw) (hrf : r.st = .free)
    (hnl : ¬ left_absorbs s b.addr) (hsz : b.size ≤ r.size) (hfl : fl = l1 ++ r.addr :: l2) :
    WF (merge_block s b.addr)
        (pre ++ ⟨b.addr, b.size + r.size + 28, .free⟩ :: post) (b.addr :: (l1 ++ l2)) ∧
      (merge_block s b.addr).brk = s.brk ∧
      (merge_block s b.addr).heap_start = s.heap_start ∧
      ∀ x, (merge_block s b.addr).mem x ≠ s.mem x → NU (pre ++ b :: r :: post) x := by
  have hrm : r ∈ pre ++ b :: r :: post := by simp
  have hbm : b ∈ pre ++ b :: r :: post := by simp
  have kr := h.bnd hrm
  have kb := h.bnd hbm
  have ht := Tiles_split h.tiles
  have e12 : b.addr + 28 + b.size = r.addr := by
    have := ht.2; rw [Tiles_cons] at this; exact this.1.symm
  obtain ⟨e, hra⟩ := right_absorbs_free h hrf
  have hl1 : pre ++ b :: r :: post = (pre ++ [b]) ++ r :: post := by simp
  have h' := h
  rw [hl1] at h'
  obtain ⟨u1, -, -, u4, u5, u6⟩ := unlink_spec h' hrf hfl
  have hl2 : (pre ++ [b]) ++ { r with st := .raw } :: post
      = pre ++ b :: { r with st := .raw } :: post := by simp
  rw [hl2] at u1
  have hbm0 : b ∈ pre ++ b :: { r with st := .raw } :: post := by simp
  have hrm0 : ({ r with st := .raw } : Blk) ∈ pre ++ b :: { r with st := .raw } :: post := by simp
  have g1 : get_block_size (remove_block_node s r.addr).mem b.addr = b.size := u1.gbs hbm0
  have g2 : get_block_size (remove_block_node s r.addr).mem r.addr = r.size :=
    u1.gbs (b := { r with st := .raw }) hrm0
  have hN : (get_block_size (remove_block_node s r.addr).mem b.addr
      + get_block_size (remove_block_node s r.addr).mem r.addr
      + METADATA_SIZE + INT_SIZE) % SZ = b.size + r.size + 28 := by
    rw [g1, g2]
    simp only [METADATA_SIZE, INT_SIZE]
    rw [Nat.mod_eq_of_lt (by unfold SZ; omega)]
  have hm : merge_block s b.addr =
      link_front (set_block_size (remove_block_node s r.addr) b.addr (b.size + r.size + 28))
        b.addr := by
    rw [merge_block_eq, if_neg hnl, if_pos (hra.2 hsz), e, hN]
  obtain ⟨a1, a2⟩ := absorb_spec u1 (show ({ r with st := .raw } : Blk).st = .raw from rfl)
    (n := b.size + r.size + 28) rfl
  obtain ⟨k1, k2, k3, k4⟩ := link_front_spec (b := { b with size := b.size + r.size + 28 }) a2 hr
  rw [hm]
  refine ⟨k1, ?_, ?_, ?_⟩
  · rw [k2, a1]; exact u4
  · rw [k3, a1]; exact u5
  · intro x hx
    by_cases c1 : (remove_block_node s r.addr).mem x = s.mem x
    · by_cases c2 : (set_block_size (remove_block_node s r.addr) b.addr
          (b.size + r.size + 28)).mem x = (remove_block_node s r.addr).mem x
      · have c3 : (link_front (set_block_size (remove_block_node s r.addr) b.addr
            (b.size + r.size + 28)) b.addr).mem x ≠
            (set_block_size (remove_block_node s r.addr) b.addr (b.size + r.size + 28)).mem x := by
          rw [c2, c1]; exact hx
        rcases k4 x c3 with ⟨h1, h2⟩ | ⟨c, hc, hcf, h1, h2⟩
        · have h1' : b.addr + 4 ≤ x := h1
          have h2' : x < b.addr + 16 := h2
          exact NU_of_mem hbm (by rw [hr]; decide) (by omega) (by omega)
        · simp only [List.mem_append, List.mem_cons] at hc
          rcases hc with hc | rfl | hc
          · exact NU_of_mem (c := c) (by simp [hc]) (by rw [hcf]; decide) (by omega) (by omega)
          · rw [hr] at hcf; exact absurd hcf (by simp)
          · exact NU_of_mem (c := c) (by simp [hc]) (by rw [hcf]; decide) (by omega) (by omega)
      · rw [a1] at c2
        rcases wr32_pair_changes c2 with h1 | h1
        · exact NU_of_mem hbm (by rw [hr]; decide) (by omega) (by omega)
        · exact NU_of_mem hrm (by rw [hrf]; decide) (by omega) (by omega)
    · obtain ⟨c, hc, hcf, h1, h2⟩ := u6 x c1
      rw [← hl1] at hc
      exact NU_of_mem hc (by rw [hcf]; decide) (by omega) (by omega)

theorem get_block_metadata_payload (a : Nat) : get_block_metadata (a + 24) = a := by
  unfold get_block_metadata
  rw [if_neg (by omega)]
  simp only [METADATA_SIZE]
  omega

theorem free_eq_merge (s : Heap) (a : Nat) : free s (a + 24) = merge_block s a := by
  unfold free
  rw [if_neg (by omega), get_block_metadata_payload]

/-- Summary of `merge_block` on a block in transit, whatever branch is taken. -/
theorem merge_block_sum {s : Heap} {pre post : List Blk} {b : Blk} {fl : List Nat}
    (h : WF s (pre ++ b :: post) fl) (hr : b.st = .raw)
    (hnr : ∀ c, c ∈ pre ∨ c ∈ post → c.st ≠ .raw) :
    ∃ bs' fl', WF (merge_block s b.addr) bs' fl' ∧
      (merge_block s b.addr).brk = s.brk ∧
      (merge_block s b.addr).heap_start = s.heap_start ∧
      (∀ x, (merge_block s b.addr).mem x ≠ s.mem x → NU (pre ++ b :: post) x) ∧
      (∀ c ∈ bs', c.st = .free ∨ c ∈ pre ∨ c ∈ post) ∧
      (∀ c, c ∈ pre ∨ c ∈ post → c.st ≠ .free → c ∈ bs') := by
  have hbm : b ∈ pre ++ b :: post := by simp
  have kb := h.bnd hbm
  -- the left neighbour
  have hleft : (∃ pre' l, pre = pre' ++ [l] ∧ l.st = .free ∧ b.size ≤ l.size) ∨
      ¬ left_absorbs s b.addr := by
    rcases List.eq_nil_or_concat pre with rfl | ⟨pre', l, rfl⟩
    · exact Or.inr (left_absorbs_first h)
    · rw [List.concat_eq_append] at h hnr ⊢
      have h' : WF s (pre' ++ l :: b :: post) fl := by simpa using h
      have hl := hnr l (Or.inl (by simp))
      cases hst : l.st with
      | free =>
        by_cases hsz : b.size ≤ l.size
        · exact Or.inl ⟨pre', l, rfl, hst, hsz⟩
        · exact Or.inr (fun hc => hsz ((left_absorbs_free h' hst).2.1 hc))
      | used => exact Or.inr (left_absorbs_not_free h' (Or.inl hst))
      | taken => exact Or.inr (left_absorbs_not_free h' (Or.inr hst))
      | raw => exact absurd hst hl
  rcases hleft with ⟨pre', l, rfl, hlf, hsz⟩ | hnl
  · have h' : WF s (pre' ++ l :: b :: post) fl := by simpa using h
    obtain ⟨m1, m2, m3⟩ := merge_left_spec h' hr hlf hsz
    refine ⟨_, _, m2, by rw [m1], by rw [m1], ?_, ?_, ?_⟩
    · intro x hx
      have := m3 x hx
      simpa using this
    · intro c hc
      simp only [List.mem_append, List.mem_cons] at hc
      rcases hc with hc | rfl | hc
      · exact Or.inr (Or.inl (by simp [hc]))
      · exact Or.inl hlf
      · exact Or.inr (Or.inr hc)
    · intro c hc hcf
      simp only [List.mem_append, List.mem_singleton] at hc
      rcases hc with (hc | rfl) | hc
      · simp [hc]
      · exact absurd hlf hcf
      · simp [hc]
  · -- the right neighbour
    have hright : (∃ r post', post = r :: post' ∧ r.st = .free ∧ b.size ≤ r.size) ∨
        ¬ right_absorbs s b.addr := by
      cases post with
      | nil => exact Or.inr (right_absorbs_last h)
      | cons r post' =>
        have hl := hnr r (Or.inr (by simp))
        cases hst : r.st with
        | free =>
          by_cases hsz : b.size ≤ r.size
          · exact Or.inl ⟨r, post', rfl, hst, hsz⟩
          · exact Or.inr (fun hc => hsz ((right_absorbs_free h hst).2.1 hc))
        | used => exact Or.inr (right_absorbs_not_free h (Or.inl hst))
        | taken => exact Or.inr (right_absorbs_not_free h (Or.inr hst))
        | raw => exact absurd hst hl
    rcases hright with ⟨r, post', rfl, hrf, hsz⟩ | hnright
    · have hrfl : r.addr ∈ fl := (h.mem_fl _).2 ⟨r, by simp, rfl, hrf⟩
      obtain ⟨l1, l2, hfl⟩ := List.append_of_mem hrfl
      obtain ⟨m1, m2, m3, m4⟩ := merge_right_spec h hr hrf hnl hsz hfl
      refine ⟨_, _, m1, m2, m3, m4, ?_, ?_⟩
      · intro c hc
        simp only [List.mem_append, List.mem_cons] at hc
        rcases hc with hc | rfl | hc
        · exact Or.inr (Or.inl hc)
        · exact Or.inl rfl
        · exact Or.inr (Or.inr (by simp [hc]))
      · intro c hc hcf
        simp only [List.mem_cons] at hc
        rcases hc with hc | rfl | hc
        · simp [hc]
        · exact absurd hrf hcf
        · simp [hc]
    · obtain ⟨m1, m2, m3⟩ := merge_plain_spec h hr hnl hnright
      have e := link_front_eq (s := s) (a := b.addr) (by omega)
      refine ⟨_, _, m2, by rw [m1, e], by rw [m1, e], m3, ?_, ?_⟩
      · intro c hc
        simp only [List.mem_append, List.mem_cons] at hc
        rcases hc with hc | rfl | hc
        · exact Or.inr (Or.inl hc)
        · exact Or.inl rfl
        · exact Or.inr (Or.inr hc)
      · intro c hc hcf
        rcases hc with hc | hc
        · simp [hc]
        · simp [hc]

/-- The effect of `free` on the payload address of a used block. -/
theorem free_spec {s : Heap} {bs : List Blk} {fl : List Nat} (h : WF s bs fl) (hcl : Clean bs)
    {b : Blk} (hb : b ∈ bs) (hu : b.st = .used) :
    ∃ bs' fl', WF (free s (b.addr + 24)) bs' fl' ∧ Clean bs' ∧
      (free s (b.addr + 24)).brk = s.brk ∧
      (free s (b.addr + 24)).heap_start = s.heap_start ∧
      (∀ c, c ∈ bs' ∧ c.st = .used ↔ c ∈ bs ∧ c.st = .used ∧ c ≠ b) ∧
      (∀ c ∈ bs, c.st = .used → c ≠ b →
        ∀ x, c.addr ≤ x → x < c.addr + 28 + c.size → (free s (b.addr + 24)).mem x = s.mem x) := by
  obtain ⟨pre, post, rfl⟩ := List.append_of_mem hb
  have ht := Tiles_split h.tiles
  have h0 : WF s (pre ++ { b with st := .raw } :: post) fl :=
    h.restatus (by rw [hu]; decide) (by decide) (h.ok b hb).to_raw
  have hpre : ∀ c ∈ pre, c ≠ b := by
    intro c hc he
    subst he
    have := Tiles_bounds _ _ _ ht.1 c hc
    omega
  have hpost : ∀ c ∈ post, c ≠ b := by
    intro c hc he
    subst he
    have := Tiles_bounds _ _ _ ht.2 c hc
    omega
  have hnr : ∀ c, c ∈ pre ∨ c ∈ post → c.st ≠ .raw := by
    intro c hc
    have hcm : c ∈ pre ++ b :: post := by
      rcases hc with hc | hc <;> simp [hc]
    rcases hcl c hcm with h1 | h1 <;> rw [h1] <;> decide
  obtain ⟨bs', fl', w1, w2, w3, w4, w5, w6⟩ :=
    merge_block_sum (b := { b with st := .raw }) h0 rfl hnr
  rw [free_eq_merge]
  refine ⟨bs', fl', w1, ?_, w2, w3, ?_, ?_⟩
  · intro c hc
    rcases w5 c hc with h1 | h1 | h1
    · exact Or.inl h1
    · exact hcl c (by simp [h1])
    · exact hcl c (by simp [h1])
  · intro c
    constructor
    · rintro ⟨hc, hcu⟩
      rcases w5 c hc with h1 | h1 | h1
      · rw [hcu] at h1; exact absurd h1 (by decide)
      · exact ⟨by simp [h1], hcu, hpre c h1⟩
      · exact ⟨by simp [h1], hcu, hpost c h1⟩
    · rintro ⟨hc, hcu, hne⟩
      simp only [List.mem_append, List.mem_cons] at hc
      rcases hc with hc | rfl | hc
      · exact ⟨w6 c (Or.inl hc) (by rw [hcu]; decide), hcu⟩
      · exact absurd rfl hne
      · exact ⟨w6 c (Or.inr hc) (by rw [hcu]; decide), hcu⟩
  · intro c hc hcu hne x h1 h2
    by_contra hx
    obtain ⟨d, hd, hdu, h3, h4⟩ := w4 x hx
    have hc' : c ∈ pre ++ { b with st := .raw } :: post := by
      simp only [List.mem_append, List.mem_cons] at hc ⊢
      rcases hc with hc | rfl | hc
      · exact Or.inl hc
      · exact absurd rfl hne
      · exact Or.inr (Or.inr hc)
    rcases Tiles_disj _ _ _ h0.tiles c hc' d hd with rfl | h5 | h5
    · exact hdu hcu
    · omega
    · omega

/-! ## Rounding of requests -/

theorem and_23_mod_8 (x : Nat) : (x &&& 23) % 8 = x % 8 := by
  apply Nat.eq_of_testBit_eq
  intro i
  have h8 : (8 : Nat) = 2 ^ 3 := by norm_num
  rw [h8, Nat.testBit_mod_two_pow, Nat.testBit_mod_two_pow, Nat.testBit_and]
  by_cases hi : i < 3
  · have h23 : Nat.testBit 23 i = true := by
      interval_cases i <;> decide
    simp [hi, h23]
  · simp [hi]

theorem round_request_bounds {n : Nat} (hn : n ≤ 2147483647) :
    n ≤ round_request n ∧ round_request n ≤ n + 23 ∧ 8 ∣ round_request n := by
  unfold round_request
  simp only [METADATA_SIZE, SZ]
  have h1 : n % 2 ^ 64 = n := Nat.mod_eq_of_lt (by omega)
  rw [h1]
  have h2 : ((24 + 2 ^ 64 - n) % 2 ^ 64 &&& (24 - 1)) ≤ 23 := Nat.and_le_right
  have h3 := and_23_mod_8 ((24 + 2 ^ 64 - n) % 2 ^ 64)
  have h4 : (24 - 1 : Nat) = 23 := rfl
  rw [h4] at h2 ⊢
  generalize ((24 + 2 ^ 64 - n) % 2 ^ 64 &&& 23) = k at h2 h3 ⊢
  rw [Nat.mod_eq_of_lt (by omega)]
  refine ⟨by omega, by omega, ?_⟩
  omega

theorem FitsInt.bounds {n : Nat} (h : FitsInt n) (h0 : n ≠ 0) :
    n ≤ round_request n ∧ round_request n ≤ 2147483647 ∧ 4 ∣ round_request n ∧
      0 < round_request n := by
  have h1 : n ≤ 2147483647 := by have := h.1; unfold INT_MAX at this; omega
  have h2 : round_request n ≤ 2147483647 := by have := h.2; unfold INT_MAX at this; omega
  have h3 := round_request_bounds h1
  refine ⟨h3.1, h2, ?_, by omega⟩
  have := h3.2.2
  omega

/-! ## The first-fit scan -/

theorem first_fit_spec {m : Mem} {r : Nat} : ∀ (fl : List Nat) (prev fuel : Nat),
    Seg m prev fl 0 → fl.length < fuel →
    (first_fit m r fuel (fl.headD 0) = some 0 ∧ ∀ a ∈ fl, get_block_size m a < r) ∨
      ∃ l1 p l2, fl = l1 ++ p :: l2 ∧ (∀ a ∈ l1, get_block_size m a < r) ∧
        r ≤ get_block_size m p ∧ p ≠ 0 ∧ first_fit m r fuel (fl.headD 0) = some p := by
  intro fl
  induction fl with
  | nil =>
    intro prev fuel _ hf
    cases fuel with
    | zero => simp at hf
    | succ k =>
      left
      refine ⟨?_, fun a ha => by simp at ha⟩
      simp [first_fit]
  | cons a l ih =>
    intro prev fuel hs hf
    cases fuel with
    | zero => simp at hf
    | succ k =>
      rw [Seg_cons] at hs
      obtain ⟨ha0, hnext, -, hrest⟩ := hs
      have hlen : l.length < k := by simpa using hf
      by_cases hsz : r ≤ get_block_size m a
      · right
        refine ⟨[], a, l, rfl, fun x hx => by simp at hx, hsz, ha0, ?_⟩
        simp only [List.headD_cons, first_fit, if_neg ha0]
        rw [if_pos hsz]
      · have hstep : first_fit m r (k + 1) ((a :: l).headD 0) = first_fit m r k (l.headD 0) := by
          simp only [List.headD_cons, first_fit, if_neg ha0]
          rw [if_neg hsz, hnext]
        rcases ih a k hrest hlen with ⟨h1, h2⟩ | ⟨l1, p, l2, h1, h2, h3, h4, h5⟩
        · left
          refine ⟨by rw [hstep]; exact h1, ?_⟩
          intro x hx
          rcases List.mem_cons.1 hx with rfl | hx
          · omega
          · exact h2 x hx
        · right
          refine ⟨a :: l1, p, l2, by rw [h1]; rfl, ?_, h3, h4, by rw [hstep]; exact h5⟩
          intro x hx
          rcases List.mem_cons.1 hx with rfl | hx
          · omega
          · exact h2 x hx

/-- A free list of a well-formed heap is shorter than the break. -/
theorem WF.fl_length {s : Heap} {bs : List Blk} {fl : List Nat} (h : WF s bs fl) :
    fl.length < s.brk := by
  have hsub : fl ⊆ List.range s.brk := by
    intro a ha
    have := h.fl_bnd ha
    exact List.mem_range.2 (by omega)
  have h1 := (List.subperm_of_subset h.nodup hsub).length_le
  rw [List.length_range] at h1
  have h0 : 0 ∉ fl := fun h0 => by have := h.fl_bnd h0; omega
  by_contra hlt
  have heq : fl.length = (List.range s.brk).length := by rw [List.length_range]; omega
  have hp := (List.subperm_of_subset h.nodup hsub).perm_of_length_le (by rw [heq])
  have := h.brk_lt
  exact h0 (hp.mem_iff.2 (List.mem_range.2 this.1))

/-! ## `malloc`, unfolded -/

theorem malloc_eq (fuel : Nat) (s : Heap) (n : Nat) (g : Bool) :
    malloc fuel s n g =
      if n = 0 then some (s, 0)
      else
        match first_fit (init_heap_start s).mem (round_request n) fuel
            (init_heap_start s).metadata_head with
        | none => none
        | some chosen =>
          if chosen ≠ 0 then
            some (reuse_block (init_heap_start s) chosen (round_request n),
              get_block_address chosen)
          else
            match sbrk (init_heap_start s)
                ((METADATA_SIZE + INT_SIZE + round_request n) % SZ) g with
            | none => some (init_heap_start s, 0)
            | some s1 =>
              some (mark_block_used
                  (set_block_size s1 (init_heap_start s).brk (round_request n))
                  (init_heap_start s).brk,
                get_block_address (init_heap_start s).brk) := by
  rfl

theorem sbrk_small {s : Heap} {inc : Nat} (h : inc < 9223372036854775808) :
    sbrk s inc true = some { s with brk := s.brk + inc } := by
  unfold sbrk
  simp only [if_neg (show ¬ (true = false) by decide)]
  rw [if_pos (by norm_num; exact h)]

theorem sbrk_false (s : Heap) (inc : Nat) : sbrk s inc false = none := by
  unfold sbrk
  simp

theorem init_heap_start_fields (s : Heap) :
    (init_heap_start s).mem = s.mem ∧ (init_heap_start s).brk = s.brk ∧
      (init_heap_start s).metadata_head = s.metadata_head ∧
      start (init_heap_start s) = start s := by
  unfold init_heap_start
  by_cases h : s.heap_start = 0
  · rw [if_pos h]
    refine ⟨rfl, rfl, rfl, ?_⟩
    unfold start
    rw [if_pos h]
    by_cases h2 : s.brk = 0
    · rw [if_pos h2]
    · rw [if_neg h2]
  · rw [if_neg h]
    exact ⟨rfl, rfl, rfl, rfl⟩

theorem WF.init_heap_start {s : Heap} {bs : List Blk} {fl : List Nat} (h : WF s bs fl) :
    WF (init_heap_start s) bs fl ∧ (init_heap_start s).heap_start ≠ 0 := by
  obtain ⟨e1, e2, e3, e4⟩ := init_heap_start_fields s
  have hne : (Alloc.init_heap_start s).heap_start ≠ 0 := by
    have := h.start_pos
    unfold Alloc.init_heap_start
    unfold start at this
    by_cases h0 : s.heap_start = 0
    · simp only [h0, if_true] at this ⊢
      omega
    · simp only [h0, if_false] at this ⊢
      exact h0
  refine ⟨⟨?_, ?_, ?_, fun _ => hne, ?_, ?_, ?_, ?_, h.nodup, h.mem_fl, ?_⟩, hne⟩
  · rw [e4]; exact h.start_pos
  · rw [e4]; exact h.top
  · have := h.fits
    unfold Fits at *
    rw [e4, e2]; exact this
  · rw [e4, e2]; exact h.tiles
  · rw [e1]; exact h.ok
  · rw [e3]; exact h.head
  · rw [e1]; exact h.seg
  · rw [e1, e2]; exact h.zero

theorem first_fit_mono {m : Mem} {r : Nat} : ∀ (fuel p q : Nat),
    first_fit m r fuel p = some q → ∀ fuel', fuel ≤ fuel' → first_fit m r fuel' p = some q := by
  intro fuel
  induction fuel with
  | zero => intro p q h; simp [first_fit] at h
  | succ k ih =>
    intro p q h fuel' hle
    cases fuel' with
    | zero => omega
    | succ k' =>
      simp only [first_fit] at h ⊢
      by_cases hp : p = 0
      · simp only [hp, if_true] at h ⊢; exact h
      · simp only [hp, if_false] at h ⊢
        by_cases hsz : get_block_size m p ≥ r
        · simp only [hsz, if_true] at h ⊢; exact h
        · simp only [hsz, if_false] at h ⊢
          exact ih _ _ h k' (by omega)

/-! ## `split_block` -/

theorem split_block_eq {s : Heap} {a r S : Nat} (ha : a ≠ 0) (hr : r ≠ 0)
    (hS : get_block_size s.mem a = S) (h1 : r + 28 ≤ S) (h2 : S ≤ 2147483647) :
    split_block s a r =
      merge_block (set_block_size (set_block_size s a r) (a + 28 + r) (S - r - 28))
        (a + 28 + r) := by
  have e1 : a + METADATA_SIZE + r + INT_SIZE = a + 28 + r := by
    simp only [METADATA_SIZE, INT_SIZE]; omega
  have e2 : (S + SZ - (r + (METADATA_SIZE + INT_SIZE)) % SZ) % SZ = S - r - 28 := by
    simp only [METADATA_SIZE, INT_SIZE, SZ]
    rw [Nat.mod_eq_of_lt (show r + (24 + 4) < 2 ^ 64 by omega)]
    have : S + 2 ^ 64 - (r + (24 + 4)) = (S - r - 28) + 2 ^ 64 := by omega
    rw [this, Nat.add_mod_right, Nat.mod_eq_of_lt (by omega)]
  have e3 : a + 28 + r + METADATA_SIZE = (a + 28 + r) + 24 := by simp only [METADATA_SIZE]
  unfold split_block
  rw [if_neg (by intro h; rcases h with h | h; exact ha h; exact hr h)]
  simp only [hS, e1, e2, e3, free_eq_merge]

/-- Summary of `split_block` on a block that is being allocated. -/
theorem split_block_spec {s : Heap} {pre post : List Blk} {b : Blk} {fl : List Nat}
    (h : WF s (pre ++ b :: post) fl) (hb : b.st = .taken)
    (hnr : ∀ c, c ∈ pre ∨ c ∈ post → c.st ≠ .raw)
    {r : Nat} (hr0 : r ≠ 0) (hr : r + 28 ≤ b.size) (hd : 4 ∣ r) :
    ∃ bs' fl', WF (split_block s b.addr r) bs' fl' ∧
      (split_block s b.addr r).brk = s.brk ∧
      (split_block s b.addr r).heap_start = s.heap_start ∧
      (∀ x, (split_block s b.addr r).mem x ≠ s.mem x → NU (pre ++ b :: post) x) ∧
      ({ b with size := r } : Blk) ∈ bs' ∧
      (∀ c ∈ bs', c.st = .free ∨ c = { b with size := r } ∨ c ∈ pre ∨ c ∈ post) ∧
      (∀ c, c ∈ pre ∨ c ∈ post → c.st ≠ .free → c ∈ bs') := by
  have hbm : b ∈ pre ++ b :: post := by simp
  have kb := h.bnd hbm
  have heq := split_block_eq (s := s) (a := b.addr) (r := r) (S := b.size) (by omega) hr0
    (h.gbs hbm) hr (by omega)
  obtain ⟨q1, q2⟩ := split_sizes_spec h hr hd
  have hl : pre ++ { b with size := r } :: ⟨b.addr + 28 + r, b.size - r - 28, .raw⟩ :: post
      = (pre ++ [{ b with size := r }]) ++ ⟨b.addr + 28 + r, b.size - r - 28, .raw⟩ :: post := by
    simp
  rw [hl] at q2
  have hnr' : ∀ c, c ∈ pre ++ [({ b with size := r } : Blk)] ∨ c ∈ post → c.st ≠ .raw := by
    intro c hc
    simp only [List.mem_append, List.mem_singleton] at hc
    rcases hc with (hc | rfl) | hc
    · exact hnr c (Or.inl hc)
    · show b.st ≠ .raw
      rw [hb]; decide
    · exact hnr c (Or.inr hc)
  obtain ⟨bs', fl', w1, w2, w3, w4, w5, w6⟩ :=
    merge_block_sum (b := ⟨b.addr + 28 + r, b.size - r - 28, .raw⟩) q2 rfl hnr'
  rw [heq]
  refine ⟨bs', fl', w1, ?_, ?_, ?_, ?_, ?_, ?_⟩
  · rw [w2, q1]
  · rw [w3, q1]
  · intro x hx
    by_cases c1 : (set_block_size (set_block_size s b.addr r) (b.addr + 28 + r)
        (b.size - r - 28)).mem x = s.mem x
    · rw [← c1] at hx
      obtain ⟨d, hd, hdu, h3, h4⟩ := w4 x hx
      simp only [List.mem_append, List.mem_cons, List.not_mem_nil, or_false] at hd
      rcases hd with (hd | rfl) | rfl | hd
      · exact NU_of_mem (c := d) (by simp [hd]) hdu h3 h4
      · exact NU_of_mem hbm (by rw [hb]; decide) h3
          (by have : x < b.addr + 28 + r := h4; omega)
      · exact NU_of_mem hbm (by rw [hb]; decide)
          (by have : b.addr + 28 + r ≤ x := h3; omega)
          (by have : x < b.addr + 28 + r + 28 + (b.size - r - 28) := h4; omega)
      · exact NU_of_mem (c := d) (by simp [hd]) hdu h3 h4
    · rw [q1] at c1
      have : b.addr ≤ x ∧ x < b.addr + 28 + b.size := by
        by_contra hno
        apply c1
        show wr32 (wr32 (wr32 (wr32 s.mem _ _) _ _) _ _) _ _ x = s.mem x
        rw [wr32_out _ _ _ _ (by omega), wr32_out _ _ _ _ (by omega),
          wr32_out _ _ _ _ (by omega), wr32_out _ _ _ _ (by omega)]
      exact NU_of_mem hbm (by rw [hb]; decide) this.1 this.2
  · exact w6 _ (Or.inl (by simp)) (by show b.st ≠ .free; rw [hb]; decide)
  · intro c hc
    rcases w5 c hc with h1 | h1 | h1
    · exact Or.inl h1
    · simp only [List.mem_append, List.mem_singleton] at h1
      rcases h1 with h1 | h1
      · exact Or.inr (Or.inr (Or.inl h1))
      · exact Or.inr (Or.inl h1)
    · exact Or.inr (Or.inr (Or.inr h1))
  · intro c hc hcf
    rcases hc with hc | hc
    · exact w6 c (Or.inl (by simp [hc])) hcf
    · exact w6 c (Or.inr hc) hcf

/-! ## Taking a block for the caller -/

/-- A block whose flag and links are cleared can be handed to the caller. -/
theorem WF.use {s : Heap} {bs : List Blk} {fl : List Nat} (h : WF s bs fl) {X : Blk}
    (hX : X ∈ bs) (hXt : X.st = .taken) :
    ∃ bs', WF s bs' fl ∧ ∀ c, c ∈ bs' ↔ (c ∈ bs ∧ c ≠ X) ∨ c = { X with st := .used } := by
  obtain ⟨pre, post, rfl⟩ := List.append_of_mem hX
  have ht := Tiles_split h.tiles
  have hok := h.ok X hX
  refine ⟨pre ++ { X with st := .used } :: post, ?_, ?_⟩
  · refine h.restatus (by rw [hXt]; decide) (by decide) ?_
    exact ⟨hok.size_eq, hok.size_dvd, hok.foot, fun hf => absurd hf (by simp),
      fun _ => hok.flag_used (Or.inr hXt)⟩
  · intro c
    simp only [List.mem_append, List.mem_cons]
    constructor
    · rintro (hc | rfl | hc)
      · left
        refine ⟨Or.inl hc, ?_⟩
        rintro rfl
        have := Tiles_bounds _ _ _ ht.1 c hc
        omega
      · exact Or.inr rfl
      · left
        refine ⟨Or.inr (Or.inr hc), ?_⟩
        rintro rfl
        have := Tiles_bounds _ _ _ ht.2 c hc
        omega
    · rintro (⟨hc | rfl | hc, hne⟩ | rfl)
      · exact Or.inl hc
      · exact absurd rfl hne
      · exact Or.inr (Or.inr hc)
      · exact Or.inr (Or.inl rfl)

theorem split_factor_mod {r : Nat} (h : r ≤ 2147483647) : r * SPLIT_FACTOR % SZ = r * 40 := by
  simp only [SPLIT_FACTOR, SZ]
  exact Nat.mod_eq_of_lt (by omega)

/-- The hit path of `malloc`: the chosen free block is unlinked, marked used and possibly
split; it ends up as a used block of at least the requested size. -/
theorem reuse_spec {s : Heap} {bs : List Blk} {fl : List Nat} (h : WF s bs fl) (hcl : Clean bs)
    {b : Blk} (hb : b ∈ bs) (hf : b.st = .free) {r : Nat} (hr0 : r ≠ 0) (hd : 4 ∣ r)
    (hrs : r ≤ b.size) :
    ∃ bs' fl' X, WF (reuse_block s b.addr r) bs' fl' ∧ Clean bs' ∧
      (reuse_block s b.addr r).brk = s.brk ∧
      (reuse_block s b.addr r).heap_start = s.heap_start ∧
      X ∈ bs' ∧ X.st = .used ∧ X.addr = b.addr ∧ r ≤ X.size ∧
      Keeps bs s.mem bs' (reuse_block s b.addr r).mem ∧
      (∀ c, c ∈ bs' ∧ c.st = .used ↔ (c ∈ bs ∧ c.st = .used) ∨ c = X) := by
  obtain ⟨pre, post, rfl⟩ := List.append_of_mem hb
  have kb := h.bnd hb
  have ht := Tiles_split h.tiles
  have hbfl : b.addr ∈ fl := (h.mem_fl _).2 ⟨b, hb, rfl, hf⟩
  obtain ⟨l1, l2, hfl⟩ := List.append_of_mem hbfl
  obtain ⟨u1, u2, u3, u4, u5, u6⟩ := unlink_spec h hf hfl
  have hbm1 : ({ b with st := .raw } : Blk) ∈ pre ++ { b with st := .raw } :: post := by simp
  -- the flag write
  have hmu := mark_block_used_eq (s := remove_block_node s b.addr) (p := b.addr) (by omega)
  have w2 : WF (mark_block_used (remove_block_node s b.addr) b.addr)
      (pre ++ { b with st := .raw } :: post) (l1 ++ l2) := by
    rw [hmu]
    refine u1.loose_write ?_
    intro x hx
    have hx' : b.addr + 4 ≤ x ∧ x < b.addr + 8 := by
      by_contra hno
      apply hx
      show wr32 _ _ _ x = _
      rw [wr32_out _ _ _ _ (by omega)]
    refine ⟨{ b with st := .raw }, hbm1, ?_, by simp⟩
    unfold Loose
    refine ⟨hx'.1, by show x < b.addr + 24 + b.size; omega, fun hn => absurd rfl hn, ?_⟩
    intro hu
    rcases hu with hu | hu <;> exact absurd hu (by simp)
  have w3 : WF (mark_block_used (remove_block_node s b.addr) b.addr)
      (pre ++ { b with st := .taken } :: post) (l1 ++ l2) := by
    have ok2 := w2.ok _ hbm1
    refine w2.restatus (b := { b with st := .raw }) (t := .taken) (by simp) (by decide) ?_
    refine ⟨ok2.size_eq, ok2.size_dvd, ok2.foot, fun hf => absurd hf (by simp), fun _ => ?_⟩
    rw [hmu]
    show rd32 (wr32 _ _ _) (b.addr + 4) = 0 ∧ rd64 (wr32 _ _ _) (b.addr + 8) = 0 ∧
      rd64 (wr32 _ _ _) (b.addr + 16) = 0
    rw [rd32_wr32_same, rd64_wr32_disj _ _ _ _ (by omega), rd64_wr32_disj _ _ _ _ (by omega)]
    exact ⟨rfl, u2, u3⟩
  have hbm3 : ({ b with st := .taken } : Blk) ∈ pre ++ { b with st := .taken } :: post := by simp
  have g3 : get_block_size (mark_block_used (remove_block_node s b.addr) b.addr).mem b.addr
      = b.size := w3.gbs (b := { b with st := .taken }) hbm3
  have hnr : ∀ c, c ∈ pre ∨ c ∈ post → c.st ≠ .raw := by
    intro c hc
    have hcm : c ∈ pre ++ b :: post := by
      rcases hc with hc | hc <;> simp [hc]
    rcases hcl c hcm with h1 | h1 <;> rw [h1] <;> decide
  have hch3 : ∀ x, (mark_block_used (remove_block_node s b.addr) b.addr).mem x ≠ s.mem x →
      NU (pre ++ b :: post) x := by
    intro x hx
    by_cases c1 : (remove_block_node s b.addr).mem x = s.mem x
    · rw [hmu] at hx
      have hx' : b.addr + 4 ≤ x ∧ x < b.addr + 8 := by
        by_contra hno
        apply hx
        show wr32 _ _ _ x = _
        rw [wr32_out _ _ _ _ (by omega)]
        exact c1
      exact NU_of_mem hb (by rw [hf]; decide) (by omega) (by omega)
    · obtain ⟨c, hc, hcf, h1, h2⟩ := u6 x c1
      exact NU_of_mem hc (by rw [hcf]; decide) (by omega) (by omega)
  -- the state before the block is handed out
  have key : ∃ bs4 fl4 sz, WF (reuse_block s b.addr r) bs4 fl4 ∧
      (reuse_block s b.addr r).brk = s.brk ∧
      (reuse_block s b.addr r).heap_start = s.heap_start ∧ r ≤ sz ∧
      (⟨b.addr, sz, .taken⟩ : Blk) ∈ bs4 ∧
      (∀ c ∈ bs4, c.st = .free ∨ c = ⟨b.addr, sz, .taken⟩ ∨ c ∈ pre ∨ c ∈ post) ∧
      (∀ c, c ∈ pre ∨ c ∈ post → c.st ≠ .free → c ∈ bs4) ∧
      (∀ x, (reuse_block s b.addr r).mem x ≠ s.mem x → NU (pre ++ b :: post) x) := by
    unfold reuse_block
    simp only [g3, split_factor_mod (show r ≤ 2147483647 by omega)]
    by_cases hsp : b.size ≥ r * 40
    · rw [if_pos hsp]
      have hr28 : r + 28 ≤ b.size := by omega
      obtain ⟨bs4, fl4, v1, v2, v3, v4, v5, v6, v7⟩ :=
        split_block_spec (b := { b with st := .taken }) w3 rfl hnr hr0 hr28 hd
      refine ⟨bs4, fl4, r, v1, ?_, ?_, Nat.le_refl r, v5, v6, v7, ?_⟩
      · rw [v2, hmu]; exact u4
      · rw [v3, hmu]; exact u5
      · intro x hx
        by_cases c1 : (mark_block_used (remove_block_node s b.addr) b.addr).mem x = s.mem x
        · rw [← c1] at hx
          obtain ⟨d, hd, hdu, h3, h4⟩ := v4 x hx
          simp only [List.mem_append, List.mem_cons] at hd
          rcases hd with hd | rfl | hd
          · exact NU_of_mem (c := d) (by simp [hd]) hdu h3 h4
          · exact NU_of_mem hb (by rw [hf]; decide) h3 h4
          · exact NU_of_mem (c := d) (by simp [hd]) hdu h3 h4
        · exact hch3 x c1
    · rw [if_neg hsp]
      refine ⟨_, _, b.size, w3, ?_, ?_, hrs, hbm3, ?_, ?_, hch3⟩
      · rw [hmu]; exact u4
      · rw [hmu]; exact u5
      · intro c hc
        simp only [List.mem_append, List.mem_cons] at hc
        rcases hc with hc | rfl | hc
        · exact Or.inr (Or.inr (Or.inl hc))
        · exact Or.inr (Or.inl rfl)
        · exact Or.inr (Or.inr (Or.inr hc))
      · intro c hc _
        rcases hc with hc | hc <;> simp [hc]
  obtain ⟨bs4, fl4, sz, k1, k2, k3, k4, k5, k6, k7, k8⟩ := key
  obtain ⟨bs', z1, z2⟩ := k1.use k5 rfl
  have hpre : ∀ c ∈ pre, c ≠ b ∧ c ∈ pre ++ b :: post := by
    intro c hc
    refine ⟨?_, by simp [hc]⟩
    rintro rfl
    have := Tiles_bounds _ _ _ ht.1 c hc
    omega
  have hpost : ∀ c ∈ post, c ≠ b ∧ c ∈ pre ++ b :: post := by
    intro c hc
    refine ⟨?_, by simp [hc]⟩
    rintro rfl
    have := Tiles_bounds _ _ _ ht.2 c hc
    omega
  have hsub : ∀ c ∈ pre ++ b :: post, c.st = .used → c ∈ bs' := by
    intro c hc hu
    apply (z2 c).2
    left
    simp only [List.mem_append, List.mem_cons] at hc
    have hcf : c.st ≠ .free := by rw [hu]; decide
    have hct : c ≠ ⟨b.addr, sz, .taken⟩ := by
      rintro rfl
      exact absurd hu (by simp)
    rcases hc with hc | rfl | hc
    · exact ⟨k7 c (Or.inl hc) hcf, hct⟩
    · rw [hf] at hu; exact absurd hu (by decide)
    · exact ⟨k7 c (Or.inr hc) hcf, hct⟩
  refine ⟨bs', fl4, ⟨b.addr, sz, .used⟩, z1, ?_, k2, k3, (z2 _).2 (Or.inr rfl), rfl, rfl, k4, ?_, ?_⟩
  · intro c hc
    rcases (z2 c).1 hc with ⟨h1, h2⟩ | rfl
    · rcases k6 c h1 with h3 | h3 | h3 | h3
      · exact Or.inl h3
      · exact absurd h3 h2
      · exact hcl c (hpre c h3).2
      · exact hcl c (hpost c h3).2
    · exact Or.inr rfl
  · exact Keeps.of_changes h.tiles hsub (fun x hx => Or.inl (k8 x hx))
  · intro c
    constructor
    · rintro ⟨hc, hu⟩
      rcases (z2 c).1 hc with ⟨h1, h2⟩ | rfl
      · rcases k6 c h1 with h3 | h3 | h3 | h3
        · rw [hu] at h3; exact absurd h3 (by decide)
        · exact absurd h3 h2
        · exact Or.inl ⟨(hpre c h3).2, hu⟩
        · exact Or.inl ⟨(hpost c h3).2, hu⟩
      · exact Or.inr rfl
    · rintro (⟨hc, hu⟩ | rfl)
      · exact ⟨hsub c hc hu, hu⟩
      · exact ⟨(z2 _).2 (Or.inr rfl), rfl⟩

/-! ## `malloc` -/

/-- The scan of `malloc` on a well-formed heap, for any fuel with which it finishes. -/
theorem WF.scan {s : Heap} {bs : List Blk} {fl : List Nat} (h : WF s bs fl) {r fuel q : Nat}
    (hq : first_fit s.mem r fuel s.metadata_head = some q) :
    (q = 0 ∧ ∀ a ∈ fl, get_block_size s.mem a < r) ∨
      ∃ l1 l2, fl = l1 ++ q :: l2 ∧ (∀ a ∈ l1, get_block_size s.mem a < r) ∧
        r ≤ get_block_size s.mem q ∧ q ≠ 0 := by
  have hm := first_fit_mono _ _ _ hq (max fuel (fl.length + 1)) (Nat.le_max_left _ _)
  rw [h.head] at hm
  rcases first_fit_spec (r := r) fl 0 (max fuel (fl.length + 1)) h.seg
      (by have := Nat.le_max_right fuel (fl.length + 1); omega) with ⟨h1, h2⟩ | ⟨l1, p, l2, h1, h2, h3, h4, h5⟩
  · rw [h1] at hm
    exact Or.inl ⟨(Option.some.inj hm).symm, h2⟩
  · rw [h5] at hm
    have := Option.some.inj hm
    subst this
    exact Or.inr ⟨l1, l2, h1, h2, h3, h4⟩

/-- With fuel of at least the break, the scan of `malloc` finishes on a well-formed heap. -/
theorem WF.scan_total {s : Heap} {bs : List Blk} {fl : List Nat} (h : WF s bs fl)
    (r : Nat) {fuel : Nat} (hfuel : s.brk ≤ fuel) :
    ∃ q, first_fit s.mem r fuel s.metadata_head = some q := by
  have hl := h.fl_length
  rw [h.head]
  rcases first_fit_spec (r := r) fl 0 fuel h.seg (by omega) with ⟨h1, _⟩ | ⟨_, p, _, _, _, _, _, h5⟩
  · exact ⟨0, h1⟩
  · exact ⟨p, h5⟩

/-- The miss path of `malloc` after a successful growth. -/
theorem fresh_spec {s : Heap} {bs : List Blk} {fl : List Nat} (h : WF s bs fl) (hcl : Clean bs)
    (hs : s.heap_start ≠ 0) {r : Nat} (hd : 4 ∣ r)
    (hfit : s.brk + 28 + r ≤ s.heap_start + 2147483647) :
    fresh_block s r =
        { s with brk := s.brk + 28 + r,
                 mem := wr32 (wr32 (wr32 s.mem s.brk r) (s.brk + 24 + r) r) (s.brk + 4) 0 } ∧
      WF (fresh_block s r) (bs ++ [⟨s.brk, r, .used⟩]) fl ∧
      Clean (bs ++ [⟨s.brk, r, .used⟩]) ∧
      Keeps bs s.mem (bs ++ [⟨s.brk, r, .used⟩]) (fresh_block s r).mem := by
  obtain ⟨g1, g2⟩ := grow_spec h hs hd hfit
  have g2' : WF (fresh_block s r) (bs ++ (⟨s.brk, r, .taken⟩ : Blk) :: []) fl := g2
  have hok := g2'.ok ⟨s.brk, r, .taken⟩ (by simp)
  have g3 := g2'.restatus (t := .used) (by simp) (by decide)
    ⟨hok.size_eq, hok.size_dvd, hok.foot, fun hf => absurd hf (by simp),
      fun _ => hok.flag_used (Or.inr rfl)⟩
  refine ⟨g1, g3, ?_, ?_⟩
  · intro c hc
    simp only [List.mem_append, List.mem_singleton] at hc
    rcases hc with hc | rfl
    · exact hcl c hc
    · exact Or.inr rfl
  · refine Keeps.of_changes h.tiles (fun c hc _ => by simp [hc]) ?_
    intro x hx
    right; right
    by_contra hlt
    apply hx
    show (fresh_block s r).mem x = s.mem x
    unfold fresh_block
    rw [g1]
    show wr32 (wr32 (wr32 s.mem _ _) _ _) _ _ x = _
    rw [wr32_out _ _ _ _ (by omega), wr32_out _ _ _ _ (by omega), wr32_out _ _ _ _ (by omega)]

theorem get_block_address_ne {a : Nat} (h : a ≠ 0) : get_block_address a = a + 24 := by
  unfold get_block_address
  rw [if_neg h]
  rfl

theorem fresh_block_eq {s : Heap} {r : Nat} (hb : s.brk ≠ 0) (hr : r ≤ 2147483647) :
    fresh_block s r =
      { s with brk := s.brk + 28 + r,
               mem := wr32 (wr32 (wr32 s.mem s.brk r) (s.brk + 24 + r) r) (s.brk + 4) 0 } := by
  unfold fresh_block
  rw [set_block_size_eq (s := { s with brk := s.brk + 28 + r }) hb hr
    (by show s.brk + 24 + r < s.brk + 28 + r; omega), mark_block_used_eq hb]

/-- What `malloc` does on a well-formed heap, for a request that respects the contract. -/
theorem malloc_spec {s s' : Heap} {bs : List Blk} {fl : List Nat} {fuel n p : Nat} {g : Bool}
    (h : WF s bs fl) (hcl : Clean bs) (hfit : FitsInt n)
    (hres : malloc fuel s n g = some (s', p)) (hF : Fits s') :
    ∃ bs' fl', WF s' bs' fl' ∧ Clean bs' ∧ Keeps bs s.mem bs' s'.mem ∧
      Allocated bs bs' (round_request n) p := by
  rw [malloc_eq] at hres
  by_cases hn : n = 0
  · rw [if_pos hn] at hres
    obtain ⟨rfl, rfl⟩ := Prod.mk.inj (Option.some.inj hres)
    exact ⟨bs, fl, h, hcl, Keeps.refl _ _, Or.inl ⟨rfl, fun _ => Iff.rfl⟩⟩
  rw [if_neg hn] at hres
  obtain ⟨e1, e2, e3, e4⟩ := init_heap_start_fields s
  obtain ⟨h1, hs1⟩ := h.init_heap_start
  obtain ⟨b1, b2, b3, b4⟩ := hfit.bounds hn
  cases hff : first_fit (init_heap_start s).mem (round_request n) fuel
      (init_heap_start s).metadata_head with
  | none => rw [hff] at hres; exact absurd hres (by simp)
  | some chosen =>
    rw [hff] at hres
    simp only at hres
    rcases h1.scan hff with ⟨hq, hall⟩ | ⟨l1, l2, hfl, hl1, hsz, hq0⟩
    · -- no block fits: the heap has to grow
      subst hq
      simp only [ne_eq, not_true_eq_false, if_false] at hres
      cases g with
      | false =>
        rw [sbrk_false] at hres
        obtain ⟨rfl, rfl⟩ := Prod.mk.inj (Option.some.inj hres)
        refine ⟨bs, fl, h1, hcl, ?_, Or.inl ⟨rfl, fun _ => Iff.rfl⟩⟩
        rw [e1]
        exact Keeps.refl _ _
      | true =>
        have hinc : (METADATA_SIZE + INT_SIZE + round_request n) % SZ = 28 + round_request n := by
          simp only [METADATA_SIZE, INT_SIZE]
          exact Nat.mod_eq_of_lt (by unfold SZ; omega)
        rw [hinc, sbrk_small (by omega)] at hres
        have hbrk := h1.brk_lt
        have hres' : fresh_block (init_heap_start s) (round_request n) = s' ∧
            (init_heap_start s).brk + 24 = p := by
          obtain ⟨r1, r2⟩ := Prod.mk.inj (Option.some.inj hres)
          rw [get_block_address_ne (by omega)] at r2
          refine ⟨?_, r2⟩
          rw [← r1]
          unfold fresh_block
          have : (init_heap_start s).brk + (28 + round_request n)
              = (init_heap_start s).brk + 28 + round_request n := by omega
          rw [this]
        obtain ⟨r1, r2⟩ := hres'
        have hfb := fresh_block_eq (s := init_heap_start s) (r := round_request n) (by omega) b2
        have hfit' : (init_heap_start s).brk + 28 + round_request n
            ≤ (init_heap_start s).heap_start + 2147483647 := by
          have hF' := hF
          rw [← r1, hfb] at hF'
          unfold Fits start at hF'
          simp only [if_neg hs1, INT_MAX] at hF'
          exact hF'
        obtain ⟨f1, f2, f3, f4⟩ := fresh_spec h1 hcl hs1 b3 hfit'
        rw [r1] at f2 f4
        rw [e1] at f4
        refine ⟨_, fl, f2, f3, f4, Or.inr ⟨⟨(init_heap_start s).brk, round_request n, .used⟩,
          by simp, rfl, r2, Nat.le_refl _, ?_, ?_⟩⟩
        · intro c hc _
          have := h1.bnd hc
          show c.addr ≠ (init_heap_start s).brk
          omega
        · intro c
          simp only [List.mem_append, List.mem_singleton]
          constructor
          · rintro ⟨hc | rfl, hu⟩
            · exact Or.inl ⟨hc, hu⟩
            · exact Or.inr rfl
          · rintro (⟨hc, hu⟩ | rfl)
            · exact ⟨Or.inl hc, hu⟩
            · exact ⟨Or.inr rfl, rfl⟩
    · -- a free block fits
      simp only [ne_eq, hq0, not_false_eq_true, if_true] at hres
      obtain ⟨r1, r2⟩ := Prod.mk.inj (Option.some.inj hres)
      rw [get_block_address_ne hq0] at r2
      have hmem : chosen ∈ fl := by rw [hfl]; simp
      obtain ⟨b, hb, hba, hbf⟩ := (h1.mem_fl chosen).1 hmem
      subst hba
      have kb := h1.bnd hb
      have hsz' : round_request n ≤ b.size := by rw [← h1.gbs hb]; exact hsz
      obtain ⟨bs', fl', X, k1, k2, k3, k4, k5, k6, k7, k8, k9, k10⟩ :=
        reuse_spec h1 hcl hb hbf (by omega) b3 hsz'
      rw [r1] at k1 k9
      rw [e1] at k9
      refine ⟨bs', fl', k1, k2, k9, Or.inr ⟨X, k5, k6, by rw [k7]; exact r2, k8, ?_, k10⟩⟩
      intro c hc hu he
      have := h1.addr_inj hc hb (he.trans k7)
      subst this
      rw [hbf] at hu
      exact absurd hu (by decide)

/-! ## The break and `heap_start` are only changed by `malloc` -/

theorem set_block_size_fields (s : Heap) (ptr size : Nat) :
    (set_block_size s ptr size).brk = s.brk ∧
      (set_block_size s ptr size).heap_start = s.heap_start ∧
      (set_block_size s ptr size).metadata_head = s.metadata_head := by
  unfold set_block_size set_block_footer
  dsimp only
  split_ifs <;> exact ⟨rfl, rfl, rfl⟩

theorem remove_block_node_fields (s : Heap) (ptr : Nat) :
    (remove_block_node s ptr).brk = s.brk ∧
      (remove_block_node s ptr).heap_start = s.heap_start := by
  unfold remove_block_node
  dsimp only
  split_ifs <;> exact ⟨rfl, rfl⟩

theorem link_front_fields (s : Heap) (ptr : Nat) :
    (link_front s ptr).brk = s.brk ∧ (link_front s ptr).heap_start = s.heap_start := by
  unfold link_front mark_block_free
  dsimp only
  split_ifs <;> exact ⟨rfl, rfl⟩

theorem merge_block_fields (s : Heap) (ptr : Nat) :
    (merge_block s ptr).brk = s.brk ∧ (merge_block s ptr).heap_start = s.heap_start := by
  rw [merge_block_eq]
  split_ifs
  · exact ⟨(set_block_size_fields _ _ _).1, (set_block_size_fields _ _ _).2.1⟩
  · obtain ⟨a1, a2⟩ := link_front_fields
      (set_block_size (remove_block_node s (get_right_block s ptr)) ptr
        ((get_block_size (remove_block_node s (get_right_block s ptr)).mem ptr
          + get_block_size (remove_block_node s (get_right_block s ptr)).mem
              (get_right_block s ptr)
          + METADATA_SIZE + INT_SIZE) % SZ)) ptr
    obtain ⟨b1, b2, -⟩ := set_block_size_fields (remove_block_node s (get_right_block s ptr)) ptr
        ((get_block_size (remove_block_node s (get_right_block s ptr)).mem ptr
          + get_block_size (remove_block_node s (get_right_block s ptr)).mem
              (get_right_block s ptr)
          + METADATA_SIZE + INT_SIZE) % SZ)
    obtain ⟨c1, c2⟩ := remove_block_node_fields s (get_right_block s ptr)
    exact ⟨a1.trans (b1.trans c1), a2.trans (b2.trans c2)⟩
  · exact link_front_fields s ptr

theorem free_fields (s : Heap) (ptr : Nat) :
    (free s ptr).brk = s.brk ∧ (free s ptr).heap_start = s.heap_start := by
  unfold free
  split_ifs
  · exact ⟨rfl, rfl⟩
  · exact merge_block_fields _ _

theorem Fits_congr {s s' : Heap} (h1 : s'.brk = s.brk) (h2 : s'.heap_start = s.heap_start) :
    Fits s' ↔ Fits s := by
  unfold Fits start
  rw [h1, h2]

/-! ## Writes into payloads -/

theorem WF.payload_write {s : Heap} {bs : List Blk} {fl : List Nat} (h : WF s bs fl) {b : Blk}
    (hb : b ∈ bs) (hu : b.st = .used) {m' : Mem}
    (hch : ∀ x, m' x ≠ s.mem x → b.addr + 24 ≤ x ∧ x < b.addr + 24 + b.size) :
    WF { s with mem := m' } bs fl := by
  refine h.loose_write ?_
  intro x hx
  have := hch x hx
  refine ⟨b, hb, ?_, by rw [hu]; decide⟩
  unfold Loose
  exact ⟨by omega, this.2, fun _ => by omega, fun _ => this.1⟩

theorem memset0_changes {m : Mem} {p n x : Nat} (h : memset0 m p n x ≠ m x) :
    p ≤ x ∧ x < p + n := by
  by_contra hno
  apply h
  unfold memset0
  rw [if_neg hno]

theorem memcpy_changes {m : Mem} {d src n x : Nat} (h : memcpy m d src n x ≠ m x) :
    d ≤ x ∧ x < d + n := by
  by_contra hno
  apply h
  unfold memcpy
  rw [if_neg hno]

/-! ## Live addresses -/

theorem Allocated.live {bs bs' : List Blk} {r p : Nat} (h : Allocated bs bs' r p) (q : Nat) :
    Live bs' q ↔ Live bs q ∨ (p ≠ 0 ∧ q = p) := by
  unfold Live
  rcases h with ⟨hp, hiff⟩ | ⟨X, h1, h2, h3, h4, h5, hiff⟩
  · constructor
    · rintro ⟨c, hc, hu, hq⟩
      exact Or.inl ⟨c, ((hiff c).1 ⟨hc, hu⟩).1, hu, hq⟩
    · rintro (⟨c, hc, hu, hq⟩ | ⟨hne, _⟩)
      · exact ⟨c, ((hiff c).2 ⟨hc, hu⟩).1, hu, hq⟩
      · exact absurd hp hne
  · constructor
    · rintro ⟨c, hc, hu, hq⟩
      rcases (hiff c).1 ⟨hc, hu⟩ with ⟨k1, k2⟩ | rfl
      · exact Or.inl ⟨c, k1, hu, hq⟩
      · exact Or.inr ⟨by omega, by omega⟩
    · rintro (⟨c, hc, hu, hq⟩ | ⟨hne, hq⟩)
      · exact ⟨c, ((hiff c).2 (Or.inl ⟨hc, hu⟩)).1, hu, hq⟩
      · exact ⟨X, h1, h2, by omega⟩

theorem Allocated.fresh {bs bs' : List Blk} {r p : Nat} (h : Allocated bs bs' r p)
    (hp : p ≠ 0) : ¬ Live bs p := by
  rcases h with ⟨h0, _⟩ | ⟨X, h1, h2, h3, h4, h5, hiff⟩
  · exact absurd h0 hp
  · rintro ⟨c, hc, hu, hq⟩
    exact h5 c hc hu (by omega)

/-! ## One call on a well-formed heap -/

theorem Live.not_zero {bs : List Blk} : ¬ Live bs 0 := by
  rintro ⟨c, _, _, hq⟩
  omega

theorem malloc_step {s s' : Heap} {bs : List Blk} {fl L : List Nat} {fuel n r : Nat} {g : Bool}
    (h : WF s bs fl) (hcl : Clean bs) (hL : ∀ p, p ∈ L ↔ Live bs p) (hfit : FitsInt n)
    (hres : malloc fuel s n g = some (s', r)) (hF : Fits s') :
    ∃ bs' fl', WF s' bs' fl' ∧ Clean bs' ∧ (∀ p, p ∈ (if r = 0 then L else r :: L) ↔ Live bs' p) ∧
      Keeps bs s.mem bs' s'.mem ∧ Allocated bs bs' (round_request n) r := by
  obtain ⟨bs', fl', k1, k2, k3, k4⟩ := malloc_spec h hcl hfit hres hF
  refine ⟨bs', fl', k1, k2, ?_, k3, k4⟩
  intro p
  rw [k4.live p]
  by_cases hr : r = 0
  · rw [if_pos hr, hL p]
    constructor
    · intro hp; exact Or.inl hp
    · rintro (hp | ⟨hne, _⟩)
      · exact hp
      · exact absurd hr hne
  · rw [if_neg hr, List.mem_cons, hL p]
    constructor
    · rintro (hp | hp)
      · exact Or.inr ⟨hr, hp⟩
      · exact Or.inl hp
    · rintro (hp | ⟨_, hp⟩)
      · exact Or.inr hp
      · exact Or.inl hp

theorem calloc_step {s s' : Heap} {bs : List Blk} {fl L : List Nat} {fuel num size r : Nat}
    {g : Bool} (h : WF s bs fl) (hcl : Clean bs) (hL : ∀ p, p ∈ L ↔ Live bs p)
    (hfit : FitsInt (num * size))
    (hres : calloc fuel s num size g = some (s', r)) (hF : Fits s') :
    ∃ bs' fl', WF s' bs' fl' ∧ Clean bs' ∧ (∀ p, p ∈ (if r = 0 then L else r :: L) ↔ Live bs' p) ∧
      Keeps bs s.mem bs' s'.mem ∧ Allocated bs bs' (round_request (num * size)) r := by
  have hk : num * size % SZ = num * size := by
    have := hfit.1
    unfold INT_MAX at this
    exact Nat.mod_eq_of_lt (by unfold SZ; omega)
  unfold calloc at hres
  rw [hk] at hres
  dsimp only at hres
  cases hm : malloc fuel s (num * size) g with
  | none => rw [hm] at hres; exact absurd hres (by simp)
  | some res =>
    obtain ⟨s1, ptr⟩ := res
    rw [hm] at hres
    simp only at hres
    by_cases hp : ptr = 0
    · rw [if_pos hp] at hres
      obtain ⟨rfl, rfl⟩ := Prod.mk.inj (Option.some.inj hres)
      subst hp
      exact malloc_step h hcl hL hfit hm hF
    · rw [if_neg hp] at hres
      obtain ⟨rfl, rfl⟩ := Prod.mk.inj (Option.some.inj hres)
      have hF1 : Fits s1 := (Fits_congr (s := s1) rfl rfl).1 hF
      obtain ⟨bs', fl', k1, k2, k3, k4, k5⟩ := malloc_step h hcl hL hfit hm hF1
      have k5' := k5
      rcases k5 with ⟨h0, _⟩ | ⟨X, x1, x2, x3, x4, x5, x6⟩
      · exact absurd h0 hp
      · have hn0 : num * size ≠ 0 := by
          intro h0
          rw [h0, malloc_eq, if_pos rfl] at hm
          exact hp (Prod.mk.inj (Option.some.inj hm)).2.symm
        have hb := hfit.bounds hn0
        have hw : WF { s1 with mem := memset0 s1.mem ptr (num * size) } bs' fl' := by
          refine k1.payload_write x1 x2 ?_
          intro x hx
          have := memset0_changes hx
          omega
        refine ⟨bs', fl', hw, k2, k3, ?_, k5'⟩
        intro c hc hu
        obtain ⟨c1, c2⟩ := k4 c hc hu
        refine ⟨c1, ?_⟩
        intro x hx1 hx2
        rw [← c2 x hx1 hx2]
        show memset0 s1.mem ptr (num * size) x = s1.mem x
        by_contra hne
        have := memset0_changes hne
        rcases Tiles_disj _ _ _ k1.tiles c c1 X x1 with rfl | h5 | h5
        · exact x5 c hc hu rfl
        · omega
        · omega

theorem free_step {s : Heap} {bs : List Blk} {fl L : List Nat} {p : Nat}
    (h : WF s bs fl) (hcl : Clean bs) (hL : ∀ p, p ∈ L ↔ Live bs p) (hp : p = 0 ∨ p ∈ L) :
    ∃ bs' fl', WF (free s p) bs' fl' ∧ Clean bs' ∧
      (∀ q, q ∈ L.filter (fun q => q != p) ↔ Live bs' q) ∧
      ∀ b ∈ bs, b.st = .used → b.addr + 24 ≠ p →
        b ∈ bs' ∧ ∀ x, b.addr ≤ x → x < b.addr + 28 + b.size → (free s p).mem x = s.mem x := by
  rcases hp with rfl | hp
  · have hf : free s 0 = s := by unfold free; rw [if_pos rfl]
    rw [hf]
    refine ⟨bs, fl, h, hcl, ?_, fun b hb _ _ => ⟨hb, fun _ _ _ => rfl⟩⟩
    intro q
    rw [List.mem_filter, hL q]
    constructor
    · intro hq; exact hq.1
    · intro hq
      refine ⟨hq, ?_⟩
      have : q ≠ 0 := fun h0 => Live.not_zero (h0 ▸ hq)
      simpa using this
  · obtain ⟨b, hb, hu, rfl⟩ := (hL p).1 hp
    obtain ⟨bs', fl', k1, k2, k3, k4, k5, k6⟩ := free_spec h hcl hb hu
    refine ⟨bs', fl', k1, k2, ?_, ?_⟩
    · intro q
      rw [List.mem_filter, hL q]
      constructor
      · rintro ⟨⟨c, hc, hcu, hq⟩, hne⟩
        have hcb : c ≠ b := by
          rintro rfl
          simp [hq] at hne
        exact ⟨c, ((k5 c).2 ⟨hc, hcu, hcb⟩).1, hcu, hq⟩
      · rintro ⟨c, hc, hcu, hq⟩
        obtain ⟨c1, c2, c3⟩ := (k5 c).1 ⟨hc, hcu⟩
        refine ⟨⟨c, c1, c2, hq⟩, ?_⟩
        have : q ≠ b.addr + 24 := by
          intro he
          exact c3 (h.addr_inj c1 hb (by omega))
        simpa using this
    · intro c hc hcu hne
      have hcb : c ≠ b := by
        rintro rfl
        exact hne rfl
      exact ⟨((k5 c).2 ⟨hc, hcu, hcb⟩).1, k6 c hc hcu hcb⟩

theorem store_step {s : Heap} {bs : List Blk} {fl L : List Nat} {a v : Nat}
    (h : WF s bs fl) (hL : ∀ p, p ∈ L ↔ Live bs p)
    (hc : ∃ p ∈ L, p ≤ a ∧ a < p + get_block_size s.mem (get_block_metadata p)) :
    WF { s with mem := fun y => if y = a then v else s.mem y } bs fl ∧
      ∃ b ∈ bs, b.st = .used ∧ b.addr + 24 ≤ a ∧ a < b.addr + 24 + b.size := by
  obtain ⟨p, hp, h1, h2⟩ := hc
  obtain ⟨b, hb, hu, rfl⟩ := (hL p).1 hp
  rw [get_block_metadata_payload, h.gbs hb] at h2
  refine ⟨?_, b, hb, hu, h1, h2⟩
  refine h.payload_write hb hu ?_
  intro x hx
  have : x = a := by
    by_contra hne
    apply hx
    show (if x = a then v else s.mem x) = s.mem x
    rw [if_neg hne]
  omega

/-! ## `realloc` -/

/-- The moving branch of `realloc`: allocate, copy the old payload, release the old block. -/
theorem realloc_move {s s1 : Heap} {bs : List Blk} {fl : List Nat} {fuel n q : Nat} {g : Bool}
    {b : Blk} (h : WF s bs fl) (hcl : Clean bs) (hb : b ∈ bs) (hu : b.st = .used)
    (hn : b.size < n) (hfit : FitsInt n) (hm : malloc fuel s n g = some (s1, q)) (hq : q ≠ 0)
    (hF : Fits s1) :
    ∃ bs' fl' X,
      WF (free { s1 with mem := memcpy s1.mem q (b.addr + 24) b.size } (b.addr + 24)) bs' fl' ∧
      Clean bs' ∧ X ∈ bs' ∧ X.st = .used ∧ X.addr + 24 = q ∧ round_request n ≤ X.size ∧
      q ≠ b.addr + 24 ∧
      (∀ c, c ∈ bs' ∧ c.st = .used ↔ (c ∈ bs ∧ c.st = .used ∧ c ≠ b) ∨ c = X) ∧
      (∀ i, i < b.size →
        (free { s1 with mem := memcpy s1.mem q (b.addr + 24) b.size } (b.addr + 24)).mem (q + i)
          = s.mem (b.addr + 24 + i)) ∧
      (∀ c ∈ bs, c.st = .used → c ≠ b → ∀ x, c.addr ≤ x → x < c.addr + 28 + c.size →
        (free { s1 with mem := memcpy s1.mem q (b.addr + 24) b.size } (b.addr + 24)).mem x
          = s.mem x) := by
  obtain ⟨bs1, fl1, k1, k2, k3, k4⟩ := malloc_spec h hcl hfit hm hF
  rcases k4 with ⟨h0, _⟩ | ⟨X, x1, x2, x3, x4, x5, x6⟩
  · exact absurd h0 hq
  obtain ⟨b1, b2⟩ := k3 b hb hu
  have hXb : X ≠ b := by
    rintro rfl
    exact x5 X hb hu rfl
  have hn0 : n ≠ 0 := by omega
  have hbd := hfit.bounds hn0
  have hw : WF { s1 with mem := memcpy s1.mem q (b.addr + 24) b.size } bs1 fl1 := by
    refine k1.payload_write x1 x2 ?_
    intro x hx
    have := memcpy_changes hx
    omega
  obtain ⟨bs2, fl2, f1, f2, f3, f4, f5, f6⟩ := free_spec hw k2 b1 hu
  have hX2 : X ∈ bs2 ∧ X.st = .used := (f5 X).2 ⟨x1, x2, hXb⟩
  have hdisj : ∀ c ∈ bs1, c ≠ X → ∀ x, c.addr ≤ x → x < c.addr + 28 + c.size →
      memcpy s1.mem q (b.addr + 24) b.size x = s1.mem x := by
    intro c hc hne x hx1 hx2
    by_contra hch
    have := memcpy_changes hch
    rcases Tiles_disj _ _ _ k1.tiles c hc X x1 with rfl | h5 | h5
    · exact hne rfl
    · omega
    · omega
  refine ⟨bs2, fl2, X, f1, f2, hX2.1, x2, x3, x4, ?_, ?_, ?_, ?_⟩
  · intro he
    exact x5 b hb hu (by omega)
  · intro c
    rw [f5 c]
    constructor
    · rintro ⟨hc, hcu, hcb⟩
      rcases (x6 c).1 ⟨hc, hcu⟩ with ⟨c1, c2⟩ | rfl
      · exact Or.inl ⟨c1, c2, hcb⟩
      · exact Or.inr rfl
    · rintro (⟨hc, hcu, hcb⟩ | rfl)
      · exact ⟨((x6 c).2 (Or.inl ⟨hc, hcu⟩)).1, hcu, hcb⟩
      · exact ⟨x1, x2, hXb⟩
  · intro i hi
    rw [f6 X x1 x2 hXb (q + i) (by omega) (by omega)]
    show memcpy s1.mem q (b.addr + 24) b.size (q + i) = _
    unfold memcpy
    rw [if_pos (by omega)]
    have : b.addr + 24 + (q + i - q) = b.addr + 24 + i := by omega
    rw [this]
    exact b2 _ (by omega) (by omega)
  · intro c hc hcu hcb x hx1 hx2
    obtain ⟨c1, c2⟩ := k3 c hc hcu
    have hcX : c ≠ X := by
      rintro rfl
      exact x5 c hc hcu rfl
    rw [f6 c c1 hcu hcb x hx1 hx2]
    show memcpy s1.mem q (b.addr + 24) b.size x = _
    rw [hdisj c c1 hcX x hx1 hx2]
    exact c2 x hx1 hx2

theorem realloc_step {s s' : Heap} {bs : List Blk} {fl L : List Nat} {fuel p n r : Nat}
    {g : Bool} (h : WF s bs fl) (hcl : Clean bs) (hL : ∀ p, p ∈ L ↔ Live bs p)
    (hp : p = 0 ∨ p ∈ L) (hfit : FitsInt n)
    (hres : realloc fuel s p n g = some (s', r)) (hF : Fits s') :
    ∃ bs' fl', WF s' bs' fl' ∧ Clean bs' ∧
      (∀ q, q ∈ liveAfter L (.realloc p n) r ↔ Live bs' q) ∧
      ∀ b ∈ bs, b.st = .used → b.addr + 24 ≠ p →
        b ∈ bs' ∧ ∀ x, b.addr ≤ x → x < b.addr + 28 + b.size → s'.mem x = s.mem x := by
  unfold realloc at hres
  unfold liveAfter
  by_cases hp0 : p = 0
  · rw [if_pos hp0] at hres
    simp only [if_pos hp0]
    obtain ⟨bs', fl', k1, k2, k3, k4, k5⟩ := malloc_step h hcl hL hfit hres hF
    exact ⟨bs', fl', k1, k2, k3, fun b hb hu _ => k4 b hb hu⟩
  rw [if_neg hp0] at hres
  simp only [if_neg hp0]
  have hpL : p ∈ L := by
    rcases hp with hp | hp
    · exact absurd hp hp0
    · exact hp
  by_cases hn0 : n = 0
  · rw [if_pos hn0] at hres
    simp only [if_pos hn0]
    obtain ⟨rfl, rfl⟩ := Prod.mk.inj (Option.some.inj hres)
    exact free_step h hcl hL (Or.inr hpL)
  rw [if_neg hn0] at hres
  simp only [if_neg hn0]
  dsimp only at hres
  obtain ⟨b, hb, hu, rfl⟩ := (hL p).1 hpL
  rw [get_block_metadata_payload, h.gbs hb] at hres
  by_cases hsz : b.size ≥ n
  · rw [if_pos hsz] at hres
    obtain ⟨rfl, rfl⟩ := Prod.mk.inj (Option.some.inj hres)
    rw [if_neg hp0, if_pos rfl]
    exact ⟨bs, fl, h, hcl, hL, fun c hc _ _ => ⟨hc, fun _ _ _ => rfl⟩⟩
  rw [if_neg hsz] at hres
  cases hm : malloc fuel s n g with
  | none => rw [hm] at hres; exact absurd hres (by simp)
  | some res =>
    obtain ⟨s1, q⟩ := res
    rw [hm] at hres
    simp only at hres
    by_cases hq : q = 0
    · simp only [hq, ne_eq, not_true_eq_false, if_false] at hres
      obtain ⟨rfl, rfl⟩ := Prod.mk.inj (Option.some.inj hres)
      subst hq
      rw [if_pos rfl]
      obtain ⟨bs', fl', k1, k2, k3, k4, k5⟩ := malloc_step h hcl hL hfit hm hF
      rw [if_pos rfl] at k3
      exact ⟨bs', fl', k1, k2, k3, fun c hc hcu _ => k4 c hc hcu⟩
    · simp only [ne_eq, hq, not_false_eq_true, if_true] at hres
      obtain ⟨rfl, rfl⟩ := Prod.mk.inj (Option.some.inj hres)
      have hF1 : Fits s1 := by
        refine (Fits_congr (s := s1) ?_ ?_).1 hF
        · exact (free_fields _ _).1
        · exact (free_fields _ _).2
      obtain ⟨bs', fl', X, m1, m2, m3, m4, m5, m6, m7, m8, m9, m10⟩ :=
        realloc_move h hcl hb hu (by omega) hfit hm hq hF1
      rw [if_neg hq, if_neg m7]
      refine ⟨bs', fl', m1, m2, ?_, ?_⟩
      · intro t
        rw [List.mem_cons, List.mem_filter, hL t]
        unfold Live
        constructor
        · rintro (rfl | ⟨⟨c, hc, hcu, hct⟩, hne⟩)
          · exact ⟨X, m3, m4, m5⟩
          · have hcb : c ≠ b := by
              rintro rfl
              simp [hct] at hne
            exact ⟨c, ((m8 c).2 (Or.inl ⟨hc, hcu, hcb⟩)).1, hcu, hct⟩
        · rintro ⟨c, hc, hcu, hct⟩
          rcases (m8 c).1 ⟨hc, hcu⟩ with ⟨c1, c2, c3⟩ | rfl
          · right
            refine ⟨⟨c, c1, c2, hct⟩, ?_⟩
            have : t ≠ b.addr + 24 := by
              intro he
              exact c3 (h.addr_inj c1 hb (by omega))
            simpa using this
          · exact Or.inl (by omega)
      · intro c hc hcu hne
        have hcb : c ≠ b := by
          rintro rfl
          exact hne rfl
        exact ⟨((m8 c).2 (Or.inl ⟨hc, hcu, hcb⟩)).1, m10 c hc hcu hcb⟩

/-! ## Every call preserves the invariant -/

theorem WF_init {base : Nat} (h0 : 0 < base) (h1 : base + INT_MAX < SZ) :
    WF (init base) [] [] := by
  have hst : start (init base) = base := by
    unfold start init
    simp
  refine ⟨?_, ?_, ?_, fun h => absurd rfl h, ?_, ?_, rfl, trivial, List.nodup_nil, ?_, ?_⟩
  · rw [hst]; exact h0
  · rw [hst]; exact h1
  · unfold Fits
    rw [hst]
    show base ≤ base + INT_MAX
    omega
  · rw [hst]
    exact rfl
  · intro b hb
    simp at hb
  · intro a
    simp
  · intro x _
    rfl

/-- One contract-respecting call on a well-formed heap: the heap stays well formed, the live
addresses are updated as expected, and every used block that the call spares keeps all of
its bytes. -/
theorem step_spec {s s' : Heap} {bs : List Blk} {fl L : List Nat} {fuel r : Nat} {g : Bool}
    {c : Call} (h : WF s bs fl) (hcl : Clean bs) (hL : ∀ p, p ∈ L ↔ Live bs p)
    (hc : Contract s L c) (hres : run fuel g s c = some (s', r)) (hF : Fits s') :
    ∃ bs' fl', WF s' bs' fl' ∧ Clean bs' ∧ (∀ p, p ∈ liveAfter L c r ↔ Live bs' p) ∧
      ∀ b ∈ bs, b.st = .used → Spares s (b.addr + 24) c →
        b ∈ bs' ∧ ∀ x, b.addr ≤ x → x < b.addr + 28 + b.size → s'.mem x = s.mem x := by
  cases c with
  | malloc n =>
    obtain ⟨bs', fl', k1, k2, k3, k4, _⟩ := malloc_step h hcl hL hc hres hF
    exact ⟨bs', fl', k1, k2, k3, fun b hb hu _ => k4 b hb hu⟩
  | calloc num size =>
    obtain ⟨bs', fl', k1, k2, k3, k4, _⟩ := calloc_step h hcl hL hc hres hF
    exact ⟨bs', fl', k1, k2, k3, fun b hb hu _ => k4 b hb hu⟩
  | free p =>
    obtain ⟨rfl, rfl⟩ := Prod.mk.inj (Option.some.inj hres)
    obtain ⟨bs', fl', k1, k2, k3, k4⟩ := free_step h hcl hL hc
    exact ⟨bs', fl', k1, k2, k3, fun b hb hu hs => k4 b hb hu (fun he => hs he.symm)⟩
  | realloc p n =>
    obtain ⟨bs', fl', k1, k2, k3, k4⟩ := realloc_step h hcl hL hc.1 hc.2 hres hF
    exact ⟨bs', fl', k1, k2, k3, fun b hb hu hs => k4 b hb hu (fun he => hs he.symm)⟩
  | store a v =>
    obtain ⟨rfl, rfl⟩ := Prod.mk.inj (Option.some.inj hres)
    obtain ⟨k1, b', hb', hu', h1, h2⟩ := store_step (v := v % 256) h hL hc
    refine ⟨bs, fl, k1, hcl, hL, ?_⟩
    intro b hb hu hs
    refine ⟨hb, ?_⟩
    intro x hx1 hx2
    show (if x = a then v % 256 else s.mem x) = s.mem x
    have hne : x ≠ a := by
      rintro rfl
      have hs' : x < b.addr + 24 ∨ b.addr + 24 + get_block_size s.mem
          (get_block_metadata (b.addr + 24)) ≤ x := hs
      rw [get_block_metadata_payload, h.gbs hb] at hs'
      rcases Tiles_disj _ _ _ h.tiles b hb b' hb' with rfl | h5 | h5
      · omega
      · omega
      · omega
    rw [if_neg hne]

theorem step_inv {s s' : Heap} {L : List Nat} {fuel r : Nat} {g : Bool} {c : Call}
    (h : Inv s L) (hc : Contract s L c) (hres : run fuel g s c = some (s', r)) (hF : Fits s') :
    Inv s' (liveAfter L c r) := by
  obtain ⟨bs, fl, h1, h2, h3⟩ := h
  obtain ⟨bs', fl', k1, k2, k3, _⟩ := step_spec h1 h2 h3 hc hres hF
  exact ⟨bs', fl', k1, k2, k3⟩

/-- Every reachable state satisfies the invariant. -/
theorem reach_inv {s : Heap} {L : List Nat} (h : Reach s L) : Inv s L := by
  induction h with
  | init base h0 h1 =>
    refine ⟨[], [], WF_init h0 h1, fun b hb => by simp at hb, ?_⟩
    intro p
    unfold Live
    simp
  | step fuel grant c s' r _ hc hres hF ih => exact step_inv ih hc hres hF

/-! ## The calls return -/

/-- With fuel of at least the break, `malloc` returns on a well-formed heap. -/
theorem malloc_total {s : Heap} {bs : List Blk} {fl : List Nat} (h : WF s bs fl) (n : Nat)
    (g : Bool) {fuel : Nat} (hfuel : s.brk ≤ fuel) : ∃ res, malloc fuel s n g = some res := by
  rw [malloc_eq]
  by_cases hn : n = 0
  · rw [if_pos hn]; exact ⟨_, rfl⟩
  rw [if_neg hn]
  obtain ⟨e1, e2, e3, e4⟩ := init_heap_start_fields s
  obtain ⟨q, hq⟩ := h.scan_total (round_request n) hfuel
  rw [e1, e3, hq]
  dsimp only
  by_cases hq0 : q = 0
  · rw [if_neg (by simpa using hq0)]
    cases sbrk (init_heap_start s) ((METADATA_SIZE + INT_SIZE + round_request n) % SZ) g with
    | none => exact ⟨_, rfl⟩
    | some s1 => exact ⟨_, rfl⟩
  · rw [if_pos hq0]; exact ⟨_, rfl⟩

/-- In a reachable state every call returns, given fuel of at least the break. -/
theorem run_total {s : Heap} {L : List Nat} (h : Reach s L) (c : Call) (g : Bool) {fuel : Nat}
    (hfuel : s.brk ≤ fuel) : ∃ res, run fuel g s c = some res := by
  obtain ⟨bs, fl, h1, -, -⟩ := reach_inv h
  cases c with
  | malloc n => exact malloc_total h1 n g hfuel
  | calloc num size =>
    obtain ⟨res, hres⟩ := malloc_total h1 (num * size % SZ) g hfuel
    show ∃ res, calloc fuel s num size g = some res
    unfold calloc
    dsimp only
    rw [hres]
    dsimp only
    split_ifs <;> exact ⟨_, rfl⟩
  | free p => exact ⟨_, rfl⟩
  | realloc p n =>
    obtain ⟨res, hres⟩ := malloc_total h1 n g hfuel
    show ∃ res, realloc fuel s p n g = some res
    unfold realloc
    dsimp only
    rw [hres]
    dsimp only
    split_ifs <;> exact ⟨_, rfl⟩
  | store a v => exact ⟨_, rfl⟩

/-! ## Further facts about the operations -/

theorem run_exec (fuel : Nat) (g : Bool) (sL : Heap × List Nat) (c : Call)
    (h : (run fuel g sL.1 c).isSome = true) :
    run fuel g sL.1 c = some ((exec fuel g sL c).1, ret fuel g sL.1 c) ∧
      (exec fuel g sL c).2 = liveAfter sL.2 c (ret fuel g sL.1 c) := by
  unfold exec ret
  cases hr : run fuel g sL.1 c with
  | none => rw [hr] at h; exact absurd h (by simp)
  | some res => exact ⟨rfl, rfl⟩

theorem run_exec_ret (fuel : Nat) (g : Bool) (sL : Heap × List Nat) (c : Call) (r : Nat)
    (h : (run fuel g sL.1 c).isSome = true) (hr : ret fuel g sL.1 c = r) :
    run fuel g sL.1 c = some ((exec fuel g sL c).1, r) := by
  rw [← hr]
  exact (run_exec fuel g sL c h).1

theorem reach_exec {fuel : Nat} {g : Bool} {sL : Heap × List Nat} {c : Call}
    (h : Reach sL.1 sL.2) (hc : Contract sL.1 sL.2 c)
    (hs : (run fuel g sL.1 c).isSome = true) (hF : Fits (exec fuel g sL c).1) :
    Reach (exec fuel g sL c).1 (exec fuel g sL c).2 := by
  obtain ⟨e1, e2⟩ := run_exec fuel g sL c hs
  rw [e2]
  exact Reach.step fuel g c _ _ h hc e1 hF

theorem reach_t0 : Reach t0.1 t0.2 := Reach.init 4096 (by decide) (by decide)

theorem reach_t1 : Reach t1.1 t1.2 :=
  reach_exec reach_t0 (by decide) (by decide) (by decide)

theorem reach_t2 : Reach t2.1 t2.2 :=
  reach_exec reach_t1 (by decide) (by decide) (by decide)

theorem reach_t3 : Reach t3.1 t3.2 :=
  reach_exec reach_t2 (by decide) (by decide) (by decide)

theorem reach_u1 : Reach u1.1 u1.2 :=
  reach_exec reach_t0 (by decide) (by decide) (by decide)

theorem reach_u2 : Reach u2.1 u2.2 :=
  reach_exec reach_u1 (by decide) (by decide) (by decide)

theorem reach_u3 : Reach u3.1 u3.2 :=
  reach_exec reach_u2 (by decide) (by decide) (by decide)

theorem reach_u4 : Reach u4.1 u4.2 :=
  reach_exec reach_u3 (by decide) (by decide) (by decide)

theorem reach_u5 : Reach u5.1 u5.2 :=
  reach_exec reach_u4 (by decide) (by decide) (by decide)

theorem reach_u6 : Reach u6.1 u6.2 :=
  reach_exec reach_u5 (by decide) (by decide) (by decide)

theorem reach_d1 : Reach d1.1 d1.2 :=
  reach_exec reach_t0 (by decide) (by decide) (by decide)

theorem reach_d2 : Reach d2.1 d2.2 :=
  reach_exec reach_d1 (by decide) (by decide) (by decide)

/-! ## The claims -/

/-- C3: whenever `malloc` returns the null sentinel (the break itself is not the null
address), memory (hence the header, footer and links of every block), the free-list head and
the heap top are what they were before the call; and this happens only when the request is
0, or when the scan finds no fitting block and the growth call fails. -/
theorem C3_malloc_null_unchanged {s s' : Heap} {fuel n : Nat} {g : Bool} (hb : s.brk ≠ 0)
    (hres : malloc fuel s n g = some (s', 0)) :
    s'.mem = s.mem ∧ s'.metadata_head = s.metadata_head ∧ s'.brk = s.brk ∧
      (n = 0 ∨
        (first_fit s.mem (round_request n) fuel s.metadata_head = some 0 ∧
          sbrk (init_heap_start s) ((METADATA_SIZE + INT_SIZE + round_request n) % SZ) g
            = none)) := by
  rw [malloc_eq] at hres
  obtain ⟨e1, e2, e3, e4⟩ := init_heap_start_fields s
  by_cases hn : n = 0
  · rw [if_pos hn] at hres
    obtain ⟨rfl, -⟩ := Prod.mk.inj (Option.some.inj hres)
    exact ⟨rfl, rfl, rfl, Or.inl hn⟩
  rw [if_neg hn, e1, e3] at hres
  cases hff : first_fit s.mem (round_request n) fuel s.metadata_head with
  | none => rw [hff] at hres; exact absurd hres (by simp)
  | some chosen =>
    rw [hff] at hres
    simp only at hres
    by_cases hc : chosen = 0
    · subst hc
      simp only [ne_eq, not_true_eq_false, if_false] at hres
      cases hsb : sbrk (init_heap_start s)
          ((METADATA_SIZE + INT_SIZE + round_request n) % SZ) g with
      | none =>
        rw [hsb] at hres
        obtain ⟨rfl, -⟩ := Prod.mk.inj (Option.some.inj hres)
        exact ⟨e1, e3, e2, Or.inr ⟨rfl, rfl⟩⟩
      | some s1 =>
        rw [hsb] at hres
        obtain ⟨-, r2⟩ := Prod.mk.inj (Option.some.inj hres)
        rw [e2, get_block_address_ne hb] at r2
        omega
    · simp only [ne_eq, hc, not_false_eq_true, if_true] at hres
      obtain ⟨-, r2⟩ := Prod.mk.inj (Option.some.inj hres)
      rw [get_block_address_ne hc] at r2
      omega

/-- Witness of C3: with one live block and no free block, `malloc(2000)` whose growth call
fails returns null and changes neither memory, nor the free-list head, nor the heap top. -/
theorem C3_witness :
    ret 8 false t1.1 (.malloc 2000) = 0 ∧
      (exec 8 false t1 (.malloc 2000)).1.mem = t1.1.mem ∧
      (exec 8 false t1 (.malloc 2000)).1.metadata_head = t1.1.metadata_head ∧
      (exec 8 false t1 (.malloc 2000)).1.brk = t1.1.brk := by
  have r0 : ret 8 false t1.1 (.malloc 2000) = 0 := by decide
  have e : malloc 8 t1.1 2000 false = some ((exec 8 false t1 (.malloc 2000)).1, 0) :=
    run_exec_ret 8 false t1 (.malloc 2000) 0 (by decide) r0
  have k := C3_malloc_null_unchanged (by decide) e
  exact ⟨r0, k.1, k.2.1, k.2.2.1⟩

/-! ## A release below a block that was just appended

The block of a fresh allocation lies above the former break. A release of an older block
reads no byte of it but its flag and writes none, whatever the size of the new block: the
release commutes with the replacement of the memory above the former break. -/

theorem with_top_fields (B : Nat) (u : Mem) (T : Nat) (s : Heap) :
    (with_top B u T s).mem = overlay B s.mem u ∧ (with_top B u T s).brk = T ∧
      (with_top B u T s).metadata_head = s.metadata_head ∧
      (with_top B u T s).heap_start = s.heap_start :=
  ⟨rfl, rfl, rfl, rfl⟩

/-- C4: when `calloc` returns a non-null address `p` for `num * size = k` bytes (no overflow),
every byte of `[p, p + k)` is zero right after the call. -/
theorem C4_calloc_zero_filled {s s' : Heap} {fuel num size p : Nat} {g : Bool}
    (hres : calloc fuel s num size g = some (s', p)) (hp : p ≠ 0) (hk : num * size < SZ) :
    ∀ i, i < num * size → s'.mem (p + i) = 0 := by
  unfold calloc at hres
  rw [Nat.mod_eq_of_lt hk] at hres
  dsimp only at hres
  cases hm : malloc fuel s (num * size) g with
  | none => rw [hm] at hres; exact absurd hres (by simp)
  | some res =>
    obtain ⟨s1, ptr⟩ := res
    rw [hm] at hres
    simp only at hres
    by_cases h0 : ptr = 0
    · rw [if_pos h0] at hres
      obtain ⟨-, r2⟩ := Prod.mk.inj (Option.some.inj hres)
      exact absurd r2.symm hp
    · rw [if_neg h0] at hres
      obtain ⟨rfl, rfl⟩ := Prod.mk.inj (Option.some.inj hres)
      intro i hi
      show memset0 s1.mem ptr (num * size) (ptr + i) = 0
      unfold memset0
      rw [if_pos (by omega)]

/-- Witness of C4: `calloc(3, 5)` after a block has been used and released returns `4120`,
and byte 7 of the 15 bytes is zero. -/
theorem C4_witness :
    ret 8 true t3.1 (.calloc 3 5) = 4120 ∧
      (exec 8 true t3 (.calloc 3 5)).1.mem (4120 + 7) = 0 :=
  ⟨by decide,
    @C4_calloc_zero_filled t3.1 (exec 8 true t3 (.calloc 3 5)).1 8 3 5 4120 true
      (run_exec_ret 8 true t3 (.calloc 3 5) 4120 (by decide) (by decide))
      (by decide) (by decide) 7 (by decide)⟩

/-- C6: for an address `p` and a size `n` with `0 < n ≤` the recorded size of the block of
`p`, `realloc(p, n)` returns `p` and the whole state (memory, free-list head, heap top) is
the state before the call. -/
theorem C6_realloc_no_shrink (fuel : Nat) (s : Heap) (p n : Nat) (g : Bool) (hp : p ≠ 0)
    (hn : 0 < n) (hle : n ≤ get_block_size s.mem (get_block_metadata p)) :
    realloc fuel s p n g = some (s, p) := by
  unfold realloc
  rw [if_neg hp, if_neg (by omega)]
  dsimp only
  rw [if_pos hle]

/-- Witness of C6: `realloc(4120, 12)` on the live block of size 16 at `4120`. -/
theorem C6_witness :
    4120 ∈ t1.2 ∧ 12 ≤ get_block_size t1.1.mem (get_block_metadata 4120) ∧
      realloc 8 t1.1 4120 12 true = some (t1.1, 4120) :=
  ⟨by decide, by decide, C6_realloc_no_shrink 8 t1.1 4120 12 true (by decide) (by decide)
    (by decide)⟩

/-- The rounding of `malloc` is the general rounding at the header width. -/
theorem round_request_eq (n : Nat) : round_request n = round_to METADATA_SIZE n := rfl

/-- For a header whose width is a power of two, the rounding statement of `malloc` computes
the least multiple of the width that is at least the request. -/
theorem round_to_pow_two {j n : Nat} (h0 : 0 < n) (hn : n + 2 ^ j ≤ SZ) :
    2 ^ j ∣ round_to (2 ^ j) n ∧ n ≤ round_to (2 ^ j) n ∧
      ∀ x, 2 ^ j ∣ x → n ≤ x → round_to (2 ^ j) n ≤ x := by
  have hW : 0 < 2 ^ j := Nat.pow_pos (by norm_num)
  have hj : j ≤ 64 := by
    by_contra hj
    have : 2 ^ 64 < 2 ^ j := Nat.pow_lt_pow_right (by norm_num) (by omega)
    unfold SZ at hn
    omega
  have hdvd : 2 ^ j ∣ SZ := Nat.pow_dvd_pow 2 hj
  unfold round_to
  rw [Nat.and_pow_two_sub_one_eq_mod]
  generalize 2 ^ j = W at hW hn hdvd ⊢
  have h1 : n % SZ = n := Nat.mod_eq_of_lt (by omega)
  rw [h1]
  have hsum : W ∣ n + (W + SZ - n) % SZ := by
    by_cases hc : n ≤ W
    · have : (W + SZ - n) % SZ = W - n := by
        have e : W + SZ - n = (W - n) + SZ := by omega
        rw [e, Nat.add_mod_right, Nat.mod_eq_of_lt (by omega)]
      rw [this]
      have e : n + (W - n) = W := by omega
      rw [e]
    · have : (W + SZ - n) % SZ = W + SZ - n := Nat.mod_eq_of_lt (by omega)
      rw [this]
      have e : n + (W + SZ - n) = W + SZ := by omega
      rw [e]
      exact Dvd.dvd.add (dvd_refl W) hdvd
  have he : (W + SZ - n) % SZ % W < W := Nat.mod_lt _ hW
  have hr : W ∣ n + (W + SZ - n) % SZ % W := by
    have h2 : (n + (W + SZ - n) % SZ % W) % W = (n + (W + SZ - n) % SZ) % W := by
      rw [Nat.add_mod, Nat.mod_mod, ← Nat.add_mod]
    exact Nat.dvd_of_mod_eq_zero (by rw [h2]; exact Nat.mod_eq_zero_of_dvd hsum)
  generalize (W + SZ - n) % SZ % W = e at he hr ⊢
  rw [Nat.mod_eq_of_lt (by omega)]
  refine ⟨hr, by omega, ?_⟩
  intro x hx hnx
  by_contra hlt
  have hpos : 0 < n + e - x := by omega
  have hd : W ∣ n + e - x := Nat.dvd_sub' hr hx
  have := Nat.le_of_dvd hpos hd
  omega

/-- C11: with the 24-byte header of the LP64 layout the rounding statement of `malloc` does
not compute the least multiple of the header width: the request 10 is rounded to 16, which
is not a multiple of 24 (the least multiple of 24 that is at least 10 is 24), and the
rounding is not even monotone, since the request 8 is rounded to 24 and the request 9 to
16. With a 16-byte header the same statement rounds 10 to 16, the least multiple. -/
theorem C11_rounding_not_a_multiple :
    METADATA_SIZE = 24 ∧ round_request 10 = 16 ∧ ¬ METADATA_SIZE ∣ round_request 10 ∧
      (METADATA_SIZE ∣ 24 ∧ 10 ≤ 24 ∧ ∀ x, x < 24 → 10 ≤ x → ¬ METADATA_SIZE ∣ x) ∧
      round_request 8 = 24 ∧ round_request 9 = 16 ∧
      round_to 16 10 = 16 ∧ round_to 16 8 = 16 ∧ round_to 16 9 = 16 := by
  decide

/-! ## Walking the heap and the free list -/

theorem Tiles_length : ∀ (bs : List Blk) (a e : Nat), Tiles a bs e → a + 28 * bs.length ≤ e := by
  intro bs
  induction bs with
  | nil =>
    intro a e h
    rw [Tiles_nil] at h
    simp [h]
  | cons b bs ih =>
    intro a e h
    rw [Tiles_cons] at h
    have := ih _ _ h.2
    simp only [List.length_cons]
    omega

theorem reach_t4 : Reach t4.1 t4.2 :=
  reach_exec reach_t3 (by decide) (by decide) (by decide)

theorem reach_d3 : Reach d3.1 d3.2 :=
  reach_exec reach_d2 (by decide) (by decide) (by decide)

theorem reach_w2 : Reach w2.1 w2.2 :=
  reach_exec reach_d1 (by decide) (by decide) (by decide)

theorem reach_w3 : Reach w3.1 w3.2 :=
  reach_exec reach_w2 (by decide) (by decide) (by decide)

theorem reach_w4 : Reach w4.1 w4.2 :=
  reach_exec reach_w3 (by decide) (by decide) (by decide)

theorem reach_w5 : Reach w5.1 w5.2 :=
  reach_exec reach_w4 (by decide) (by decide) (by decide)

/-- In a layout of free and used blocks the flag tells the status. -/
theorem WF.free_iff {s : Heap} {bs : List Blk} {fl : List Nat} (h : WF s bs fl)
    (hcl : Clean bs) {b : Blk} (hb : b ∈ bs) :
    (is_block_free s.mem b.addr = true ↔ b.st = .free) ∧
      (is_block_free s.mem b.addr = false ↔ b.st = .used) := by
  rcases hcl b hb with hf | hu
  · have e := h.is_free hb hf
    rw [e, hf]
    simp
  · have e := h.not_free hb (Or.inl hu)
    rw [e, hu]
    simp

theorem start_free (s : Heap) (p : Nat) : start (free s p) = start s := by
  obtain ⟨e1, e2⟩ := free_fields s p
  unfold start
  rw [e1, e2]

/-- The header before a block is a free block of size at least `x` exactly when the previous
block of the layout is one. -/
theorem WF.left_free_iff {s : Heap} {pre post : List Blk} {l b : Blk} {fl : List Nat}
    (h : WF s (pre ++ l :: b :: post) fl) (hcl : Clean (pre ++ l :: b :: post)) (x : Nat) :
    (is_block_free s.mem l.addr = true ∧ x ≤ get_block_size s.mem l.addr) ↔
      (l.st = .free ∧ x ≤ l.size) := by
  have hl : l ∈ pre ++ l :: b :: post := by simp
  rw [h.gbs hl, (h.free_iff hcl hl).1]

end Alloc
